import Mathlib

/-!
Rasterisation core of p5c: a shallow embedding of `src/p5c.c`.

The process-wide globals of `p5c.c` become the fields of `State`; every C
function that mutates them becomes a function `State → State`, or
`State → Option State` where the C code has a `while` loop (run here with
explicit fuel) or can cast a non-finite float to `int`; the result `none`
means that the loop did not finish within its fuel or that the cast is
undefined.

Modelling conventions
* C `int` is `Int`; the claims below concern coordinates far from the 32-bit
  range, so no wrap-around is modelled.
* C `float` is modelled by exact rationals `ℚ`.  All values that occur in the
  theorems about concrete inputs are small dyadic rationals, which binary32
  represents exactly.  A float division by zero produces a non-finite value,
  modelled by `none` in `Option ℚ`.
* The cast `(int)f` truncates toward zero (`castInt`).
* `uint8_t` colour components and `uint32_t` buffer cells are `Nat`.
* `framebuffer` is `none` for the NULL pointer, otherwise the list of cells.
* The C library functions called by `arcDetail` (`cosf`, `sinf`, `sqrtf`,
  `atan2f`) are not part of the repository; they are the fields of the
  parameter `Libm`, and the theorems about `arcDetail` hold for every choice.
* The local arrays `px`, `py` of `arcDetail` are the list of stored samples;
  a read at an index that holds no sample gives `none`.
-/

namespace P5c

/-- The `Color` struct of `p5c.h` (three `uint8_t` components). -/
structure Color where
  r : Nat
  g : Nat
  b : Nat
deriving DecidableEq, Repr

/-- The `Matrix` struct: `float m[3][3]`, field `mij` is `m[i][j]`. -/
structure Matrix where
  m00 : ℚ
  m01 : ℚ
  m02 : ℚ
  m10 : ℚ
  m11 : ℚ
  m12 : ℚ
  m20 : ℚ
  m21 : ℚ
  m22 : ℚ
deriving DecidableEq, Repr

/-- The constant `MAX_MATRIX_STACK`. -/
def MAX_MATRIX_STACK : Int := 32

/-- The global variables of `p5c.c` that the rasterisation core reads or writes. -/
structure State where
  width : Int
  height : Int
  framebuffer : Option (List Nat)
  fillColor : Color
  strokeColor : Color
  useFill : Bool
  useStroke : Bool
  currentAngleMode : Int
  strokeWeightValue : Int
  currentMatrix : Matrix
  matrixStack : Nat → Matrix
  matrixStackSize : Int

/-- The matrix written by `_init_matrix`: all zero, ones on the diagonal. -/
def _init_matrix : Matrix :=
  { m00 := 1, m01 := 0, m02 := 0, m10 := 0, m11 := 1, m12 := 0, m20 := 0, m21 := 0, m22 := 1 }

/-- The function `_transform_point`: applies the current matrix to `(x, y)`. -/
def _transform_point (s : State) (x y : ℚ) : ℚ × ℚ :=
  let tx := x * s.currentMatrix.m00 + y * s.currentMatrix.m01 + s.currentMatrix.m02
  let ty := x * s.currentMatrix.m10 + y * s.currentMatrix.m11 + s.currentMatrix.m12
  (tx, ty)

/-- The C cast `(int)f` of a finite float: truncation toward zero. -/
def castInt (q : ℚ) : Int := if 0 ≤ q then ⌊q⌋ else ⌈q⌉

/-- The packed pixel value `(0xFF << 24) | (r << 16) | (g << 8) | b`. -/
def packColor (r g b : Nat) : Nat :=
  (0xFF <<< 24) ||| (r <<< 16) ||| (g <<< 8) ||| b

/-- The device coordinate computed inside `_set_pixel`: transform, add `0.5f`, cast.  The
arithmetic is exact here; the binary32 arithmetic of the code is exact as well when the
transform has dyadic entries and the coordinates are below `2^23` in absolute value (for an
odd `x ≥ 2^23` the sum `x + 0.5f` rounds to `x + 1`), which is why the statements about
canvas cells assume a canvas of at most `2^23` columns and rows. -/
def devicePixel (s : State) (x y : Int) : Int × Int :=
  let p := _transform_point s (x : ℚ) (y : ℚ)
  (castInt (p.1 + 1 / 2), castInt (p.2 + 1 / 2))

/-- The function `_set_pixel`: the pixel sink. -/
def _set_pixel (s : State) (x y : Int) (r g b : Nat) : State :=
  match s.framebuffer with
  | none => s
  | some fb =>
    let p := devicePixel s x y
    let x := p.1
    let y := p.2
    if x < 0 ∨ x ≥ s.width ∨ y < 0 ∨ y ≥ s.height then s
    else
      let color := packColor r g b
      { s with framebuffer := some (fb.set (y * s.width + x).toNat color) }

/-- The integers `lo, lo+1, ..., hi-1` visited by `for (i = lo; i < hi; i++)`. -/
def intRangeLt (lo hi : Int) : List Int :=
  (List.range (hi - lo).toNat).map (fun (k : Nat) => lo + (k : Int))

/-- The integers `lo, lo+1, ..., hi` visited by `for (i = lo; i <= hi; i++)`. -/
def intRange (lo hi : Int) : List Int :=
  intRangeLt lo (hi + 1)

/-- The initial values of the globals (`p5c.c` lines 35-70); statics are zero. -/
def initialState : State :=
  { width := 640, height := 480, framebuffer := none,
    fillColor := ⟨255, 255, 255⟩, strokeColor := ⟨0, 0, 0⟩,
    useFill := true, useStroke := true,
    currentAngleMode := 0, strokeWeightValue := 1,
    currentMatrix := ⟨0, 0, 0, 0, 0, 0, 0, 0, 0⟩,
    matrixStack := fun _ => ⟨0, 0, 0, 0, 0, 0, 0, 0, 0⟩,
    matrixStackSize := 0 }

/-- The function `size`: stores the requested canvas dimensions. -/
def size (s : State) (w h : Int) : State :=
  { s with width := w, height := h }

/-- The function `_clear_framebuffer`: stores the colour in cells `0 .. width*height-1`. -/
def _clear_framebuffer (s : State) (r g b : Nat) : State :=
  match s.framebuffer with
  | none => s
  | some fb =>
    let color := packColor r g b
    let cleared := (List.range (s.width * s.height).toNat).foldl (fun fb i => fb.set i color) fb
    { s with framebuffer := some cleared }

/-- The function `_init_framebuffer`: a fresh block of `width * height` cells, then cleared
to opaque black.  (Allocation failure terminates the process and is not modelled.) -/
def _init_framebuffer (s : State) : State :=
  _clear_framebuffer
    { s with framebuffer := some (List.replicate (s.width * s.height).toNat 0) } 0 0 0

/-- The function `resetMatrix`. -/
def resetMatrix (s : State) : State :=
  { s with currentMatrix := _init_matrix }

/-- The state in which `run` enters the frame loop after a `setup` that called `size(w, h)`:
buffer allocated and cleared, current matrix the identity. -/
def readyState (w h : Int) : State :=
  resetMatrix (_init_framebuffer (size initialState w h))

/-- The function `point`. -/
def point (s : State) (x y : Int) : State :=
  if s.useStroke then
    let halfWeight := Int.tdiv s.strokeWeightValue 2
    (intRange (-halfWeight) halfWeight).foldl (fun s dx =>
      (intRange (-halfWeight) halfWeight).foldl (fun s dy =>
        _set_pixel s (x + dx) (y + dy) s.strokeColor.r s.strokeColor.g s.strokeColor.b) s) s
  else s

/-- The function `fill`. -/
def fill (s : State) (r g b : Nat) : State :=
  { s with fillColor := ⟨r, g, b⟩, useFill := true }

/-- The function `noFill`. -/
def noFill (s : State) : State :=
  { s with useFill := false }

/-- The function `stroke`. -/
def stroke (s : State) (r g b : Nat) : State :=
  { s with strokeColor := ⟨r, g, b⟩, useStroke := true }

/-- The function `noStroke`. -/
def noStroke (s : State) : State :=
  { s with useStroke := false }

/-- The function `strokeWeight`. -/
def strokeWeight (s : State) (weight : Int) : State :=
  if weight > 0 then { s with strokeWeightValue := weight } else s

/-- The function `push`. -/
def push (s : State) : State :=
  if s.matrixStackSize ≥ MAX_MATRIX_STACK then s
  else
    { s with
      matrixStack := Function.update s.matrixStack s.matrixStackSize.toNat s.currentMatrix,
      matrixStackSize := s.matrixStackSize + 1 }

/-- The function `pop`. -/
def pop (s : State) : State :=
  if s.matrixStackSize ≤ 0 then s
  else
    { s with
      matrixStackSize := s.matrixStackSize - 1,
      currentMatrix := s.matrixStack (s.matrixStackSize - 1).toNat }

/-- The function `translate`. -/
def translate (s : State) (x y : ℚ) : State :=
  { s with currentMatrix :=
      { s.currentMatrix with
        m02 := s.currentMatrix.m02 + (x * s.currentMatrix.m00 + y * s.currentMatrix.m01),
        m12 := s.currentMatrix.m12 + (x * s.currentMatrix.m10 + y * s.currentMatrix.m11) } }

/-- The `while (1)` loop of `line`, run with fuel; `none` when the fuel is used up before
the loop reaches its `break`.  The arguments `x1 y1 err` are the loop-carried variables. -/
def lineLoop (x2 y2 dx dy sx sy halfWeight : Int) :
    Nat → State → Int → Int → Int → Option State
  | 0, _, _, _, _ => none
  | fuel + 1, s, x1, y1, err =>
    let s := (intRange (-halfWeight) halfWeight).foldl (fun s offset =>
      if dx > dy then
        _set_pixel s x1 (y1 + offset) s.strokeColor.r s.strokeColor.g s.strokeColor.b
      else
        _set_pixel s (x1 + offset) y1 s.strokeColor.r s.strokeColor.g s.strokeColor.b) s
    if x1 = x2 ∧ y1 = y2 then some s
    else
      let e2 := 2 * err
      let err1 := if e2 > -dy then err - dy else err
      let x1' := if e2 > -dy then x1 + sx else x1
      let err2 := if e2 < dx then err1 + dx else err1
      let y1' := if e2 < dx then y1 + sy else y1
      lineLoop x2 y2 dx dy sx sy halfWeight fuel s x1' y1' err2

/-- The function `line` (Bresenham with an axis-aligned thickness band).  The loop is given
`|x2-x1| + |y2-y1| + 1` iterations of fuel. -/
def line (s : State) (x1 y1 x2 y2 : Int) : Option State :=
  if !s.useStroke then some s
  else
    let dx := |x2 - x1|
    let dy := |y2 - y1|
    let sx : Int := if x1 < x2 then 1 else -1
    let sy : Int := if y1 < y2 then 1 else -1
    let err := dx - dy
    let halfWeight := Int.tdiv s.strokeWeightValue 2
    lineLoop x2 y2 dx dy sx sy halfWeight (dx + dy + 1).toNat s x1 y1 err

/-- The function `rect`. -/
def rect (s : State) (x y w h : Int) : Option State :=
  let s :=
    if s.useFill then
      (intRangeLt y (y + h)).foldl (fun s j =>
        (intRangeLt x (x + w)).foldl (fun s i =>
          _set_pixel s i j s.fillColor.r s.fillColor.g s.fillColor.b) s) s
    else s
  if s.useStroke then
    (line s x y (x + w - 1) y).bind fun s =>
    (line s (x + w - 1) y (x + w - 1) (y + h - 1)).bind fun s =>
    (line s (x + w - 1) (y + h - 1) x (y + h - 1)).bind fun s =>
    line s x (y + h - 1) x y
  else some s

/-- The function `square`. -/
def square (s : State) (x y size : Int) : Option State :=
  rect s x y size size

/-- A C `float` value: `some q` is the finite value `q`, `none` is an infinity or NaN. -/
abbrev CFloat := Option ℚ

/-- Float division `a / b`; dividing by zero gives a non-finite value. -/
def fdiv (a b : ℚ) : CFloat :=
  if b = 0 then none else some (a / b)

/-- Float addition; a non-finite operand gives a non-finite result. -/
def fadd (a b : CFloat) : CFloat :=
  a.bind fun x => b.map fun y => x + y

/-- Float subtraction; a non-finite operand gives a non-finite result. -/
def fsub (a b : CFloat) : CFloat :=
  a.bind fun x => b.map fun y => x - y

/-- The cast `(int)f` of a float; undefined (`none`) on a non-finite value. -/
def castIntF (f : CFloat) : Option Int :=
  f.map castInt

/-- The exact value of `(int)(a * sqrt(t))` for `a ≥ 0` and `t ≥ 0`. -/
def floorMulSqrt (a : Int) (t : ℚ) : Int :=
  (Nat.sqrt ⌊(a : ℚ) * (a : ℚ) * t⌋.toNat : Nat)

/-- The first midpoint loop of `ellipse` (`while (dx < dy)`), run with fuel. -/
def ellipseRegion1 (cx cy a_sqr b_sqr : Int) :
    Nat → State → Int → Int → Int → Int → Int → Option State
  | fuel, s, x1, y1, dx, dy, d1 =>
    if dx < dy then
      match fuel with
      | 0 => none
      | fuel + 1 =>
        let s := _set_pixel s (cx + x1) (cy + y1) s.strokeColor.r s.strokeColor.g s.strokeColor.b
        let s := _set_pixel s (cx - x1) (cy + y1) s.strokeColor.r s.strokeColor.g s.strokeColor.b
        let s := _set_pixel s (cx + x1) (cy - y1) s.strokeColor.r s.strokeColor.g s.strokeColor.b
        let s := _set_pixel s (cx - x1) (cy - y1) s.strokeColor.r s.strokeColor.g s.strokeColor.b
        let x1 := x1 + 1
        let dx := dx + 2 * b_sqr
        if d1 < 0 then
          ellipseRegion1 cx cy a_sqr b_sqr fuel s x1 y1 dx dy (d1 + (dx + b_sqr))
        else
          let y1 := y1 - 1
          let dy := dy - 2 * a_sqr
          ellipseRegion1 cx cy a_sqr b_sqr fuel s x1 y1 dx dy (d1 + (dx - dy + b_sqr))
    else some s

/-- The second midpoint loop of `ellipse` (`while (dx > dy)`), run with fuel. -/
def ellipseRegion2 (cx cy a_sqr b_sqr : Int) :
    Nat → State → Int → Int → Int → Int → Int → Option State
  | fuel, s, x2, y2, dx, dy, d2 =>
    if dx > dy then
      match fuel with
      | 0 => none
      | fuel + 1 =>
        let s := _set_pixel s (cx + x2) (cy + y2) s.strokeColor.r s.strokeColor.g s.strokeColor.b
        let s := _set_pixel s (cx - x2) (cy + y2) s.strokeColor.r s.strokeColor.g s.strokeColor.b
        let s := _set_pixel s (cx + x2) (cy - y2) s.strokeColor.r s.strokeColor.g s.strokeColor.b
        let s := _set_pixel s (cx - x2) (cy - y2) s.strokeColor.r s.strokeColor.g s.strokeColor.b
        let y2 := y2 + 1
        let dy := dy + 2 * a_sqr
        if d2 < 0 then
          ellipseRegion2 cx cy a_sqr b_sqr fuel s x2 y2 dx dy (d2 + (dy + a_sqr))
        else
          let x2 := x2 - 1
          let dx := dx - 2 * b_sqr
          ellipseRegion2 cx cy a_sqr b_sqr fuel s x2 y2 dx dy (d2 + (dy - dx + a_sqr))
    else some s

/-- The scanline fill loop of `ellipse` over the rows `sy` of the list. -/
def ellipseFill (cx cy a b : Int) : List Int → State → Option State
  | [], s => some s
  | sy :: rest, s =>
    match (fdiv ((sy * sy : Int) : ℚ) ((b * b : Int) : ℚ)).map (fun q => 1 - q) with
    | none => none
    | some temp =>
      if temp < 0 then ellipseFill cx cy a b rest s
      else
        let width := floorMulSqrt a temp
        let s := (intRange (-width) width).foldl (fun s sx =>
          _set_pixel s (cx + sx) (cy + sy) s.fillColor.r s.fillColor.g s.fillColor.b) s
        ellipseFill cx cy a b rest s

/-- The function `ellipse`. -/
def ellipse (s : State) (x y w h : Int) : Option State :=
  let a := Int.tdiv w 2
  let b := Int.tdiv h 2
  let cx := x + a
  let cy := y + b
  if w ≤ 0 ∨ h ≤ 0 then some s
  else if w = h ∧ w ≤ 2 then
    if s.useFill then
      some (_set_pixel s cx cy s.fillColor.r s.fillColor.g s.fillColor.b)
    else if s.useStroke then
      some (_set_pixel s cx cy s.strokeColor.r s.strokeColor.g s.strokeColor.b)
    else some s
  else
    (if s.useFill then ellipseFill cx cy a b (intRange (-b) b) s else some s).bind fun s =>
    if s.useStroke then
      let a_sqr := a * a
      let b_sqr := b * b
      let dy := 2 * a_sqr * b
      let d1 := b_sqr - a_sqr * b + Int.tdiv a_sqr 4
      (ellipseRegion1 cx cy a_sqr b_sqr (dy + 1).toNat s 0 b 0 dy d1).bind fun s =>
      let dx := 2 * b_sqr * a
      let d2 := a_sqr - b_sqr * a + Int.tdiv b_sqr 4
      ellipseRegion2 cx cy a_sqr b_sqr (dx + 1).toNat s a 0 dx 0 d2
    else some s

/-- The function `circle`. -/
def circle (s : State) (x y r : Int) : Option State :=
  ellipse s x y r r

/-- The function `_sort_points_by_y`: three compare-and-swap steps on `(x, y)` pairs. -/
def _sort_points_by_y (p1 p2 p3 : Int × Int) : (Int × Int) × (Int × Int) × (Int × Int) :=
  let (p1, p2) := if p1.2 > p2.2 then (p2, p1) else (p1, p2)
  let (p2, p3) := if p2.2 > p3.2 then (p3, p2) else (p2, p3)
  let (p1, p2) := if p1.2 > p2.2 then (p2, p1) else (p1, p2)
  (p1, p2, p3)

/-- One scanline loop of `triangle`: for each row of `ys`, paint `(int)x_start .. (int)x_end`
and then update both accumulators with `op` (`fadd` for `+=`, `fsub` for `-=`).  The result
is `none` when a non-finite accumulator is cast to `int`. -/
def fillRows (op : CFloat → CFloat → CFloat) (slope1 slope2 : CFloat) :
    List Int → State → CFloat → CFloat → Option State
  | [], s, _, _ => some s
  | y :: rest, s, x_start, x_end =>
    match castIntF x_start, castIntF x_end with
    | some xs, some xe =>
      let s := (intRange xs xe).foldl (fun s x =>
        _set_pixel s x y s.fillColor.r s.fillColor.g s.fillColor.b) s
      fillRows op slope1 slope2 rest s (op x_start slope1) (op x_end slope2)
    | _, _ => none

/-- The rows `hi, hi-1, ..., lo` visited by `for (y = hi; y >= lo; y--)`. -/
def intRangeDown (hi lo : Int) : List Int :=
  (intRange lo hi).reverse

/-- The fill part of `triangle` (after the outline).  The integer division that computes
`x4` is undefined for a zero divisor, which is modelled by the result `none`. -/
def triangleFill (s : State) (x1 y1 x2 y2 x3 y3 : Int) : Option State :=
  match _sort_points_by_y (x1, y1) (x2, y2) (x3, y3) with
  | ((x1, y1), (x2, y2), (x3, y3)) =>
    if y2 = y3 then
      let slope1 := fdiv ((x2 - x1 : Int) : ℚ) ((y2 - y1 : Int) : ℚ)
      let slope2 := fdiv ((x3 - x1 : Int) : ℚ) ((y3 - y1 : Int) : ℚ)
      fillRows fadd slope1 slope2 (intRange y1 y2) s (some (x1 : ℚ)) (some (x1 : ℚ))
    else if y1 = y2 then
      let slope1 := fdiv ((x3 - x1 : Int) : ℚ) ((y3 - y1 : Int) : ℚ)
      let slope2 := fdiv ((x3 - x2 : Int) : ℚ) ((y3 - y2 : Int) : ℚ)
      fillRows fsub slope1 slope2 (intRangeDown y3 y1) s
        (some (x3 : ℚ)) (some (x3 : ℚ))
    else if y3 - y1 = 0 then none
    else
      let y4 := y2
      let x4 := x1 + Int.tdiv ((y2 - y1) * (x3 - x1)) (y3 - y1)
      let slope1 := fdiv ((x2 - x1 : Int) : ℚ) ((y2 - y1 : Int) : ℚ)
      let slope2 := fdiv ((x4 - x1 : Int) : ℚ) ((y4 - y1 : Int) : ℚ)
      (fillRows fadd slope1 slope2 (intRange y1 y2) s (some (x1 : ℚ)) (some (x1 : ℚ))).bind fun s =>
      let slope1 := fdiv ((x3 - x2 : Int) : ℚ) ((y3 - y2 : Int) : ℚ)
      let slope2 := fdiv ((x3 - x4 : Int) : ℚ) ((y3 - y4 : Int) : ℚ)
      fillRows fsub slope1 slope2 (intRangeDown y3 (y2 + 1)) s
        (some (x3 : ℚ)) (some (x3 : ℚ))

/-- The function `triangle`. -/
def triangle (s : State) (x1 y1 x2 y2 x3 y3 : Int) : Option State :=
  (if s.useStroke then
    (line s x1 y1 x2 y2).bind fun s =>
    (line s x2 y2 x3 y3).bind fun s =>
    line s x3 y3 x1 y1
   else some s).bind fun s =>
  if s.useFill then triangleFill s x1 y1 x2 y2 x3 y3 else some s

/-- The function `background`. -/
def background (s : State) (r g b : Nat) : State :=
  _clear_framebuffer s r g b

/-- The constant `M_PI` (`#define M_PI 3.14159265358979323846`). -/
def M_PI : ℚ := 314159265358979323846 / 100000000000000000000

/-- The constant `RADIANS`. -/
def RADIANS : Int := 0

/-- The constant `DEGREES`. -/
def DEGREES : Int := 1

/-- The constant `OPEN`. -/
def OPEN : Int := 0

/-- The constant `CHORD`. -/
def CHORD : Int := 1

/-- The constant `PIE`. -/
def PIE : Int := 2

/-- The C library functions called by `arcDetail`; they are not part of the repository and
are parameters of the model. -/
structure Libm where
  cosf : ℚ → ℚ
  sinf : ℚ → ℚ
  sqrtf : ℚ → ℚ
  atan2f : ℚ → ℚ → ℚ

/-- The function `angleMode`. -/
def angleMode (s : State) (mode : Int) : State :=
  if mode = RADIANS ∨ mode = DEGREES then { s with currentAngleMode := mode } else s

/-- The function `_normalize_angle`. -/
def _normalize_angle (s : State) (angle : ℚ) : ℚ :=
  if s.currentAngleMode = DEGREES then angle * M_PI / 180 else angle

/-- The stop angle of `arcDetail` after `if (stopAngle < startAngle) stopAngle += 2 * M_PI`. -/
def arcStopAngle (startAngle stopAngle : ℚ) : ℚ :=
  if stopAngle < startAngle then stopAngle + 2 * M_PI else stopAngle

/-- The sample count of `arcDetail` after its two `if` statements on `detail`. -/
def arcEffectiveDetail (detail : Int) : Int :=
  let detail := if detail ≤ 0 then 25 else detail
  if detail > 360 then 360 else detail

/-- The `i`-th sample point `(px[i], py[i])` computed by `arcDetail`. -/
def arcSample (m : Libm) (cx cy a b : Int) (startAngle angleStep : ℚ) (i : Int) : Int × Int :=
  let angle := startAngle + (i : ℚ) * angleStep
  (cx + castInt ((a : ℚ) * m.cosf angle), cy + castInt ((b : ℚ) * m.sinf angle))

/-- The arrays `px`, `py` after the sampling loop `for (i = 0; i <= detail; i++)`, as the
list of the `count` stored points. -/
def arcSamples (m : Libm) (cx cy a b : Int) (startAngle angleStep : ℚ) (detail : Int) :
    List (Int × Int) :=
  (intRange 0 detail).map (arcSample m cx cy a b startAngle angleStep)

/-- Reading `(px[i], py[i])`; `none` when `i` is not the index of a stored sample. -/
def ptAt (pts : List (Int × Int)) (i : Int) : Option (Int × Int) :=
  if i < 0 then none else pts[i.toNat]?

/-- The PIE fill loop of `arcDetail`: `triangle(cx, cy, px[i], py[i], px[i+1], py[i+1])`. -/
def arcFillPie (cx cy : Int) (pts : List (Int × Int)) : List Int → State → Option State
  | [], s => some s
  | i :: rest, s =>
    (ptAt pts i).bind fun p =>
    (ptAt pts (i + 1)).bind fun q =>
    (triangle s cx cy p.1 p.2 q.1 q.2).bind fun s =>
    arcFillPie cx cy pts rest s

/-- The CHORD fill loop of `arcDetail`: triangles over consecutive sample triples. -/
def arcFillChord (pts : List (Int × Int)) : List Int → State → Option State
  | [], s => some s
  | i :: rest, s =>
    (ptAt pts i).bind fun p =>
    (ptAt pts (i + 1)).bind fun q =>
    (ptAt pts (i + 2)).bind fun r =>
    (triangle s p.1 p.2 q.1 q.2 r.1 r.2).bind fun s =>
    arcFillChord pts rest s

/-- The OPEN fill of `arcDetail`: scan the bounding ellipse and test each pixel's angle. -/
def arcFillOpen (m : Libm) (s : State) (cx cy a b : Int) (startAngle stopAngle : ℚ) : State :=
  (intRange (-b) b).foldl (fun (s : State) (sy : Int) =>
    let t : ℚ :=
      match fdiv (sy : ℚ) (b : ℚ) with
      | none => 0
      | some ry => max 0 (1 - ry * ry)
    let dx := (a : ℚ) * m.sqrtf t
    let xStart := castInt (-dx)
    let xEnd := castInt dx
    (intRange xStart xEnd).foldl (fun (s : State) (sx : Int) =>
      let angle := m.atan2f (sy : ℚ) (sx : ℚ)
      let angle := if angle < 0 then angle + 2 * M_PI else angle
      if angle ≥ startAngle ∧ angle ≤ stopAngle then
        _set_pixel s (cx + sx) (cy + sy) s.fillColor.r s.fillColor.g s.fillColor.b
      else s) s) s

/-- The first stroke loop of `arcDetail`: `line(px[i], py[i], px[i+1], py[i+1])`. -/
def arcStrokeLoop (pts : List (Int × Int)) : List Int → State → Option State
  | [], s => some s
  | i :: rest, s =>
    (ptAt pts i).bind fun p =>
    (ptAt pts (i + 1)).bind fun q =>
    (line s p.1 p.2 q.1 q.2).bind fun s =>
    arcStrokeLoop pts rest s

/-- The stroke pass of `arcDetail`. -/
def arcStroke (s : State) (mode cx cy : Int) (pts : List (Int × Int)) : Option State :=
  let count : Int := pts.length
  (arcStrokeLoop pts (intRangeLt 0 (count - 1)) s).bind fun s =>
  if mode = CHORD then
    (ptAt pts 0).bind fun p =>
    (ptAt pts (count - 1)).bind fun q =>
    line s p.1 p.2 q.1 q.2
  else if mode = PIE then
    (ptAt pts 0).bind fun p =>
    (line s cx cy p.1 p.2).bind fun s =>
    (ptAt pts (count - 1)).bind fun q =>
    line s cx cy q.1 q.2
  else some s

/-- The function `arcDetail`.  An array read outside the stored samples gives `none`. -/
def arcDetail (m : Libm) (s : State) (x y w h : Int) (start stop : ℚ) (mode detail : Int) :
    Option State :=
  if w ≤ 0 ∨ h ≤ 0 then some s
  else
    let a := Int.tdiv w 2
    let b := Int.tdiv h 2
    let cx := x + a
    let cy := y + b
    let startAngle := _normalize_angle s start
    let stopAngle := arcStopAngle startAngle (_normalize_angle s stop)
    let detail := arcEffectiveDetail detail
    let angleStep := (stopAngle - startAngle) / (detail : ℚ)
    let pts := arcSamples m cx cy a b startAngle angleStep detail
    let count : Int := pts.length
    (if s.useFill then
      if mode = PIE then arcFillPie cx cy pts (intRangeLt 0 (count - 1)) s
      else if mode = CHORD then arcFillChord pts (intRangeLt 0 (count - 2)) s
      else some (arcFillOpen m s cx cy a b startAngle stopAngle)
     else some s).bind fun s =>
    if s.useStroke then arcStroke s mode cx cy pts else some s

/-- The function `arc`. -/
def arc (m : Libm) (s : State) (x y w h : Int) (start stop : ℚ) : Option State :=
  arcDetail m s x y w h start stop OPEN 25

/-- The function `arcMode`. -/
def arcMode (m : Libm) (s : State) (x y w h : Int) (start stop : ℚ) (mode : Int) :
    Option State :=
  arcDetail m s x y w h start stop mode 25

/-- The function `randomf`; `r` is the value returned by `rand()` and `RAND_MAX` the
constant of the C library. -/
def randomf (RAND_MAX r : Int) (min max : ℚ) : ℚ :=
  min + (max - min) * ((r : ℚ) / (RAND_MAX : ℚ))

/-- The function `constrain`. -/
def constrain (value min max : ℚ) : ℚ :=
  if value < min then min
  else if value > max then max
  else value

/-- The constant `ARROW_UP`. -/
def ARROW_UP : Int := 0x26

/-- The constant `ARROW_DOWN`. -/
def ARROW_DOWN : Int := 0x28

/-- The constant `ARROW_LEFT`. -/
def ARROW_LEFT : Int := 0x25

/-- The constant `ARROW_RIGHT`. -/
def ARROW_RIGHT : Int := 0x27

/-- The two key-state arrays of `p5c.c` (256 `int` slots each). -/
structure InputState where
  keyStates : Nat → Int
  specialKeyStates : Nat → Int

/-- The function `keyIsDown`; `(unsigned char)k` is `k % 256`. -/
def keyIsDown (inp : InputState) (k : Int) : Int :=
  if k = ARROW_UP ∨ k = ARROW_DOWN ∨ k = ARROW_LEFT ∨ k = ARROW_RIGHT then
    inp.specialKeyStates (k % 256).toNat
  else
    let index := (k % 256).toNat
    inp.keyStates index

/-- The function `_set_pixel` of the single-header variant (`p5c_single.h`): no transform,
the bounds check is made on the coordinates as passed. -/
def Single._set_pixel (s : State) (x y : Int) (r g b : Nat) : State :=
  match s.framebuffer with
  | none => s
  | some fb =>
    if x < 0 ∨ x ≥ s.width ∨ y < 0 ∨ y ≥ s.height then s
    else
      let color := packColor r g b
      { s with framebuffer := some (fb.set (y * s.width + x).toNat color) }

/-! ## Definitions used to state and prove the properties -/

/-- The state `s` with its buffer replaced by `fb`; every other global is kept. -/
def withBuffer (s : State) (fb : List Nat) : State :=
  { s with framebuffer := some fb }

/-- The content of the buffer cell of device pixel `(i, j)`, if the buffer has it. -/
def pixelAt (s : State) (i j : Int) : Option Nat :=
  s.framebuffer.bind fun fb => fb[(j * s.width + i).toNat]?

/-- Sending the pixels of `pts`, in order, to the pixel sink with colour `c`. -/
def paint (c : Color) (pts : List (Int × Int)) (s : State) : State :=
  pts.foldl (fun s p => _set_pixel s p.1 p.2 c.r c.g c.b) s

/-- The device coordinate that `(int)(x + 0.5f)` yields for an integer-valued float `x`. -/
def castHalf (x : Int) : Int :=
  if 0 ≤ x then x else x + 1

/-- The buffer is allocated and holds `width * height` cells. -/
def BufferOK (s : State) : Prop :=
  ∃ fb, s.framebuffer = some fb ∧ fb.length = (s.width * s.height).toNat

/-- The buffer is allocated with `width * height` cells and the transform is the identity. -/
def Ready (s : State) : Prop :=
  BufferOK s ∧ s.currentMatrix = _init_matrix

/-- Device pixel `(i, j)` lies on the canvas. -/
def InCanvas (s : State) (i j : Int) : Prop :=
  0 ≤ i ∧ i < s.width ∧ 0 ≤ j ∧ j < s.height

/-- All globals except the buffer. -/
def env (s : State) : State :=
  { s with framebuffer := none }

/-- The pixels sent to the sink by the loop of `line`, in order (the twin of `lineLoop`). -/
def linePixels (x2 y2 dx dy sx sy halfWeight : Int) :
    Nat → Int → Int → Int → Option (List (Int × Int))
  | 0, _, _, _ => none
  | fuel + 1, x1, y1, err =>
    let band := (intRange (-halfWeight) halfWeight).map (fun offset =>
      if dx > dy then (x1, y1 + offset) else (x1 + offset, y1))
    if x1 = x2 ∧ y1 = y2 then some band
    else
      let e2 := 2 * err
      let err1 := if e2 > -dy then err - dy else err
      let x1' := if e2 > -dy then x1 + sx else x1
      let err2 := if e2 < dx then err1 + dx else err1
      let y1' := if e2 < dx then y1 + sy else y1
      (linePixels x2 y2 dx dy sx sy halfWeight fuel x1' y1' err2).map (fun l => band ++ l)

/-- The pixels sent to the sink by `line` at stroke weight `weight`, in order. -/
def linePts (weight x1 y1 x2 y2 : Int) : Option (List (Int × Int)) :=
  let dx := |x2 - x1|
  let dy := |y2 - y1|
  let sx : Int := if x1 < x2 then 1 else -1
  let sy : Int := if y1 < y2 then 1 else -1
  linePixels x2 y2 dx dy sx sy (Int.tdiv weight 2) (dx + dy + 1).toNat x1 y1 (dx - dy)

/-- The pixels sent to the sink by a scanline loop of `triangle` (the twin of `fillRows`). -/
def fillRowsPts (op : CFloat → CFloat → CFloat) (slope1 slope2 : CFloat) :
    List Int → CFloat → CFloat → Option (List (Int × Int))
  | [], _, _ => some []
  | y :: rest, x_start, x_end =>
    match castIntF x_start, castIntF x_end with
    | some xs, some xe =>
      (fillRowsPts op slope1 slope2 rest (op x_start slope1) (op x_end slope2)).map
        (fun l => (intRange xs xe).map (fun x => (x, y)) ++ l)
    | _, _ => none

/-- The pixels sent to the sink by the fill part of `triangle` (the twin of
`triangleFill`). -/
def triangleFillPts (x1 y1 x2 y2 x3 y3 : Int) : Option (List (Int × Int)) :=
  match _sort_points_by_y (x1, y1) (x2, y2) (x3, y3) with
  | ((x1, y1), (x2, y2), (x3, y3)) =>
    if y2 = y3 then
      let slope1 := fdiv ((x2 - x1 : Int) : ℚ) ((y2 - y1 : Int) : ℚ)
      let slope2 := fdiv ((x3 - x1 : Int) : ℚ) ((y3 - y1 : Int) : ℚ)
      fillRowsPts fadd slope1 slope2 (intRange y1 y2) (some (x1 : ℚ)) (some (x1 : ℚ))
    else if y1 = y2 then
      let slope1 := fdiv ((x3 - x1 : Int) : ℚ) ((y3 - y1 : Int) : ℚ)
      let slope2 := fdiv ((x3 - x2 : Int) : ℚ) ((y3 - y2 : Int) : ℚ)
      fillRowsPts fsub slope1 slope2 (intRangeDown y3 y1) (some (x3 : ℚ)) (some (x3 : ℚ))
    else if y3 - y1 = 0 then none
    else
      let y4 := y2
      let x4 := x1 + Int.tdiv ((y2 - y1) * (x3 - x1)) (y3 - y1)
      let slope1 := fdiv ((x2 - x1 : Int) : ℚ) ((y2 - y1 : Int) : ℚ)
      let slope2 := fdiv ((x4 - x1 : Int) : ℚ) ((y4 - y1 : Int) : ℚ)
      (fillRowsPts fadd slope1 slope2 (intRange y1 y2) (some (x1 : ℚ)) (some (x1 : ℚ))).bind
        fun l1 =>
      let slope1 := fdiv ((x3 - x2 : Int) : ℚ) ((y3 - y2 : Int) : ℚ)
      let slope2 := fdiv ((x3 - x4 : Int) : ℚ) ((y3 - y4 : Int) : ℚ)
      (fillRowsPts fsub slope1 slope2 (intRangeDown y3 (y2 + 1))
        (some (x3 : ℚ)) (some (x3 : ℚ))).map fun l2 => l1 ++ l2

/-- The four symmetric pixels plotted by one step of a midpoint loop of `ellipse`. -/
def fourPoints (cx cy x y : Int) : List (Int × Int) :=
  [(cx + x, cy + y), (cx - x, cy + y), (cx + x, cy - y), (cx - x, cy - y)]

/-- The pixels sent to the sink by the first midpoint loop (the twin of `ellipseRegion1`). -/
def ellipseRegion1Pts (cx cy a_sqr b_sqr : Int) :
    Nat → Int → Int → Int → Int → Int → Option (List (Int × Int))
  | fuel, x1, y1, dx, dy, d1 =>
    if dx < dy then
      match fuel with
      | 0 => none
      | fuel + 1 =>
        let x1' := x1 + 1
        let dx := dx + 2 * b_sqr
        if d1 < 0 then
          (ellipseRegion1Pts cx cy a_sqr b_sqr fuel x1' y1 dx dy (d1 + (dx + b_sqr))).map
            (fun l => fourPoints cx cy x1 y1 ++ l)
        else
          let y1' := y1 - 1
          let dy := dy - 2 * a_sqr
          (ellipseRegion1Pts cx cy a_sqr b_sqr fuel x1' y1' dx dy (d1 + (dx - dy + b_sqr))).map
            (fun l => fourPoints cx cy x1 y1 ++ l)
    else some []

/-- The pixels sent to the sink by the second midpoint loop (the twin of
`ellipseRegion2`). -/
def ellipseRegion2Pts (cx cy a_sqr b_sqr : Int) :
    Nat → Int → Int → Int → Int → Int → Option (List (Int × Int))
  | fuel, x2, y2, dx, dy, d2 =>
    if dx > dy then
      match fuel with
      | 0 => none
      | fuel + 1 =>
        let y2' := y2 + 1
        let dy := dy + 2 * a_sqr
        if d2 < 0 then
          (ellipseRegion2Pts cx cy a_sqr b_sqr fuel x2 y2' dx dy (d2 + (dy + a_sqr))).map
            (fun l => fourPoints cx cy x2 y2 ++ l)
        else
          let x2' := x2 - 1
          let dx := dx - 2 * b_sqr
          (ellipseRegion2Pts cx cy a_sqr b_sqr fuel x2' y2' dx dy (d2 + (dy - dx + a_sqr))).map
            (fun l => fourPoints cx cy x2 y2 ++ l)
    else some []

/-- The pixels sent to the sink by the outline pass of `ellipse` (both midpoint loops). -/
def ellipseStrokePts (x y w h : Int) : Option (List (Int × Int)) :=
  let a := Int.tdiv w 2
  let b := Int.tdiv h 2
  let cx := x + a
  let cy := y + b
  let a_sqr := a * a
  let b_sqr := b * b
  let dy := 2 * a_sqr * b
  let d1 := b_sqr - a_sqr * b + Int.tdiv a_sqr 4
  (ellipseRegion1Pts cx cy a_sqr b_sqr (dy + 1).toNat 0 b 0 dy d1).bind fun l1 =>
  let dx := 2 * b_sqr * a
  let d2 := a_sqr - b_sqr * a + Int.tdiv b_sqr 4
  (ellipseRegion2Pts cx cy a_sqr b_sqr (dx + 1).toNat a 0 dx 0 d2).map fun l2 => l1 ++ l2

/-- The pixels sent to the sink by the outline pass of `triangle` (three lines). -/
def triangleStrokePts (weight x1 y1 x2 y2 x3 y3 : Int) : Option (List (Int × Int)) :=
  (linePts weight x1 y1 x2 y2).bind fun l1 =>
  (linePts weight x2 y2 x3 y3).bind fun l2 =>
  (linePts weight x3 y3 x1 y1).map fun l3 => l1 ++ l2 ++ l3

/-- The state `s` with its saved-matrix array replaced by `m`. -/
def withStack (s : State) (m : Nat → Matrix) : State :=
  { s with matrixStack := m }

/-- One call of the transform interface: `push()`, `pop()`, `translate(x, y)` or
`resetMatrix()`. -/
inductive StackCall where
  | push : StackCall
  | pop : StackCall
  | translate (x y : ℚ) : StackCall
  | resetMatrix : StackCall

/-- The effect of one transform call on the state. -/
def applyCall (s : State) : StackCall → State
  | StackCall.push => push s
  | StackCall.pop => pop s
  | StackCall.translate x y => translate s x y
  | StackCall.resetMatrix => resetMatrix s

/-- The effect of a finite sequence of transform calls, first call first. -/
def runCalls (s : State) (calls : List StackCall) : State :=
  calls.foldl applyCall s

/-- The thickness band that `line` paints around the Bresenham pixel `p`: offsets
`-halfWeight .. halfWeight` along `y` when `dx > dy`, along `x` otherwise. -/
def lineBand (halfWeight dx dy : Int) (p : Int × Int) : List (Int × Int) :=
  (intRange (-halfWeight) halfWeight).map (fun offset =>
    if dx > dy then (p.1, p.2 + offset) else (p.1 + offset, p.2))

/-- Drawing a list of segments with `line`, first segment first. -/
def drawSegments : List ((Int × Int) × (Int × Int)) → State → Option State
  | [], s => some s
  | g :: rest, s => (line s g.1.1 g.1.2 g.2.1 g.2.2).bind fun s => drawSegments rest s

/-- A rational-valued instance of the library functions, used to exhibit concrete inputs:
`cosf` and `sinf` are Taylor polynomials, `sqrtf` is the floor square root to three
decimals, and `atan2f` is the constant 0. -/
def taylorLibm : Libm :=
  { cosf := fun t => 1 - t ^ 2 / 2 + t ^ 4 / 24 - t ^ 6 / 720 + t ^ 8 / 40320 - t ^ 10 / 3628800,
    sinf := fun t =>
      t - t ^ 3 / 6 + t ^ 5 / 120 - t ^ 7 / 5040 + t ^ 9 / 362880 - t ^ 11 / 39916800,
    sqrtf := fun t => (Nat.sqrt ⌊t * 1000000⌋.toNat : ℚ) / 1000,
    atan2f := fun _ _ => 0 }

/-- The segments that the stroke pass of a PIE arc is expected to draw: one between each
pair of consecutive samples `i`, `i + 1` for `i = 0 .. d - 1`, then from the centre to the
first sample and from the centre to the last sample. -/
def arcPieSegments (m : Libm) (s : State) (x y w h : Int) (start stop : ℚ) (d : Int) :
    List ((Int × Int) × (Int × Int)) :=
  let a := Int.tdiv w 2
  let b := Int.tdiv h 2
  let cx := x + a
  let cy := y + b
  let startAngle := _normalize_angle s start
  let angleStep := (arcStopAngle startAngle (_normalize_angle s stop) - startAngle) / (d : ℚ)
  (intRangeLt 0 d).map (fun i =>
      (arcSample m cx cy a b startAngle angleStep i,
       arcSample m cx cy a b startAngle angleStep (i + 1)))
    ++ [((cx, cy), arcSample m cx cy a b startAngle angleStep 0),
        ((cx, cy), arcSample m cx cy a b startAngle angleStep d)]

/-- One call of the draw-state interface. -/
inductive DrawCall where
  | fill (r g b : Nat) : DrawCall
  | noFill : DrawCall
  | stroke (r g b : Nat) : DrawCall
  | noStroke : DrawCall
  | strokeWeight (weight : Int) : DrawCall
  | angleMode (mode : Int) : DrawCall

/-- The effect of one draw-state call on the state. -/
def applyDrawCall (s : State) : DrawCall → State
  | DrawCall.fill r g b => fill s r g b
  | DrawCall.noFill => noFill s
  | DrawCall.stroke r g b => stroke s r g b
  | DrawCall.noStroke => noStroke s
  | DrawCall.strokeWeight weight => strokeWeight s weight
  | DrawCall.angleMode mode => angleMode s mode

/-- The effect of a finite sequence of draw-state calls, first call first. -/
def runDrawCalls (s : State) (calls : List DrawCall) : State :=
  calls.foldl applyDrawCall s

/-- The position of the first occurrence of `p` in the three-element list `[q1, q2, q3]`
comes before the position of a later occurrence of `q`. -/
def ordered3 (p q : Int × Int) (out : (Int × Int) × (Int × Int) × (Int × Int)) : Prop :=
  (out.1 = p ∧ (out.2.1 = q ∨ out.2.2 = q)) ∨ (out.2.1 = p ∧ out.2.2 = q)

/-- The operation `f` returns on every state and only sends pixels to the sink in the
stroke colour. -/
def Strokes (f : State → Option State) : Prop :=
  ∀ s, ∃ pts, f s = some (paint s.strokeColor pts s)

/-- Pixel `p` is within half a pixel of the ideal segment that ends at `(x2, y2)`, measured
by the numbers `ra`, `rb` of `x` and `y` steps that separate it from the target. -/
def nearSegment (x2 y2 dx dy sx sy : Int) (p : Int × Int) : Prop :=
  ∃ ra rb : Int, 0 ≤ ra ∧ ra ≤ dx ∧ 0 ≤ rb ∧ rb ≤ dy ∧ p.1 = x2 - sx * ra ∧
    p.2 = y2 - sy * rb ∧ 2 * |rb * dx - ra * dy| ≤ max dx dy

/-- From `p` to `q` the major-axis coordinate moves by exactly one in the stepping direction
and the minor-axis coordinate by zero or one. -/
def majorStep (dx dy sx sy : Int) (p q : Int × Int) : Prop :=
  if dy ≤ dx then q.1 = p.1 + sx ∧ (q.2 = p.2 ∨ q.2 = p.2 + sy)
  else q.2 = p.2 + sy ∧ (q.1 = p.1 ∨ q.1 = p.1 + sx)

/-- The matrix is a pure translation: identity linear part and last row `(0, 0, 1)`. -/
def PureTranslation (m : Matrix) : Prop :=
  m.m00 = 1 ∧ m.m01 = 0 ∧ m.m10 = 0 ∧ m.m11 = 1 ∧ m.m20 = 0 ∧ m.m21 = 0 ∧ m.m22 = 1

/-- Filling and outlining a list of triangles with `triangle`, first triangle first. -/
def drawTriangles : List ((Int × Int) × (Int × Int) × (Int × Int)) → State → Option State
  | [], s => some s
  | t :: rest, s =>
    (triangle s t.1.1 t.1.2 t.2.1.1 t.2.1.2 t.2.2.1 t.2.2.2).bind fun s =>
      drawTriangles rest s

/-- The arrays `px`, `py` that the call `arcDetail(x, y, w, h, start, stop, mode, detail)`
fills in state `s`, as the list of stored points (the value of `pts` inside `arcDetail`). -/
def arcPoints (m : Libm) (s : State) (x y w h : Int) (start stop : ℚ) (detail : Int) :
    List (Int × Int) :=
  let a := Int.tdiv w 2
  let b := Int.tdiv h 2
  let cx := x + a
  let cy := y + b
  let startAngle := _normalize_angle s start
  let stopAngle := arcStopAngle startAngle (_normalize_angle s stop)
  let detail := arcEffectiveDetail detail
  let angleStep := (stopAngle - startAngle) / (detail : ℚ)
  arcSamples m cx cy a b startAngle angleStep detail

/-- The point that the sampling loop of that call stores at index `i`. -/
def arcPoint (m : Libm) (s : State) (x y w h : Int) (start stop : ℚ) (detail i : Int) :
    Int × Int :=
  let a := Int.tdiv w 2
  let b := Int.tdiv h 2
  let cx := x + a
  let cy := y + b
  let startAngle := _normalize_angle s start
  let stopAngle := arcStopAngle startAngle (_normalize_angle s stop)
  let detail := arcEffectiveDetail detail
  let angleStep := (stopAngle - startAngle) / (detail : ℚ)
  arcSample m cx cy a b startAngle angleStep i

/-! ## Pixel sink: basic facts -/

theorem castInt_add_half (x : Int) : castInt ((x : ℚ) + 1 / 2) = castHalf x := by
  unfold castInt castHalf
  by_cases hx : 0 ≤ x
  · have h0 : (0 : ℚ) ≤ (x : ℚ) + 1 / 2 := by
      have : (0 : ℚ) ≤ (x : ℚ) := by exact_mod_cast hx
      linarith
    rw [if_pos h0, if_pos hx, Int.floor_eq_iff]
    constructor <;> linarith
  · have h1 : (x : ℚ) ≤ -1 := by
      have : x ≤ -1 := by omega
      exact_mod_cast this
    have h0 : ¬ (0 : ℚ) ≤ (x : ℚ) + 1 / 2 := by
      intro h; linarith
    rw [if_neg h0, if_neg hx, Int.ceil_eq_iff]
    constructor
    · push_cast; linarith
    · push_cast; linarith

theorem castHalf_of_nonneg (x : Int) (hx : 0 ≤ x) : castHalf x = x := by
  unfold castHalf; rw [if_pos hx]

theorem devicePixel_identity (s : State) (hm : s.currentMatrix = _init_matrix)
    (x y : Int) : devicePixel s x y = (castHalf x, castHalf y) := by
  unfold devicePixel _transform_point
  simp only [hm, _init_matrix, mul_one, mul_zero, add_zero, zero_add]
  rw [castInt_add_half x, castInt_add_half y]

theorem packColor_eq (r g b : Nat) (hr : r < 256) (hg : g < 256) (hb : b < 256) :
    packColor r g b = 0xFF000000 + 65536 * r + 256 * g + b := by
  unfold packColor
  have hb8 : b < 2 ^ 8 := by omega
  have hG : g <<< 8 < 2 ^ 16 := by rw [Nat.shiftLeft_eq]; omega
  have hR : r <<< 16 < 2 ^ 24 := by rw [Nat.shiftLeft_eq]; omega
  have e1 : (0xFF <<< 24 ||| r <<< 16) = 2 ^ 16 * (0xFF * 2 ^ 8 + r) := by
    have h := Nat.mul_add_lt_is_or hR 0xFF
    have hA : (0xFF <<< 24 : Nat) = 2 ^ 24 * 0xFF := by decide
    rw [hA, ← h, Nat.shiftLeft_eq]
    omega
  have e2 : (2 ^ 16 * (0xFF * 2 ^ 8 + r) ||| g <<< 8) = 2 ^ 8 * (0xFF * 2 ^ 16 + r * 2 ^ 8 + g) := by
    have h := Nat.mul_add_lt_is_or hG (0xFF * 2 ^ 8 + r)
    rw [← h, Nat.shiftLeft_eq]
    omega
  rw [e1, e2, ← Nat.mul_add_lt_is_or hb8]
  omega

theorem set_pixel_identity (s : State) (fb : List Nat) (hfb : s.framebuffer = some fb)
    (hm : s.currentMatrix = _init_matrix) (x y : Int) (hx : 0 ≤ x) (hxw : x < s.width)
    (hy : 0 ≤ y) (hyh : y < s.height) (r g b : Nat) :
    _set_pixel s x y r g b =
      withBuffer s (fb.set (y * s.width + x).toNat (packColor r g b)) := by
  unfold _set_pixel withBuffer
  rw [hfb]
  simp only [devicePixel_identity s hm x y, castHalf_of_nonneg x hx, castHalf_of_nonneg y hy]
  rw [if_neg (by omega)]

/-! ## Frame facts: the sink only touches the buffer -/

theorem env_set_pixel (s : State) (x y : Int) (r g b : Nat) :
    env (_set_pixel s x y r g b) = env s := by
  unfold _set_pixel
  split
  · rfl
  · dsimp only
    split <;> rfl

theorem env_paint (c : Color) (pts : List (Int × Int)) (s : State) :
    env (paint c pts s) = env s := by
  induction pts generalizing s with
  | nil => rfl
  | cons p pts ih =>
    show env (paint c pts (_set_pixel s p.1 p.2 c.r c.g c.b)) = env s
    rw [ih, env_set_pixel]

theorem paint_nil (c : Color) (s : State) : paint c [] s = s := rfl

theorem paint_cons (c : Color) (p : Int × Int) (pts : List (Int × Int)) (s : State) :
    paint c (p :: pts) s = paint c pts (_set_pixel s p.1 p.2 c.r c.g c.b) := rfl

theorem paint_append (c : Color) (l1 l2 : List (Int × Int)) (s : State) :
    paint c (l1 ++ l2) s = paint c l2 (paint c l1 s) := by
  unfold paint
  rw [List.foldl_append]

theorem paint_strokeColor (c : Color) (pts : List (Int × Int)) (s : State) :
    (paint c pts s).strokeColor = s.strokeColor := by
  have h := congrArg State.strokeColor (env_paint c pts s)
  exact h

theorem paint_fillColor (c : Color) (pts : List (Int × Int)) (s : State) :
    (paint c pts s).fillColor = s.fillColor := by
  have h := congrArg State.fillColor (env_paint c pts s)
  exact h

theorem paint_useStroke (c : Color) (pts : List (Int × Int)) (s : State) :
    (paint c pts s).useStroke = s.useStroke := by
  have h := congrArg State.useStroke (env_paint c pts s)
  exact h

theorem paint_useFill (c : Color) (pts : List (Int × Int)) (s : State) :
    (paint c pts s).useFill = s.useFill := by
  have h := congrArg State.useFill (env_paint c pts s)
  exact h

theorem paint_strokeWeightValue (c : Color) (pts : List (Int × Int)) (s : State) :
    (paint c pts s).strokeWeightValue = s.strokeWeightValue := by
  have h := congrArg State.strokeWeightValue (env_paint c pts s)
  exact h

theorem paint_currentMatrix (c : Color) (pts : List (Int × Int)) (s : State) :
    (paint c pts s).currentMatrix = s.currentMatrix := by
  have h := congrArg State.currentMatrix (env_paint c pts s)
  exact h

theorem paint_width (c : Color) (pts : List (Int × Int)) (s : State) :
    (paint c pts s).width = s.width := by
  have h := congrArg State.width (env_paint c pts s)
  exact h

theorem paint_height (c : Color) (pts : List (Int × Int)) (s : State) :
    (paint c pts s).height = s.height := by
  have h := congrArg State.height (env_paint c pts s)
  exact h

/-- A fold that sends pixels to the sink in a colour read from the evolving state is a
`paint` in the colour of the initial state, when the sink does not change that colour. -/
theorem foldl_sink_eq_paint {α : Type} (col : State → Color)
    (hcol : ∀ s x y r g b, col (_set_pixel s x y r g b) = col s)
    (f : α → Int × Int) (l : List α) (s : State) :
    l.foldl (fun s a => _set_pixel s (f a).1 (f a).2 (col s).r (col s).g (col s).b) s
      = paint (col s) (l.map f) s := by
  induction l generalizing s with
  | nil => rfl
  | cons a l ih =>
    rw [List.foldl_cons, ih, hcol]
    rfl

theorem set_pixel_strokeColor (s : State) (x y : Int) (r g b : Nat) :
    (_set_pixel s x y r g b).strokeColor = s.strokeColor := by
  have h := congrArg State.strokeColor (env_set_pixel s x y r g b)
  exact h

theorem set_pixel_fillColor (s : State) (x y : Int) (r g b : Nat) :
    (_set_pixel s x y r g b).fillColor = s.fillColor := by
  have h := congrArg State.fillColor (env_set_pixel s x y r g b)
  exact h

/-! ## The buffer after painting, under the identity transform -/

theorem bufferOK_set_pixel (s : State) (h : BufferOK s) (x y : Int) (r g b : Nat) :
    BufferOK (_set_pixel s x y r g b) := by
  obtain ⟨fb, hfb, hlen⟩ := h
  unfold _set_pixel
  rw [hfb]
  dsimp only
  split
  · exact ⟨fb, hfb, hlen⟩
  · exact ⟨_, rfl, by simpa using hlen⟩

theorem bufferOK_paint (c : Color) (pts : List (Int × Int)) (s : State) (h : BufferOK s) :
    BufferOK (paint c pts s) := by
  induction pts generalizing s with
  | nil => exact h
  | cons p pts ih => exact ih _ (bufferOK_set_pixel s h _ _ _ _ _)

theorem cell_index_inj (w i j x y : Int) (hi : 0 ≤ i) (hiw : i < w) (hj : 0 ≤ j)
    (hx : 0 ≤ x) (hxw : x < w) (hy : 0 ≤ y) :
    (j * w + i).toNat = (y * w + x).toNat ↔ (i = x ∧ j = y) := by
  constructor
  · intro h
    have h1 : 0 ≤ j * w + i := by nlinarith
    have h2 : 0 ≤ y * w + x := by nlinarith
    have h3 : j * w + i = y * w + x := by omega
    have hjy : j = y := by
      rcases lt_trichotomy j y with hlt | heq | hgt
      · exfalso
        have : (j + 1) * w ≤ y * w := by nlinarith
        nlinarith
      · exact heq
      · exfalso
        have : (y + 1) * w ≤ j * w := by nlinarith
        nlinarith
    subst hjy
    exact ⟨by omega, rfl⟩
  · rintro ⟨rfl, rfl⟩
    rfl

/-- Under the identity transform, one sink call changes exactly the cell of the device pixel
`(castHalf x, castHalf y)`, when that pixel is on the canvas, and nothing otherwise. -/
theorem pixelAt_set_pixel (s : State) (hb : BufferOK s) (hm : s.currentMatrix = _init_matrix)
    (x y : Int) (r g b : Nat) (i j : Int) (hij : InCanvas s i j) :
    pixelAt (_set_pixel s x y r g b) i j =
      if i = castHalf x ∧ j = castHalf y then some (packColor r g b) else pixelAt s i j := by
  obtain ⟨fb, hfb, hlen⟩ := hb
  obtain ⟨hi, hiw, hj, hjh⟩ := hij
  unfold _set_pixel
  rw [hfb]
  simp only [devicePixel_identity s hm x y]
  split
  · rename_i hout
    have hne : ¬ (i = castHalf x ∧ j = castHalf y) := by
      rintro ⟨rfl, rfl⟩
      omega
    rw [if_neg hne]
  · rename_i hin
    have hx0 : 0 ≤ castHalf x := by omega
    have hxw : castHalf x < s.width := by omega
    have hy0 : 0 ≤ castHalf y := by omega
    have hyh : castHalf y < s.height := by omega
    unfold pixelAt
    simp only [hfb, Option.bind_some, Option.some_bind]
    rw [List.getElem?_set]
    have hinj := cell_index_inj s.width i j (castHalf x) (castHalf y) hi hiw hj hx0 hxw hy0
    by_cases hcell : i = castHalf x ∧ j = castHalf y
    · have hlt : (castHalf y * s.width + castHalf x).toNat < fb.length := by
        rw [hlen]
        have h1 : 0 ≤ castHalf y * s.width + castHalf x := by nlinarith
        have h2 : castHalf y * s.width + castHalf x < s.width * s.height := by nlinarith
        omega
      rw [if_pos hcell, if_pos (hinj.mpr hcell).symm, if_pos hlt]
    · have hne : ¬ (castHalf y * s.width + castHalf x).toNat = (j * s.width + i).toNat :=
        fun h => hcell (hinj.mp h.symm)
      rw [if_neg hcell, if_neg hne]

theorem inCanvas_congr (s s' : State) (h : env s' = env s) (i j : Int) :
    InCanvas s' i j ↔ InCanvas s i j := by
  have hw : s'.width = s.width := by
    have h1 := congrArg State.width h
    exact h1
  have hh : s'.height = s.height := by
    have h1 := congrArg State.height h
    exact h1
  unfold InCanvas
  rw [hw, hh]

/-- Under the identity transform, painting a list of pixels in colour `c` sets the cells of
the device pixels of the list to `c` and leaves all other cells as they were. -/
theorem pixelAt_paint (c : Color) (pts : List (Int × Int)) (s : State) (hb : BufferOK s)
    (hm : s.currentMatrix = _init_matrix) (i j : Int) (hij : InCanvas s i j) :
    pixelAt (paint c pts s) i j =
      if (i, j) ∈ pts.map (fun p => (castHalf p.1, castHalf p.2))
      then some (packColor c.r c.g c.b) else pixelAt s i j := by
  induction pts generalizing s with
  | nil => simp [paint]
  | cons p pts ih =>
    rw [paint_cons]
    have hm' : (_set_pixel s p.1 p.2 c.r c.g c.b).currentMatrix = _init_matrix := by
      have h := congrArg State.currentMatrix (env_set_pixel s p.1 p.2 c.r c.g c.b)
      rw [← hm]; exact h
    have hij' : InCanvas (_set_pixel s p.1 p.2 c.r c.g c.b) i j :=
      (inCanvas_congr s _ (env_set_pixel s _ _ _ _ _) i j).mpr hij
    rw [ih _ (bufferOK_set_pixel s hb _ _ _ _ _) hm' hij', pixelAt_set_pixel s hb hm _ _ _ _ _ i j hij]
    by_cases h1 : (i, j) ∈ pts.map (fun p => (castHalf p.1, castHalf p.2))
    · simp [h1]
    · by_cases h2 : i = castHalf p.1 ∧ j = castHalf p.2
      · simp [h2]
      · have h3 : ¬ (i, j) = (castHalf p.1, castHalf p.2) := by
          intro h; exact h2 (by simpa using h)
        simp only [List.map_cons, List.mem_cons, h1, h3, or_self, if_false, if_neg h2]

/-! ## `line` as a list of sink calls -/

theorem line_band_eq (dx dy x1 y1 : Int) (l : List Int) (s : State) :
    l.foldl (fun s offset =>
      if dx > dy then
        _set_pixel s x1 (y1 + offset) s.strokeColor.r s.strokeColor.g s.strokeColor.b
      else
        _set_pixel s (x1 + offset) y1 s.strokeColor.r s.strokeColor.g s.strokeColor.b) s
      = paint s.strokeColor
          (l.map (fun offset => if dx > dy then (x1, y1 + offset) else (x1 + offset, y1))) s := by
  by_cases h : dx > dy
  · simp only [h, if_true]
    exact foldl_sink_eq_paint State.strokeColor set_pixel_strokeColor
      (fun offset => (x1, y1 + offset)) l s
  · simp only [h, if_false]
    exact foldl_sink_eq_paint State.strokeColor set_pixel_strokeColor
      (fun offset => (x1 + offset, y1)) l s

theorem lineLoop_eq_paint (x2 y2 dx dy sx sy halfWeight : Int) (fuel : Nat) (s : State)
    (x1 y1 err : Int) :
    lineLoop x2 y2 dx dy sx sy halfWeight fuel s x1 y1 err =
      (linePixels x2 y2 dx dy sx sy halfWeight fuel x1 y1 err).map
        (fun pts => paint s.strokeColor pts s) := by
  induction fuel generalizing s x1 y1 err with
  | zero => rfl
  | succ fuel ih =>
    unfold lineLoop linePixels
    simp only [line_band_eq]
    by_cases hend : x1 = x2 ∧ y1 = y2
    · rw [if_pos hend, if_pos hend]
      rfl
    · rw [if_neg hend, if_neg hend, ih, paint_strokeColor, Option.map_map]
      congr 1
      funext l
      simp only [Function.comp, paint_append]

theorem line_eq_paint (s : State) (hs : s.useStroke = true) (x1 y1 x2 y2 : Int) :
    line s x1 y1 x2 y2 =
      (linePts s.strokeWeightValue x1 y1 x2 y2).map (fun pts => paint s.strokeColor pts s) := by
  unfold line linePts
  simp only [hs, Bool.not_true, Bool.false_eq_true, if_false]
  exact lineLoop_eq_paint _ _ _ _ _ _ _ _ _ _ _ _

/-! ## Axis-aligned lines at weight 1 -/

theorem intRange_zero : intRange 0 0 = [0] := by decide

theorem intRange_neg_zero : intRange (-0) 0 = [0] := by decide

theorem range_succ_map_shift (n : Nat) (f : Nat → Int × Int) :
    (List.range (n + 2)).map f = f 0 :: (List.range (n + 1)).map (fun k => f (k + 1)) := by
  rw [List.range_succ_eq_map (n + 1)]
  simp only [List.map_cons, List.map_map]
  rfl

theorem linePixels_horizontal (x2 y D sx sy : Int) (hD : 0 < D) (hsx : sx = 1 ∨ sx = -1)
    (n : Nat) : ∀ (cur : Int) (fuel : Nat), n < fuel → x2 = cur + sx * n →
      linePixels x2 y D 0 sx sy 0 fuel cur y D =
        some ((List.range (n + 1)).map (fun k : Nat => (cur + sx * (k : Int), y))) := by
  induction n with
  | zero =>
    intro cur fuel hf hx
    obtain ⟨f, rfl⟩ : ∃ f, fuel = f + 1 := ⟨fuel - 1, by omega⟩
    have hx' : cur = x2 := by simp at hx; exact hx.symm
    unfold linePixels
    simp [intRange_zero, hx', hD, List.range_succ]
  | succ n ih =>
    intro cur fuel hf hx
    obtain ⟨f, rfl⟩ : ∃ f, fuel = f + 1 := ⟨fuel - 1, by omega⟩
    have hne : ¬ (cur = x2 ∧ y = y) := by
      rintro ⟨h, -⟩
      push_cast at hx
      rcases hsx with rfl | rfl <;> omega
    have h1 : 2 * D > -0 := by omega
    have h2 : ¬ 2 * D < D := by omega
    unfold linePixels
    rw [if_neg hne]
    simp only [intRange_neg_zero, if_pos h1, if_neg h2, sub_zero]
    rw [ih (cur + sx) f (by omega) (by push_cast at hx ⊢; rw [hx]; ring)]
    rw [range_succ_map_shift]
    simp only [Option.map_some', List.map_cons, List.map_nil, hD, if_true, add_zero,
      List.singleton_append, Nat.cast_zero, mul_zero, Option.some.injEq, List.cons.injEq,
      true_and]
    apply List.map_congr_left
    intro k _
    simp only [Nat.cast_add, Nat.cast_one, Prod.mk.injEq, and_true]
    ring

theorem linePixels_vertical (x y2 D sx sy : Int) (hD : 0 < D) (hsy : sy = 1 ∨ sy = -1)
    (n : Nat) : ∀ (cur : Int) (fuel : Nat), n < fuel → y2 = cur + sy * n →
      linePixels x y2 0 D sx sy 0 fuel x cur (-D) =
        some ((List.range (n + 1)).map (fun k : Nat => (x, cur + sy * (k : Int)))) := by
  induction n with
  | zero =>
    intro cur fuel hf hy
    obtain ⟨f, rfl⟩ : ∃ f, fuel = f + 1 := ⟨fuel - 1, by omega⟩
    have hy' : cur = y2 := by simp at hy; exact hy.symm
    have hD' : ¬ D < 0 := by omega
    unfold linePixels
    simp [intRange_zero, hy', hD', List.range_succ]
  | succ n ih =>
    intro cur fuel hf hy
    obtain ⟨f, rfl⟩ : ∃ f, fuel = f + 1 := ⟨fuel - 1, by omega⟩
    have hne : ¬ (x = x ∧ cur = y2) := by
      rintro ⟨-, h⟩
      push_cast at hy
      rcases hsy with rfl | rfl <;> omega
    have h1 : ¬ 2 * -D > -D := by omega
    have h2 : 2 * -D < 0 := by omega
    have hD' : ¬ 0 > D := by omega
    unfold linePixels
    rw [if_neg hne]
    simp only [intRange_neg_zero, if_neg h1, if_pos h2, add_zero]
    rw [ih (cur + sy) f (by omega) (by push_cast at hy ⊢; rw [hy]; ring)]
    rw [range_succ_map_shift]
    simp only [Option.map_some', List.map_cons, List.map_nil, hD', if_false, add_zero,
      List.singleton_append, Nat.cast_zero, mul_zero, Option.some.injEq, List.cons.injEq,
      true_and]
    apply List.map_congr_left
    intro k _
    simp only [Nat.cast_add, Nat.cast_one, Prod.mk.injEq, true_and]
    ring

theorem linePts_point (x y : Int) : linePts 1 x y x y = some [(x, y)] := by
  unfold linePts
  simp only [sub_self, abs_zero, add_zero, zero_add, lt_irrefl, if_false]
  show linePixels x y 0 0 (-1) (-1) (Int.tdiv 1 2) 1 x y 0 = some [(x, y)]
  unfold linePixels
  simp [show Int.tdiv 1 2 = 0 from rfl, intRange_zero]

/-- At weight 1 a horizontal `line` sends exactly the pixels of the row between its
endpoints (inclusive) to the sink. -/
theorem linePts_horizontal (xa xb y : Int) :
    ∃ pts, linePts 1 xa y xb y = some pts ∧
      ∀ i j, (i, j) ∈ pts ↔ (j = y ∧ ((xa ≤ i ∧ i ≤ xb) ∨ (xb ≤ i ∧ i ≤ xa))) := by
  rcases lt_trichotomy xa xb with h | h | h
  · have hdx : |xb - xa| = xb - xa := abs_of_pos (by omega)
    have key := linePixels_horizontal xb y (xb - xa) 1 (-1) (by omega) (Or.inl rfl)
      (xb - xa).toNat xa (xb - xa + 1).toNat (by omega) (by omega)
    refine ⟨List.map (fun k : Nat => (xa + 1 * (k : Int), y))
      (List.range ((xb - xa).toNat + 1)), ?_, ?_⟩
    · unfold linePts
      simp only [hdx, sub_self, abs_zero, add_zero, sub_zero, if_pos h, lt_irrefl, if_false,
        show Int.tdiv 1 2 = 0 from rfl]
      exact key
    · intro i j
      simp only [List.mem_map, List.mem_range, Prod.mk.injEq]
      constructor
      · rintro ⟨k, hk, h1, h2⟩
        omega
      · rintro ⟨rfl, h1⟩
        exact ⟨(i - xa).toNat, by omega, by omega, rfl⟩
  · subst h
    refine ⟨_, linePts_point xa y, ?_⟩
    intro i j
    simp only [List.mem_singleton, Prod.mk.injEq]
    omega
  · have hdx : |xb - xa| = xa - xb := by
      rw [abs_of_neg (by omega)]; ring
    have hlt : ¬ xa < xb := by omega
    have key := linePixels_horizontal xb y (xa - xb) (-1) (-1) (by omega) (Or.inr rfl)
      (xa - xb).toNat xa (xa - xb + 1).toNat (by omega) (by omega)
    refine ⟨List.map (fun k : Nat => (xa + (-1) * (k : Int), y))
      (List.range ((xa - xb).toNat + 1)), ?_, ?_⟩
    · unfold linePts
      simp only [hdx, sub_self, abs_zero, add_zero, sub_zero, if_neg hlt, lt_irrefl, if_false,
        show Int.tdiv 1 2 = 0 from rfl]
      exact key
    · intro i j
      simp only [List.mem_map, List.mem_range, Prod.mk.injEq]
      constructor
      · rintro ⟨k, hk, h1, h2⟩
        omega
      · rintro ⟨rfl, h1⟩
        exact ⟨(xa - i).toNat, by omega, by omega, rfl⟩

/-- At weight 1 a vertical `line` sends exactly the pixels of the column between its
endpoints (inclusive) to the sink. -/
theorem linePts_vertical (x ya yb : Int) :
    ∃ pts, linePts 1 x ya x yb = some pts ∧
      ∀ i j, (i, j) ∈ pts ↔ (i = x ∧ ((ya ≤ j ∧ j ≤ yb) ∨ (yb ≤ j ∧ j ≤ ya))) := by
  rcases lt_trichotomy ya yb with h | h | h
  · have hdy : |yb - ya| = yb - ya := abs_of_pos (by omega)
    have key := linePixels_vertical x yb (yb - ya) (-1) 1 (by omega) (Or.inl rfl)
      (yb - ya).toNat ya (yb - ya + 1).toNat (by omega) (by omega)
    refine ⟨List.map (fun k : Nat => (x, ya + 1 * (k : Int)))
      (List.range ((yb - ya).toNat + 1)), ?_, ?_⟩
    · unfold linePts
      simp only [hdy, sub_self, abs_zero, zero_add, zero_sub, if_pos h, lt_irrefl, if_false,
        show Int.tdiv 1 2 = 0 from rfl]
      exact key
    · intro i j
      simp only [List.mem_map, List.mem_range, Prod.mk.injEq]
      constructor
      · rintro ⟨k, hk, h1, h2⟩
        omega
      · rintro ⟨rfl, h1⟩
        exact ⟨(j - ya).toNat, by omega, rfl, by omega⟩
  · subst h
    refine ⟨_, linePts_point x ya, ?_⟩
    intro i j
    simp only [List.mem_singleton, Prod.mk.injEq]
    omega
  · have hdy : |yb - ya| = ya - yb := by
      rw [abs_of_neg (by omega)]; ring
    have hlt : ¬ ya < yb := by omega
    have key := linePixels_vertical x yb (ya - yb) (-1) (-1) (by omega) (Or.inr rfl)
      (ya - yb).toNat ya (ya - yb + 1).toNat (by omega) (by omega)
    refine ⟨List.map (fun k : Nat => (x, ya + (-1) * (k : Int)))
      (List.range ((ya - yb).toNat + 1)), ?_, ?_⟩
    · unfold linePts
      simp only [hdy, sub_self, abs_zero, zero_add, zero_sub, if_neg hlt, lt_irrefl, if_false,
        show Int.tdiv 1 2 = 0 from rfl]
      exact key
    · intro i j
      simp only [List.mem_map, List.mem_range, Prod.mk.injEq]
      constructor
      · rintro ⟨k, hk, h1, h2⟩
        omega
      · rintro ⟨rfl, h1⟩
        exact ⟨(ya - j).toNat, by omega, rfl, by omega⟩

/-! ## Nested fill loops and painting on the canvas -/

theorem col_paint (col : State → Color)
    (hcol : ∀ s x y r g b, col (_set_pixel s x y r g b) = col s)
    (c : Color) (pts : List (Int × Int)) (s : State) : col (paint c pts s) = col s := by
  induction pts generalizing s with
  | nil => rfl
  | cons p pts ih => rw [paint_cons, ih, hcol]

theorem foldl_foldl_sink_eq_paint {α β : Type} (col : State → Color)
    (hcol : ∀ s x y r g b, col (_set_pixel s x y r g b) = col s)
    (f : α → β → Int × Int) (la : List α) (lb : List β) (s : State) :
    la.foldl (fun s a =>
        lb.foldl (fun s b => _set_pixel s (f a b).1 (f a b).2 (col s).r (col s).g (col s).b) s) s
      = paint (col s) (la.flatMap (fun a => lb.map (f a))) s := by
  induction la generalizing s with
  | nil => rfl
  | cons a la ih =>
    rw [List.foldl_cons, ih, foldl_sink_eq_paint col hcol (f a) lb s, col_paint col hcol,
      List.flatMap_cons, paint_append]

theorem mem_intRangeLt (lo hi k : Int) : k ∈ intRangeLt lo hi ↔ lo ≤ k ∧ k < hi := by
  unfold intRangeLt
  simp only [List.mem_map, List.mem_range]
  constructor
  · rintro ⟨n, hn, rfl⟩
    omega
  · rintro ⟨h1, h2⟩
    exact ⟨(k - lo).toNat, by omega, by omega⟩

theorem mem_intRange (lo hi k : Int) : k ∈ intRange lo hi ↔ lo ≤ k ∧ k ≤ hi := by
  unfold intRange
  rw [mem_intRangeLt]
  omega

theorem ready_paint (c : Color) (pts : List (Int × Int)) (s : State) (h : Ready s) :
    Ready (paint c pts s) :=
  ⟨bufferOK_paint c pts s h.1, by rw [paint_currentMatrix]; exact h.2⟩

theorem inCanvas_paint (c : Color) (pts : List (Int × Int)) (s : State) (i j : Int) :
    InCanvas (paint c pts s) i j ↔ InCanvas s i j :=
  inCanvas_congr s _ (env_paint c pts s) i j

theorem map_castHalf_of_nonneg (pts : List (Int × Int))
    (h : ∀ p ∈ pts, 0 ≤ p.1 ∧ 0 ≤ p.2) :
    pts.map (fun p => (castHalf p.1, castHalf p.2)) = pts := by
  induction pts with
  | nil => rfl
  | cons p pts ih =>
    have hp := h p (List.mem_cons_self _ _)
    rw [List.map_cons, ih (fun q hq => h q (List.mem_cons_of_mem _ hq)),
      castHalf_of_nonneg _ hp.1, castHalf_of_nonneg _ hp.2]

/-- Painting pixels with non-negative coordinates under the identity transform: a canvas
cell holds the colour afterwards iff its pixel is in the list, and is unchanged otherwise. -/
theorem pixelAt_paint_nonneg (c : Color) (pts : List (Int × Int)) (s : State) (hr : Ready s)
    (hpts : ∀ p ∈ pts, 0 ≤ p.1 ∧ 0 ≤ p.2) (i j : Int) (hij : InCanvas s i j) :
    pixelAt (paint c pts s) i j =
      if (i, j) ∈ pts then some (packColor c.r c.g c.b) else pixelAt s i j := by
  rw [pixelAt_paint c pts s hr.1 hr.2 i j hij, map_castHalf_of_nonneg pts hpts]

theorem line_horizontal_paint (s : State) (c : Color) (hc : s.strokeColor = c)
    (hs : s.useStroke = true) (hw : s.strokeWeightValue = 1) (xa xb y : Int) :
    ∃ pts, line s xa y xb y = some (paint c pts s) ∧
      ∀ i j, (i, j) ∈ pts ↔ (j = y ∧ ((xa ≤ i ∧ i ≤ xb) ∨ (xb ≤ i ∧ i ≤ xa))) := by
  obtain ⟨pts, hpts, hmem⟩ := linePts_horizontal xa xb y
  refine ⟨pts, ?_, hmem⟩
  rw [line_eq_paint s hs, hw, hpts, hc]
  rfl

theorem line_vertical_paint (s : State) (c : Color) (hc : s.strokeColor = c)
    (hs : s.useStroke = true) (hw : s.strokeWeightValue = 1) (x ya yb : Int) :
    ∃ pts, line s x ya x yb = some (paint c pts s) ∧
      ∀ i j, (i, j) ∈ pts ↔ (i = x ∧ ((ya ≤ j ∧ j ≤ yb) ∨ (yb ≤ j ∧ j ≤ ya))) := by
  obtain ⟨pts, hpts, hmem⟩ := linePts_vertical x ya yb
  refine ⟨pts, ?_, hmem⟩
  rw [line_eq_paint s hs, hw, hpts, hc]
  rfl

theorem mem_box (x y w h i j : Int) :
    (i, j) ∈ (intRangeLt y (y + h)).flatMap (fun j => (intRangeLt x (x + w)).map (fun i => (i, j)))
      ↔ (x ≤ i ∧ i < x + w ∧ y ≤ j ∧ j < y + h) := by
  simp only [List.mem_flatMap, List.mem_map, mem_intRangeLt, Prod.mk.injEq]
  constructor
  · rintro ⟨b, hb, a, ha, rfl, rfl⟩
    omega
  · rintro ⟨h1, h2, h3, h4⟩
    exact ⟨j, ⟨h3, h4⟩, i, ⟨h1, h2⟩, rfl, rfl⟩

/-- The state that `rect` returns when fill and stroke are enabled at weight 1: the box is
painted in the fill colour, then the four edges are painted in the stroke colour. -/
theorem rect_eq_paint (s : State) (hf : s.useFill = true) (hs : s.useStroke = true)
    (hw : s.strokeWeightValue = 1) (x y w h : Int) :
    ∃ edges, rect s x y w h = some (paint s.strokeColor edges (paint s.fillColor
        ((intRangeLt y (y + h)).flatMap (fun j => (intRangeLt x (x + w)).map (fun i => (i, j))))
        s)) ∧
      ∀ i j, (i, j) ∈ edges ↔
        ((j = y ∧ ((x ≤ i ∧ i ≤ x + w - 1) ∨ (x + w - 1 ≤ i ∧ i ≤ x))) ∨
         (i = x + w - 1 ∧ ((y ≤ j ∧ j ≤ y + h - 1) ∨ (y + h - 1 ≤ j ∧ j ≤ y))) ∨
         (j = y + h - 1 ∧ ((x + w - 1 ≤ i ∧ i ≤ x) ∨ (x ≤ i ∧ i ≤ x + w - 1))) ∨
         (i = x ∧ ((y + h - 1 ≤ j ∧ j ≤ y) ∨ (y ≤ j ∧ j ≤ y + h - 1)))) := by
  have hfill := foldl_foldl_sink_eq_paint State.fillColor set_pixel_fillColor
    (fun (j i : Int) => (i, j)) (intRangeLt y (y + h)) (intRangeLt x (x + w)) s
  obtain ⟨top, htop, mtop⟩ := line_horizontal_paint
    (paint s.fillColor ((intRangeLt y (y + h)).flatMap
      (fun j => (intRangeLt x (x + w)).map (fun i => (i, j)))) s) s.strokeColor
    (by simp only [paint_strokeColor]) (by simp only [paint_useStroke, hs])
    (by simp only [paint_strokeWeightValue, hw]) x (x + w - 1) y
  obtain ⟨right, hright, mright⟩ := line_vertical_paint
    (paint s.strokeColor top (paint s.fillColor ((intRangeLt y (y + h)).flatMap
      (fun j => (intRangeLt x (x + w)).map (fun i => (i, j)))) s)) s.strokeColor
    (by simp only [paint_strokeColor]) (by simp only [paint_useStroke, hs])
    (by simp only [paint_strokeWeightValue, hw]) (x + w - 1) y (y + h - 1)
  obtain ⟨bottom, hbottom, mbottom⟩ := line_horizontal_paint
    (paint s.strokeColor right (paint s.strokeColor top (paint s.fillColor
      ((intRangeLt y (y + h)).flatMap
        (fun j => (intRangeLt x (x + w)).map (fun i => (i, j)))) s))) s.strokeColor
    (by simp only [paint_strokeColor]) (by simp only [paint_useStroke, hs])
    (by simp only [paint_strokeWeightValue, hw]) (x + w - 1) x (y + h - 1)
  obtain ⟨left, hleft, mleft⟩ := line_vertical_paint
    (paint s.strokeColor bottom (paint s.strokeColor right (paint s.strokeColor top
      (paint s.fillColor ((intRangeLt y (y + h)).flatMap
        (fun j => (intRangeLt x (x + w)).map (fun i => (i, j)))) s)))) s.strokeColor
    (by simp only [paint_strokeColor]) (by simp only [paint_useStroke, hs])
    (by simp only [paint_strokeWeightValue, hw]) x (y + h - 1) y
  refine ⟨top ++ right ++ bottom ++ left, ?_, ?_⟩
  · unfold rect
    simp only [hf, if_true]
    rw [hfill]
    simp only [paint_useStroke, hs, if_true]
    rw [htop, Option.some_bind, hright, Option.some_bind, hbottom, Option.some_bind, hleft]
    simp only [paint_append]
  · intro i j
    simp only [List.mem_append, mtop, mright, mbottom, mleft, or_assoc]

/-! ## `triangle` and `ellipse` as lists of sink calls -/

theorem fillRows_eq_paint (op : CFloat → CFloat → CFloat) (slope1 slope2 : CFloat)
    (ys : List Int) (s : State) (x_start x_end : CFloat) :
    fillRows op slope1 slope2 ys s x_start x_end =
      (fillRowsPts op slope1 slope2 ys x_start x_end).map
        (fun pts => paint s.fillColor pts s) := by
  induction ys generalizing s x_start x_end with
  | nil => rfl
  | cons y rest ih =>
    unfold fillRows fillRowsPts
    cases h1 : castIntF x_start with
    | none => rfl
    | some xs =>
      cases h2 : castIntF x_end with
      | none => rfl
      | some xe =>
        simp only []
        have hrow := foldl_sink_eq_paint State.fillColor set_pixel_fillColor
          (fun (x : Int) => (x, y)) (intRange xs xe) s
        rw [hrow, ih, paint_fillColor, Option.map_map]
        congr 1
        funext l
        simp only [Function.comp, paint_append]

theorem triangleFill_eq_paint (s : State) (x1 y1 x2 y2 x3 y3 : Int) :
    triangleFill s x1 y1 x2 y2 x3 y3 =
      (triangleFillPts x1 y1 x2 y2 x3 y3).map (fun pts => paint s.fillColor pts s) := by
  unfold triangleFill triangleFillPts
  split
  rename_i a1 b1 a2 b2 a3 b3 hsort
  simp only [hsort]
  split_ifs
  · exact fillRows_eq_paint _ _ _ _ _ _ _
  · exact fillRows_eq_paint _ _ _ _ _ _ _
  · rfl
  · rw [fillRows_eq_paint]
    cases hA : fillRowsPts fadd
        (fdiv ((a2 - a1 : Int) : ℚ) ((b2 - b1 : Int) : ℚ))
        (fdiv ((a1 + Int.tdiv ((b2 - b1) * (a3 - a1)) (b3 - b1) - a1 : Int) : ℚ)
          ((b2 - b1 : Int) : ℚ))
        (intRange b1 b2) (some (a1 : ℚ)) (some (a1 : ℚ)) with
    | none => rfl
    | some l1 =>
      simp only [Option.map_some', Option.some_bind]
      rw [fillRows_eq_paint, paint_fillColor, Option.map_map]
      congr 1
      funext l
      simp only [Function.comp, paint_append]

/-- With stroke disabled and fill enabled, `triangle` paints the fill pixels only. -/
theorem triangle_fill_only (s : State) (hs : s.useStroke = false) (hf : s.useFill = true)
    (x1 y1 x2 y2 x3 y3 : Int) :
    triangle s x1 y1 x2 y2 x3 y3 =
      (triangleFillPts x1 y1 x2 y2 x3 y3).map (fun pts => paint s.fillColor pts s) := by
  unfold triangle
  simp only [hs, hf, Bool.false_eq_true, if_false, if_true, Option.some_bind]
  exact triangleFill_eq_paint s x1 y1 x2 y2 x3 y3

/-- With stroke and fill enabled, `triangle` paints its three edges and then its fill
pixels. -/
theorem triangle_stroke_fill (s : State) (hs : s.useStroke = true) (hf : s.useFill = true)
    (x1 y1 x2 y2 x3 y3 : Int) :
    triangle s x1 y1 x2 y2 x3 y3 =
      (triangleStrokePts s.strokeWeightValue x1 y1 x2 y2 x3 y3).bind fun e =>
        (triangleFillPts x1 y1 x2 y2 x3 y3).map fun f =>
          paint s.fillColor f (paint s.strokeColor e s) := by
  unfold triangle triangleStrokePts
  simp only [hs, if_true]
  rw [line_eq_paint s hs]
  cases h1 : linePts s.strokeWeightValue x1 y1 x2 y2 with
  | none => rfl
  | some l1 =>
    simp only [Option.map_some', Option.some_bind]
    rw [line_eq_paint _ (by rw [paint_useStroke]; exact hs), paint_strokeWeightValue]
    cases h2 : linePts s.strokeWeightValue x2 y2 x3 y3 with
    | none => rfl
    | some l2 =>
      simp only [Option.map_some', Option.some_bind]
      rw [line_eq_paint _ (by rw [paint_useStroke, paint_useStroke]; exact hs),
        paint_strokeWeightValue, paint_strokeWeightValue]
      cases h3 : linePts s.strokeWeightValue x3 y3 x1 y1 with
      | none => rfl
      | some l3 =>
        simp only [Option.map_some', Option.some_bind, paint_strokeColor, paint_useFill, hf,
          if_true]
        rw [triangleFill_eq_paint]
        simp only [paint_fillColor, paint_append]

theorem ellipseRegion1_eq_paint (cx cy a_sqr b_sqr : Int) (fuel : Nat) (s : State)
    (x1 y1 dx dy d1 : Int) :
    ellipseRegion1 cx cy a_sqr b_sqr fuel s x1 y1 dx dy d1 =
      (ellipseRegion1Pts cx cy a_sqr b_sqr fuel x1 y1 dx dy d1).map
        (fun pts => paint s.strokeColor pts s) := by
  induction fuel generalizing s x1 y1 dx dy d1 with
  | zero =>
    unfold ellipseRegion1 ellipseRegion1Pts
    split_ifs <;> rfl
  | succ fuel ih =>
    unfold ellipseRegion1 ellipseRegion1Pts
    by_cases hloop : dx < dy
    · simp only [if_pos hloop, set_pixel_strokeColor]
      have h4 : ∀ t : State,
          _set_pixel (_set_pixel (_set_pixel (_set_pixel t (cx + x1) (cy + y1)
            s.strokeColor.r s.strokeColor.g s.strokeColor.b) (cx - x1) (cy + y1)
            s.strokeColor.r s.strokeColor.g s.strokeColor.b) (cx + x1) (cy - y1)
            s.strokeColor.r s.strokeColor.g s.strokeColor.b) (cx - x1) (cy - y1)
            s.strokeColor.r s.strokeColor.g s.strokeColor.b
          = paint s.strokeColor (fourPoints cx cy x1 y1) t := fun _ => rfl
      rw [h4]
      split_ifs
      · rw [ih, paint_strokeColor, Option.map_map]
        rfl
      · rw [ih, paint_strokeColor, Option.map_map]
        rfl
    · simp only [if_neg hloop]
      rfl

theorem ellipseRegion2_eq_paint (cx cy a_sqr b_sqr : Int) (fuel : Nat) (s : State)
    (x2 y2 dx dy d2 : Int) :
    ellipseRegion2 cx cy a_sqr b_sqr fuel s x2 y2 dx dy d2 =
      (ellipseRegion2Pts cx cy a_sqr b_sqr fuel x2 y2 dx dy d2).map
        (fun pts => paint s.strokeColor pts s) := by
  induction fuel generalizing s x2 y2 dx dy d2 with
  | zero =>
    unfold ellipseRegion2 ellipseRegion2Pts
    split_ifs <;> rfl
  | succ fuel ih =>
    unfold ellipseRegion2 ellipseRegion2Pts
    by_cases hloop : dx > dy
    · simp only [if_pos hloop, set_pixel_strokeColor]
      have h4 : ∀ t : State,
          _set_pixel (_set_pixel (_set_pixel (_set_pixel t (cx + x2) (cy + y2)
            s.strokeColor.r s.strokeColor.g s.strokeColor.b) (cx - x2) (cy + y2)
            s.strokeColor.r s.strokeColor.g s.strokeColor.b) (cx + x2) (cy - y2)
            s.strokeColor.r s.strokeColor.g s.strokeColor.b) (cx - x2) (cy - y2)
            s.strokeColor.r s.strokeColor.g s.strokeColor.b
          = paint s.strokeColor (fourPoints cx cy x2 y2) t := fun _ => rfl
      rw [h4]
      split_ifs
      · rw [ih, paint_strokeColor, Option.map_map]
        rfl
      · rw [ih, paint_strokeColor, Option.map_map]
        rfl
    · simp only [if_neg hloop]
      rfl

/-- Outside the degenerate and small-circle cases, with fill disabled and stroke enabled,
`ellipse` paints the pixels of its two midpoint loops in the stroke colour. -/
theorem ellipse_stroke_only (s : State) (hf : s.useFill = false) (hs : s.useStroke = true)
    (x y w h : Int) (hw : 0 < w) (hh : 0 < h) (hbig : ¬ (w = h ∧ w ≤ 2)) :
    ellipse s x y w h =
      (ellipseStrokePts x y w h).map (fun pts => paint s.strokeColor pts s) := by
  unfold ellipse ellipseStrokePts
  have hdeg : ¬ (w ≤ 0 ∨ h ≤ 0) := by omega
  simp only [if_neg hdeg, if_neg hbig, hf, hs, Bool.false_eq_true, if_false, if_true,
    Option.some_bind]
  rw [ellipseRegion1_eq_paint]
  cases h1 : ellipseRegion1Pts (x + Int.tdiv w 2) (y + Int.tdiv h 2)
      (Int.tdiv w 2 * Int.tdiv w 2) (Int.tdiv h 2 * Int.tdiv h 2)
      (2 * (Int.tdiv w 2 * Int.tdiv w 2) * Int.tdiv h 2 + 1).toNat 0 (Int.tdiv h 2) 0
      (2 * (Int.tdiv w 2 * Int.tdiv w 2) * Int.tdiv h 2)
      (Int.tdiv h 2 * Int.tdiv h 2 - Int.tdiv w 2 * Int.tdiv w 2 * Int.tdiv h 2
        + Int.tdiv (Int.tdiv w 2 * Int.tdiv w 2) 4) with
  | none => rfl
  | some l1 =>
    simp only [Option.map_some', Option.some_bind]
    rw [ellipseRegion2_eq_paint, paint_strokeColor, Option.map_map]
    congr 1
    funext l
    simp only [Function.comp, paint_append]

/-! ## Claims about the pixel sink -/

/-- C1 (defect in the code): under the identity transform the logical pixel `(-1, 0)` has
transformed coordinate `-1`, whose nearest integer `-1` lies outside `[0, width)`, yet
`_set_pixel` and `point` (weight 1) overwrite the buffer cell of column 0. -/
theorem set_pixel_left_neighbour_leaks :
    round (_transform_point (readyState 2 1) (-1) 0).1 = -1 ∧
    (readyState 2 1).framebuffer = some [0xFF000000, 0xFF000000] ∧
    (_set_pixel (readyState 2 1) (-1) 0 255 0 0).framebuffer = some [0xFFFF0000, 0xFF000000] ∧
    (point (stroke (readyState 2 1) 255 0 0) (-1) 0).framebuffer
      = some [0xFFFF0000, 0xFF000000] := by
  decide!

/-- C2 (defect in the code): the device coordinate used by `_set_pixel` is the truncation
toward zero of the transformed coordinate plus one half, which for the transformed values
`-1` and `-3/4` is `0` and not the nearest integer `-1`; for the non-negative value `19/8`
it is the nearest integer `2`. -/
theorem devicePixel_truncates_toward_zero :
    devicePixel (readyState 2 1) (-1) 0 = (0, 0) ∧
    round (_transform_point (readyState 2 1) (-1) 0).1 = -1 ∧
    devicePixel (translate (readyState 2 1) (1 / 4) 0) (-1) 0 = (0, 0) ∧
    (_transform_point (translate (readyState 2 1) (1 / 4) 0) (-1) 0).1 = -3 / 4 ∧
    round (-3 / 4 : ℚ) = -1 ∧
    devicePixel (translate (readyState 2 1) (3 / 8) 0) 2 0 = (2, 0) ∧
    round (_transform_point (translate (readyState 2 1) (3 / 8) 0) 2 0).1 = 2 := by
  decide!

/-- C3: under the identity transform, with a buffer of `width * height` cells on a canvas
of at most `2^23` columns and rows, an in-canvas `_set_pixel x y r g b` stores
`0xFF000000 + 65536 r + 256 g + b` in cell `y * width + x`, which is a valid row-major
index, leaves all other cells as they were, and a second write to the same pixel replaces
the value. -/
theorem set_pixel_writes_cell (s : State) (fb : List Nat) (hfb : s.framebuffer = some fb)
    (hlen : fb.length = (s.width * s.height).toNat) (hm : s.currentMatrix = _init_matrix)
    (hwd : s.width ≤ 2 ^ 23) (hht : s.height ≤ 2 ^ 23)
    (x y : Int) (hx : 0 ≤ x) (hxw : x < s.width) (hy : 0 ≤ y) (hyh : y < s.height)
    (r g b : Nat) (hr : r < 256) (hg : g < 256) (hb : b < 256) :
    (0 ≤ y * s.width + x ∧ y * s.width + x < s.width * s.height) ∧
    (y * s.width + x).toNat < fb.length ∧
    _set_pixel s x y r g b =
      withBuffer s (fb.set (y * s.width + x).toNat (0xFF000000 + 65536 * r + 256 * g + b)) ∧
    (fb.set (y * s.width + x).toNat (0xFF000000 + 65536 * r + 256 * g + b))[
        (y * s.width + x).toNat]? = some (0xFF000000 + 65536 * r + 256 * g + b) ∧
    (∀ i : Nat, i ≠ (y * s.width + x).toNat →
      (fb.set (y * s.width + x).toNat (0xFF000000 + 65536 * r + 256 * g + b))[i]? = fb[i]?) ∧
    (∀ r2 g2 b2 : Nat,
      _set_pixel (_set_pixel s x y r g b) x y r2 g2 b2 = _set_pixel s x y r2 g2 b2) := by
  have hidx : 0 ≤ y * s.width + x ∧ y * s.width + x < s.width * s.height := by
    constructor
    · nlinarith
    · nlinarith
  have hlt : (y * s.width + x).toNat < fb.length := by
    rw [hlen]; omega
  refine ⟨hidx, hlt, ?_, ?_, ?_, ?_⟩
  · rw [set_pixel_identity s fb hfb hm x y hx hxw hy hyh, packColor_eq r g b hr hg hb]
  · simp [hlt]
  · intro i hi
    simp [List.getElem?_set, Ne.symm hi]
  · intro r2 g2 b2
    rw [set_pixel_identity s fb hfb hm x y hx hxw hy hyh r g b]
    rw [set_pixel_identity (withBuffer s _) _ rfl hm x y hx hxw hy hyh r2 g2 b2]
    rw [set_pixel_identity s fb hfb hm x y hx hxw hy hyh r2 g2 b2]
    simp [withBuffer]

/-- Witness for C3 on the 2x2 canvas: pixel `(1, 1)` is cell 3. -/
theorem set_pixel_writes_cell_witness :
    (_set_pixel (readyState 2 2) 1 1 1 2 3).framebuffer
      = some [0xFF000000, 0xFF000000, 0xFF000000, 0xFF010203] ∧
    ∀ r2 g2 b2 : Nat,
      _set_pixel (_set_pixel (readyState 2 2) 1 1 1 2 3) 1 1 r2 g2 b2
        = _set_pixel (readyState 2 2) 1 1 r2 g2 b2 :=
  ⟨by decide!,
   (set_pixel_writes_cell (readyState 2 2) (List.replicate 4 0xFF000000) (by decide!)
      (by decide!) (by decide!) (by decide) (by decide) 1 1 (by decide) (by decide!) (by decide) (by decide!)
      1 2 3 (by decide) (by decide) (by decide)).2.2.2.2.2⟩

/-! ## States used as concrete inputs -/

theorem length_foldl_set (l : List Nat) (v : Nat) (fb : List Nat) :
    (l.foldl (fun fb i => fb.set i v) fb).length = fb.length := by
  induction l generalizing fb with
  | nil => rfl
  | cons i l ih => rw [List.foldl_cons, ih, List.length_set]

theorem ready_readyState (w h : Int) : Ready (readyState w h) := by
  refine ⟨⟨_, rfl, ?_⟩, rfl⟩
  rw [length_foldl_set, List.length_replicate]
  rfl

theorem ready_stroke (s : State) (r g b : Nat) (h : Ready s) : Ready (stroke s r g b) := h

theorem ready_fill (s : State) (r g b : Nat) (h : Ready s) : Ready (fill s r g b) := h

theorem ready_noStroke (s : State) (h : Ready s) : Ready (noStroke s) := h

theorem ready_noFill (s : State) (h : Ready s) : Ready (noFill s) := h

/-! ## Claims about `line` and `rect` -/

/-- C4: with identity transform, stroke enabled and weight 1, on a canvas of at most `2^23`
columns and rows, `line(x, y, x, y)` at an in-canvas pixel returns, sets the cell of
`(x, y)` to the stroke colour and leaves every other cell (and every other global)
unchanged. -/
theorem line_zero_length_single_pixel (s : State) (hr : Ready s) (hwd : s.width ≤ 2 ^ 23)
    (hht : s.height ≤ 2 ^ 23) (hs : s.useStroke = true)
    (hw : s.strokeWeightValue = 1) (x y : Int) (hxy : InCanvas s x y) :
    ∃ s', line s x y x y = some s' ∧ env s' = env s ∧
      pixelAt s' x y = some (packColor s.strokeColor.r s.strokeColor.g s.strokeColor.b) ∧
      ∀ i j, InCanvas s i j → ¬ (i = x ∧ j = y) → pixelAt s' i j = pixelAt s i j := by
  have hline : line s x y x y = some (paint s.strokeColor [(x, y)] s) := by
    rw [line_eq_paint s hs, hw, linePts_point]
    rfl
  have hnn : ∀ p ∈ [(x, y)], 0 ≤ p.1 ∧ 0 ≤ p.2 := by
    intro p hp
    rw [List.mem_singleton] at hp
    subst hp
    exact ⟨hxy.1, hxy.2.2.1⟩
  refine ⟨_, hline, env_paint _ _ _, ?_, ?_⟩
  · rw [pixelAt_paint_nonneg _ _ s hr hnn x y hxy]
    simp
  · intro i j hij hne
    rw [pixelAt_paint_nonneg _ _ s hr hnn i j hij]
    have : ¬ (i, j) ∈ [(x, y)] := by
      simpa using hne
    rw [if_neg this]

/-- Witness for C4: a red zero-length line at `(1, 1)` on the 3x3 canvas. -/
theorem line_zero_length_single_pixel_witness :
    ∃ s', line (stroke (readyState 3 3) 255 0 0) 1 1 1 1 = some s' ∧
      env s' = env (stroke (readyState 3 3) 255 0 0) ∧
      pixelAt s' 1 1 = some (packColor 255 0 0) ∧
      ∀ i j, InCanvas (stroke (readyState 3 3) 255 0 0) i j → ¬ (i = 1 ∧ j = 1) →
        pixelAt s' i j = pixelAt (stroke (readyState 3 3) 255 0 0) i j :=
  line_zero_length_single_pixel (stroke (readyState 3 3) 255 0 0)
    (ready_stroke _ _ _ _ (ready_readyState 3 3)) (by decide) (by decide) rfl rfl 1 1
    (by unfold InCanvas; decide!)

/-- C5: with identity transform, fill and stroke enabled and weight 1, on a canvas of at
most `2^23` columns and rows, `rect(x, y, w, h)` with `w, h ≥ 1` and the box
`[x, x+w) × [y, y+h)` inside the canvas returns; afterwards the pixels of the box on its
first or last column or row hold the stroke colour, the other pixels of the box hold the
fill colour, and every pixel outside the box is unchanged. -/
theorem rect_fill_and_outline (s : State) (hr : Ready s) (hwd : s.width ≤ 2 ^ 23)
    (hht : s.height ≤ 2 ^ 23) (hf : s.useFill = true)
    (hs : s.useStroke = true) (hw : s.strokeWeightValue = 1) (x y w h : Int)
    (hw1 : 1 ≤ w) (hh1 : 1 ≤ h) (hx : 0 ≤ x) (hy : 0 ≤ y) (hxw : x + w ≤ s.width)
    (hyh : y + h ≤ s.height) :
    ∃ s', rect s x y w h = some s' ∧ env s' = env s ∧
      ∀ i j, InCanvas s i j →
        pixelAt s' i j =
          if x ≤ i ∧ i < x + w ∧ y ≤ j ∧ j < y + h then
            if i = x ∨ i = x + w - 1 ∨ j = y ∨ j = y + h - 1 then
              some (packColor s.strokeColor.r s.strokeColor.g s.strokeColor.b)
            else some (packColor s.fillColor.r s.fillColor.g s.fillColor.b)
          else pixelAt s i j := by
  obtain ⟨edges, hrect, medges⟩ := rect_eq_paint s hf hs hw x y w h
  refine ⟨_, hrect, ?_, ?_⟩
  · rw [env_paint, env_paint]
  · intro i j hij
    have hnn1 : ∀ p ∈ edges, 0 ≤ p.1 ∧ 0 ≤ p.2 := by
      rintro ⟨a, b⟩ hp
      rw [medges] at hp
      dsimp only
      omega
    have hnn2 : ∀ p ∈ (intRangeLt y (y + h)).flatMap
        (fun j => (intRangeLt x (x + w)).map (fun i => (i, j))), 0 ≤ p.1 ∧ 0 ≤ p.2 := by
      rintro ⟨a, b⟩ hp
      rw [mem_box] at hp
      dsimp only
      omega
    rw [pixelAt_paint_nonneg _ _ _ (ready_paint _ _ s hr) hnn1 i j
          ((inCanvas_paint _ _ s i j).mpr hij),
      pixelAt_paint_nonneg _ _ s hr hnn2 i j hij]
    simp only [mem_box]
    by_cases hmem : (i, j) ∈ edges
    · have h1 := (medges i j).mp hmem
      have hbox : x ≤ i ∧ i < x + w ∧ y ≤ j ∧ j < y + h := by omega
      have hbd : i = x ∨ i = x + w - 1 ∨ j = y ∨ j = y + h - 1 := by omega
      rw [if_pos hmem, if_pos hbox, if_pos hbd]
    · have h1 := mt (medges i j).mpr hmem
      by_cases hbox : x ≤ i ∧ i < x + w ∧ y ≤ j ∧ j < y + h
      · have hbd : ¬ (i = x ∨ i = x + w - 1 ∨ j = y ∨ j = y + h - 1) := by omega
        rw [if_neg hmem, if_pos hbox, if_pos hbox, if_neg hbd]
      · rw [if_neg hmem, if_neg hbox, if_neg hbox]

/-- Witness for C5: `rect(10, 10, 5, 5)` with green fill and white stroke on a 16x16 canvas
leaves 16 white and 9 green cells. -/
theorem rect_fill_and_outline_witness :
    (∃ s', rect (stroke (fill (readyState 16 16) 0 255 0) 255 255 255) 10 10 5 5 = some s' ∧
      env s' = env (stroke (fill (readyState 16 16) 0 255 0) 255 255 255) ∧
      ∀ i j, InCanvas (stroke (fill (readyState 16 16) 0 255 0) 255 255 255) i j →
        pixelAt s' i j =
          if 10 ≤ i ∧ i < 10 + 5 ∧ 10 ≤ j ∧ j < 10 + 5 then
            if i = 10 ∨ i = 10 + 5 - 1 ∨ j = 10 ∨ j = 10 + 5 - 1 then
              some (packColor 255 255 255)
            else some (packColor 0 255 0)
          else pixelAt (stroke (fill (readyState 16 16) 0 255 0) 255 255 255) i j) ∧
    (((rect (stroke (fill (readyState 16 16) 0 255 0) 255 255 255) 10 10 5 5).bind
        (fun s => s.framebuffer)).map
      (fun fb => (fb.count (packColor 255 255 255), fb.count (packColor 0 255 0)))
      = some (16, 9)) :=
  ⟨rect_fill_and_outline (stroke (fill (readyState 16 16) 0 255 0) 255 255 255)
    (ready_stroke _ _ _ _ (ready_fill _ _ _ _ (ready_readyState 16 16))) (by decide)
    (by decide) rfl rfl rfl
    10 10 5 5 (by decide) (by decide) (by decide) (by decide) (by decide) (by decide),
   by decide!⟩

/-! ## Claims about `triangle` and `circle` -/

theorem getElem?_foldl_set_range (v : Nat) (n : Nat) (fb : List Nat) (hn : n ≤ fb.length)
    (k : Nat) (hk : k < n) :
    ((List.range n).foldl (fun fb i => fb.set i v) fb)[k]? = some v := by
  induction n with
  | zero => omega
  | succ n ih =>
    rw [List.range_succ, List.foldl_append, List.foldl_cons, List.foldl_nil, List.getElem?_set]
    by_cases hkn : n = k
    · rw [if_pos hkn, if_pos (by rw [length_foldl_set]; omega)]
    · rw [if_neg hkn]
      exact ih (by omega) (by omega)

/-- After `_init_framebuffer` every canvas cell holds opaque black. -/
theorem pixelAt_readyState (w h i j : Int) (hi : 0 ≤ i) (hiw : i < w) (hj : 0 ≤ j)
    (hjh : j < h) : pixelAt (readyState w h) i j = some (packColor 0 0 0) := by
  have hidx : (j * w + i).toNat < (w * h).toNat := by
    have h1 : 0 ≤ j * w + i := by nlinarith
    have h2 : j * w + i < w * h := by nlinarith
    omega
  show ((List.range (w * h).toNat).foldl (fun fb i => fb.set i (packColor 0 0 0))
      (List.replicate (w * h).toNat 0))[(j * w + i).toNat]? = some (packColor 0 0 0)
  exact getElem?_foldl_set_range _ _ _ (by rw [List.length_replicate]) _ hidx

/-- C6 (defect in the code): in the state of the test pattern (640x480 canvas, magenta
fill, cyan stroke, weight 1) `triangle(400,300,450,400,350,400)` returns, but on row 350,
which lies strictly between the vertex rows 300 and 400 and whose bounding edges are at
`x = 375` and `x = 425`, every pixel strictly between the edges still holds the black
background: the interior is not filled. -/
theorem triangle_test_pattern_not_filled :
    ∃ s', triangle (stroke (fill (readyState 640 480) 255 0 255) 0 255 255)
        400 300 450 400 350 400 = some s' ∧
      ∀ i : Int, 375 < i → i < 425 →
        pixelAt s' i 350 = some (packColor 0 0 0) ∧ packColor 0 0 0 ≠ packColor 255 0 255 := by
  have key : ∃ e ∈ triangleStrokePts 1 400 300 450 400 350 400,
      ∃ f ∈ triangleFillPts 400 300 450 400 350 400,
        (∀ p ∈ e ++ f, 0 ≤ p.1 ∧ 0 ≤ p.2) ∧
        (∀ p ∈ e ++ f, p.2 = 350 → p.1 ≤ 375 ∨ 425 ≤ p.1) := by
    decide!
  obtain ⟨e, he, f, hf, hnn, hrow⟩ := key
  have hr : Ready (stroke (fill (readyState 640 480) 255 0 255) 0 255 255) :=
    ready_stroke _ _ _ _ (ready_fill _ _ _ _ (ready_readyState 640 480))
  rw [triangle_stroke_fill _ rfl rfl]
  rw [show (stroke (fill (readyState 640 480) 255 0 255) 0 255 255).strokeWeightValue = 1
    from rfl, Option.mem_def.mp he, Option.mem_def.mp hf]
  refine ⟨_, rfl, ?_⟩
  intro i h1 h2
  have hin : InCanvas (stroke (fill (readyState 640 480) 255 0 255) 0 255 255) i 350 := by
    refine ⟨by omega, ?_, by decide, by decide!⟩
    show i < 640
    omega
  refine ⟨?_, by decide⟩
  rw [pixelAt_paint_nonneg _ _ _ (ready_paint _ _ _ hr)
        (fun p hp => hnn p (List.mem_append_right _ hp)) i 350
        ((inCanvas_paint _ _ _ i 350).mpr hin),
    pixelAt_paint_nonneg _ _ _ hr (fun p hp => hnn p (List.mem_append_left _ hp)) i 350 hin]
  have hnf : ¬ (i, 350) ∈ f := by
    intro hmem
    have := hrow (i, 350) (List.mem_append_right _ hmem) rfl
    dsimp only at this
    omega
  have hne : ¬ (i, 350) ∈ e := by
    intro hmem
    have := hrow (i, 350) (List.mem_append_left _ hmem) rfl
    dsimp only at this
    omega
  rw [if_neg hnf, if_neg hne]
  exact pixelAt_readyState 640 480 i 350 (by omega) (by omega) (by decide) (by decide)

theorem floor_half (j : Int) : ⌊(j : ℚ) / 2⌋ = j / 2 := by
  rw [Int.floor_eq_iff]
  have h1 : 2 * (j / 2) ≤ j := by omega
  have h2 : j < 2 * (j / 2) + 2 := by omega
  have h1' : (2 : ℚ) * ((j / 2 : Int) : ℚ) ≤ (j : ℚ) := by exact_mod_cast h1
  have h2' : (j : ℚ) < 2 * ((j / 2 : Int) : ℚ) + 2 := by exact_mod_cast h2
  constructor <;> linarith

theorem floor_ten_sub_half (j : Int) : ⌊10 - (j : ℚ) / 2⌋ = 10 - (j + 1) / 2 := by
  rw [Int.floor_eq_iff]
  have h1 : j ≤ 2 * ((j + 1) / 2) := by omega
  have h2 : 2 * ((j + 1) / 2) < j + 2 := by omega
  have h1' : (j : ℚ) ≤ 2 * (((j + 1) / 2 : Int) : ℚ) := by exact_mod_cast h1
  have h2' : (2 : ℚ) * (((j + 1) / 2 : Int) : ℚ) < (j : ℚ) + 2 := by exact_mod_cast h2
  push_cast
  constructor <;> linarith

/-- C7: with identity transform, fill enabled and stroke disabled,
`triangle(0, 0, 10, 0, 5, 10)` returns; afterwards, on every canvas row `j` in `[0, 10]`
exactly the pixels `i` with `⌊j/2⌋ ≤ i ≤ ⌊10 - j/2⌋` (one contiguous run) hold the fill
colour, and every other canvas pixel is unchanged. -/
theorem triangle_flat_top_runs (s : State) (hr : Ready s) (hf : s.useFill = true)
    (hs : s.useStroke = false) :
    ∃ s', triangle s 0 0 10 0 5 10 = some s' ∧ env s' = env s ∧
      ∀ i j, InCanvas s i j →
        pixelAt s' i j =
          if 0 ≤ j ∧ j ≤ 10 ∧ ⌊(j : ℚ) / 2⌋ ≤ i ∧ i ≤ ⌊10 - (j : ℚ) / 2⌋ then
            some (packColor s.fillColor.r s.fillColor.g s.fillColor.b)
          else pixelAt s i j := by
  have key : ∃ L ∈ triangleFillPts 0 0 10 0 5 10,
      (∀ p ∈ L, 0 ≤ p.2 ∧ p.2 ≤ 10 ∧ p.2 / 2 ≤ p.1 ∧ p.1 ≤ 10 - (p.2 + 1) / 2) ∧
      (∀ p ∈ (intRangeLt 0 (0 + 11)).flatMap
          (fun j => (intRangeLt 0 (0 + 11)).map (fun i => (i, j))),
        (0 ≤ p.2 ∧ p.2 ≤ 10 ∧ p.2 / 2 ≤ p.1 ∧ p.1 ≤ 10 - (p.2 + 1) / 2) → p ∈ L) := by
    decide!
  obtain ⟨L, hL, h1, h2⟩ := key
  rw [triangle_fill_only s hs hf, Option.mem_def.mp hL]
  refine ⟨_, rfl, env_paint _ _ _, ?_⟩
  intro i j hij
  have hnn : ∀ p ∈ L, 0 ≤ p.1 ∧ 0 ≤ p.2 := by
    intro p hp
    have := h1 p hp
    omega
  rw [pixelAt_paint_nonneg _ _ s hr hnn i j hij, floor_half, floor_ten_sub_half]
  by_cases hmem : (i, j) ∈ L
  · have h := h1 (i, j) hmem
    dsimp only at h
    rw [if_pos hmem, if_pos h]
  · have h : ¬ (0 ≤ j ∧ j ≤ 10 ∧ j / 2 ≤ i ∧ i ≤ 10 - (j + 1) / 2) := by
      intro hc
      apply hmem
      apply h2 (i, j) _ hc
      rw [mem_box]
      omega
    rw [if_neg hmem, if_neg h]

/-- Witness for C7 on the 11x11 canvas with red fill. -/
theorem triangle_flat_top_runs_witness :
    ∃ s', triangle (noStroke (fill (readyState 11 11) 255 0 0)) 0 0 10 0 5 10 = some s' ∧
      env s' = env (noStroke (fill (readyState 11 11) 255 0 0)) ∧
      ∀ i j, InCanvas (noStroke (fill (readyState 11 11) 255 0 0)) i j →
        pixelAt s' i j =
          if 0 ≤ j ∧ j ≤ 10 ∧ ⌊(j : ℚ) / 2⌋ ≤ i ∧ i ≤ ⌊10 - (j : ℚ) / 2⌋ then
            some (packColor 255 0 0)
          else pixelAt (noStroke (fill (readyState 11 11) 255 0 0)) i j :=
  triangle_flat_top_runs (noStroke (fill (readyState 11 11) 255 0 0))
    (ready_noStroke _ (ready_fill _ _ _ _ (ready_readyState 11 11))) rfl rfl

/-- C8: with identity transform, fill disabled and stroke enabled, `circle(50, 50, 20)`
returns after sending a list `L` of pixels to the sink; every pixel of `L` satisfies
`81 ≤ (px-60)² + (py-60)² ≤ 121`, and every canvas pixel outside that ring is unchanged. -/
theorem circle_stroke_within_ring (s : State) (hr : Ready s) (hf : s.useFill = false)
    (hs : s.useStroke = true) :
    ∃ L, circle s 50 50 20 = some (paint s.strokeColor L s) ∧
      (∀ p ∈ L, 81 ≤ (p.1 - 60) ^ 2 + (p.2 - 60) ^ 2 ∧ (p.1 - 60) ^ 2 + (p.2 - 60) ^ 2 ≤ 121) ∧
      ∀ i j, InCanvas s i j →
        ¬ (81 ≤ (i - 60) ^ 2 + (j - 60) ^ 2 ∧ (i - 60) ^ 2 + (j - 60) ^ 2 ≤ 121) →
        pixelAt (paint s.strokeColor L s) i j = pixelAt s i j := by
  have key : ∃ L ∈ ellipseStrokePts 50 50 20 20,
      (∀ p ∈ L, 81 ≤ (p.1 - 60) ^ 2 + (p.2 - 60) ^ 2 ∧
        (p.1 - 60) ^ 2 + (p.2 - 60) ^ 2 ≤ 121) ∧
      (∀ p ∈ L, 0 ≤ p.1 ∧ 0 ≤ p.2) := by
    decide!
  obtain ⟨L, hL, h1, hnn⟩ := key
  refine ⟨L, ?_, h1, ?_⟩
  · unfold circle
    rw [ellipse_stroke_only s hf hs 50 50 20 20 (by decide) (by decide) (by decide),
      Option.mem_def.mp hL]
    rfl
  · intro i j hij hout
    rw [pixelAt_paint_nonneg _ _ s hr hnn i j hij]
    have hmem : ¬ (i, j) ∈ L := fun hm => hout (h1 (i, j) hm)
    rw [if_neg hmem]

/-- Witness for C8 on an 80x80 canvas with red stroke. -/
theorem circle_stroke_within_ring_witness :
    ∃ L, circle (noFill (stroke (readyState 80 80) 255 0 0)) 50 50 20
        = some (paint ⟨255, 0, 0⟩ L (noFill (stroke (readyState 80 80) 255 0 0))) ∧
      (∀ p ∈ L, 81 ≤ (p.1 - 60) ^ 2 + (p.2 - 60) ^ 2 ∧ (p.1 - 60) ^ 2 + (p.2 - 60) ^ 2 ≤ 121) ∧
      ∀ i j, InCanvas (noFill (stroke (readyState 80 80) 255 0 0)) i j →
        ¬ (81 ≤ (i - 60) ^ 2 + (j - 60) ^ 2 ∧ (i - 60) ^ 2 + (j - 60) ^ 2 ≤ 121) →
        pixelAt (paint ⟨255, 0, 0⟩ L (noFill (stroke (readyState 80 80) 255 0 0))) i j
          = pixelAt (noFill (stroke (readyState 80 80) 255 0 0)) i j :=
  circle_stroke_within_ring (noFill (stroke (readyState 80 80) 255 0 0))
    (ready_noFill _ (ready_stroke _ _ _ _ (ready_readyState 80 80))) rfl rfl

/-! ## Claims about the transform stack -/

theorem set_pixel_withStack (s : State) (m : Nat → Matrix) (x y : Int) (r g b : Nat) :
    _set_pixel (withStack s m) x y r g b = withStack (_set_pixel s x y r g b) m := by
  unfold _set_pixel
  cases hfb : s.framebuffer with
  | none =>
    have h : (withStack s m).framebuffer = none := hfb
    simp only [h]
  | some fb =>
    have h : (withStack s m).framebuffer = some fb := hfb
    have hd : devicePixel (withStack s m) x y = devicePixel s x y := rfl
    have hw : (withStack s m).width = s.width := rfl
    have hh : (withStack s m).height = s.height := rfl
    simp only [h, hd, hw, hh]
    by_cases hc : (devicePixel s x y).1 < 0 ∨ (devicePixel s x y).1 ≥ s.width ∨
        (devicePixel s x y).2 < 0 ∨ (devicePixel s x y).2 ≥ s.height
    · rw [if_pos hc, if_pos hc]
    · rw [if_neg hc, if_neg hc]
      rfl

theorem foldl_withStack {α : Type} (f : State → α → State) (m : Nat → Matrix)
    (hf : ∀ s a, f (withStack s m) a = withStack (f s a) m) (l : List α) (s : State) :
    l.foldl f (withStack s m) = withStack (l.foldl f s) m := by
  induction l generalizing s with
  | nil => rfl
  | cons a l ih => rw [List.foldl_cons, hf, ih, List.foldl_cons]

/-- `point` does not read the saved-matrix array. -/
theorem point_withStack (s : State) (m : Nat → Matrix) (x y : Int) :
    point (withStack s m) x y = withStack (point s x y) m := by
  unfold point
  have hu : (withStack s m).useStroke = s.useStroke := rfl
  have hw : (withStack s m).strokeWeightValue = s.strokeWeightValue := rfl
  rw [hu, hw]
  split
  · apply foldl_withStack
    intro s1 dx
    apply foldl_withStack
    intro s2 dy
    exact set_pixel_withStack s2 m _ _ _ _ _
  · rfl

theorem push_translate_pop_eq (s : State) (h0 : 0 ≤ s.matrixStackSize)
    (h32 : s.matrixStackSize < 32) (dx dy : ℚ) :
    pop (translate (push s) dx dy) =
      withStack s (Function.update s.matrixStack s.matrixStackSize.toNat s.currentMatrix) := by
  have hpush : push s = { s with
      matrixStack := Function.update s.matrixStack s.matrixStackSize.toNat s.currentMatrix,
      matrixStackSize := s.matrixStackSize + 1 } := by
    unfold push
    rw [if_neg (by unfold MAX_MATRIX_STACK; omega)]
  rw [hpush]
  unfold pop translate withStack
  simp only []
  rw [if_neg (by omega)]
  have hidx : s.matrixStackSize + 1 - 1 = s.matrixStackSize := by omega
  have hcm : Function.update s.matrixStack s.matrixStackSize.toNat s.currentMatrix
      (s.matrixStackSize + 1 - 1).toNat = s.currentMatrix := by
    rw [hidx]
    exact Function.update_same _ _ _
  rw [hcm, hidx]

/-- C9: for a stack depth in `[0, 32)` and all `dx, dy`, the sequence `push(); translate(dx,
dy); pop()` leaves the current transform, the depth and every live stack entry as they
were, so that afterwards `point` maps `(0, 0)` (and any other point) to the same device
pixel and produces the same buffer as before the sequence. -/
theorem push_translate_pop_restores (s : State) (h0 : 0 ≤ s.matrixStackSize)
    (h32 : s.matrixStackSize < 32) (dx dy : ℚ) :
    (pop (translate (push s) dx dy)).currentMatrix = s.currentMatrix ∧
    (pop (translate (push s) dx dy)).matrixStackSize = s.matrixStackSize ∧
    (∀ i : Nat, (i : Int) < s.matrixStackSize →
      (pop (translate (push s) dx dy)).matrixStack i = s.matrixStack i) ∧
    devicePixel (pop (translate (push s) dx dy)) 0 0 = devicePixel s 0 0 ∧
    ∀ x y, (point (pop (translate (push s) dx dy)) x y).framebuffer
      = (point s x y).framebuffer := by
  rw [push_translate_pop_eq s h0 h32 dx dy]
  refine ⟨rfl, rfl, ?_, rfl, ?_⟩
  · intro i hi
    show Function.update s.matrixStack s.matrixStackSize.toNat s.currentMatrix i
      = s.matrixStack i
    rw [Function.update_noteq (by omega)]
  · intro x y
    rw [point_withStack]
    rfl

/-- Witness for C9: `dx = dy = 5` on a fresh 8x8 canvas with red stroke. -/
theorem push_translate_pop_restores_witness :
    (pop (translate (push (stroke (readyState 8 8) 255 0 0)) 5 5)).currentMatrix
      = _init_matrix ∧
    devicePixel (pop (translate (push (stroke (readyState 8 8) 255 0 0)) 5 5)) 0 0
      = devicePixel (stroke (readyState 8 8) 255 0 0) 0 0 ∧
    (point (pop (translate (push (stroke (readyState 8 8) 255 0 0)) 5 5)) 0 0).framebuffer
      = (point (stroke (readyState 8 8) 255 0 0) 0 0).framebuffer :=
  have h := push_translate_pop_restores (stroke (readyState 8 8) 255 0 0)
    (by decide) (by decide) 5 5
  ⟨h.1, h.2.2.2.1, h.2.2.2.2 0 0⟩

theorem push_iterate_size (n : Nat) (s : State) (h0 : 0 ≤ s.matrixStackSize)
    (hn : s.matrixStackSize + n ≤ 32) :
    (push^[n] s).matrixStackSize = s.matrixStackSize + n := by
  induction n generalizing s with
  | zero => simp
  | succ n ih =>
    have hpush : (push s).matrixStackSize = s.matrixStackSize + 1 := by
      unfold push
      rw [if_neg (by unfold MAX_MATRIX_STACK; push_cast at hn; omega)]
    rw [Function.iterate_succ_apply, ih (push s) (by omega) (by push_cast at hn ⊢; omega),
      hpush]
    push_cast
    ring

/-- C10: `push` on a stack holding 32 (or more) entries and `pop` on an empty stack return
the state unchanged (current transform, depth and all stack entries); in particular, from
an empty stack 32 pushes give depth 32 and a 33rd push changes nothing. -/
theorem push_full_pop_empty_noop (s : State) :
    (32 ≤ s.matrixStackSize → push s = s) ∧
    (s.matrixStackSize ≤ 0 → pop s = s) ∧
    (s.matrixStackSize = 0 →
      (push^[32] s).matrixStackSize = 32 ∧ push (push^[32] s) = push^[32] s ∧
      (push^[33] s).matrixStackSize = 32) := by
  have hfull : ∀ t : State, 32 ≤ t.matrixStackSize → push t = t := by
    intro t ht
    unfold push
    rw [if_pos (by unfold MAX_MATRIX_STACK; omega)]
  refine ⟨hfull s, ?_, ?_⟩
  · intro h
    unfold pop
    rw [if_pos h]
  · intro h
    have h32 : (push^[32] s).matrixStackSize = 32 := by
      rw [push_iterate_size 32 s (by omega) (by rw [h]; decide), h]
      rfl
    refine ⟨h32, hfull _ (by omega), ?_⟩
    rw [Function.iterate_succ_apply', hfull _ (by omega), h32]

/-- Witness for C10: from the initial (empty-stack) state, `pop` is a no-op and the 33rd
`push` leaves the depth at 32. -/
theorem push_full_pop_empty_noop_witness :
    pop (readyState 8 8) = readyState 8 8 ∧
    (push^[32] (readyState 8 8)).matrixStackSize = 32 ∧
    push (push^[32] (readyState 8 8)) = push^[32] (readyState 8 8) ∧
    (push^[33] (readyState 8 8)).matrixStackSize = 32 :=
  have h := push_full_pop_empty_noop (readyState 8 8)
  ⟨h.2.1 (by decide), (h.2.2 rfl).1, (h.2.2 rfl).2.1, (h.2.2 rfl).2.2⟩

/-! ## Claims about the transform stack, the canvas size and `background` -/

theorem applyCall_depth (s : State) (c : StackCall)
    (h : 0 ≤ s.matrixStackSize ∧ s.matrixStackSize ≤ 32) :
    0 ≤ (applyCall s c).matrixStackSize ∧ (applyCall s c).matrixStackSize ≤ 32 := by
  cases c with
  | push =>
    show 0 ≤ (push s).matrixStackSize ∧ (push s).matrixStackSize ≤ 32
    unfold push MAX_MATRIX_STACK
    split
    · exact h
    · dsimp only
      omega
  | pop =>
    show 0 ≤ (pop s).matrixStackSize ∧ (pop s).matrixStackSize ≤ 32
    unfold pop
    split
    · exact h
    · dsimp only
      omega
  | translate x y => exact h
  | resetMatrix => exact h

theorem runCalls_depth (calls : List StackCall) (s : State)
    (h : 0 ≤ s.matrixStackSize ∧ s.matrixStackSize ≤ 32) :
    0 ≤ (runCalls s calls).matrixStackSize ∧ (runCalls s calls).matrixStackSize ≤ 32 := by
  induction calls generalizing s with
  | nil => exact h
  | cons c calls ih => exact ih (applyCall s c) (applyCall_depth s c h)

/-- C11: from an empty stack, after any finite sequence of `push`, `pop`, `translate` and
`resetMatrix` calls the depth is in `[0, 32]`; hence the slot `matrixStack[depth]` written
by an accepted `push` and the slot `matrixStack[depth - 1]` read by an accepted `pop` are
among the 32 slots. -/
theorem stack_depth_in_range (s : State) (h0 : s.matrixStackSize = 0)
    (calls : List StackCall) :
    (0 ≤ (runCalls s calls).matrixStackSize ∧ (runCalls s calls).matrixStackSize ≤ 32) ∧
    (¬ (runCalls s calls).matrixStackSize ≥ MAX_MATRIX_STACK →
      0 ≤ (runCalls s calls).matrixStackSize ∧ (runCalls s calls).matrixStackSize < 32 ∧
      (runCalls s calls).matrixStackSize.toNat < 32) ∧
    (¬ (runCalls s calls).matrixStackSize ≤ 0 →
      0 ≤ (runCalls s calls).matrixStackSize - 1 ∧
      (runCalls s calls).matrixStackSize - 1 < 32 ∧
      ((runCalls s calls).matrixStackSize - 1).toNat < 32) := by
  have h := runCalls_depth calls s (by omega)
  refine ⟨h, ?_, ?_⟩
  · intro hp
    unfold MAX_MATRIX_STACK at hp
    omega
  · intro hp
    omega

/-- Witness for C11: 33 pushes followed by two pops and a translate, from the fresh state. -/
theorem stack_depth_in_range_witness :
    (runCalls (readyState 4 4)
      (List.replicate 33 StackCall.push ++
        [StackCall.pop, StackCall.pop, StackCall.translate 5 5, StackCall.resetMatrix])
      ).matrixStackSize = 30 ∧
    0 ≤ (runCalls (readyState 4 4)
      (List.replicate 33 StackCall.push ++
        [StackCall.pop, StackCall.pop, StackCall.translate 5 5, StackCall.resetMatrix])
      ).matrixStackSize ∧
    (runCalls (readyState 4 4)
      (List.replicate 33 StackCall.push ++
        [StackCall.pop, StackCall.pop, StackCall.translate 5 5, StackCall.resetMatrix])
      ).matrixStackSize ≤ 32 :=
  ⟨by decide!,
   (stack_depth_in_range (readyState 4 4) rfl
      (List.replicate 33 StackCall.push ++
        [StackCall.pop, StackCall.pop, StackCall.translate 5 5, StackCall.resetMatrix])).1⟩

/-- C12: `translate(dx, dy)` replaces the translation column of the current matrix by
`m02 + dx*m00 + dy*m01` and `m12 + dx*m10 + dy*m11`, keeps the other matrix entries, the
stack, its depth and everything else, and afterwards the transform maps every point `p` to
the image of `p + (dx, dy)` under the transform before the call. -/
theorem translate_composes_on_the_right (s : State) (dx dy : ℚ) :
    (translate s dx dy).currentMatrix.m02
      = s.currentMatrix.m02 + dx * s.currentMatrix.m00 + dy * s.currentMatrix.m01 ∧
    (translate s dx dy).currentMatrix.m12
      = s.currentMatrix.m12 + dx * s.currentMatrix.m10 + dy * s.currentMatrix.m11 ∧
    ((translate s dx dy).currentMatrix.m00 = s.currentMatrix.m00 ∧
     (translate s dx dy).currentMatrix.m01 = s.currentMatrix.m01 ∧
     (translate s dx dy).currentMatrix.m10 = s.currentMatrix.m10 ∧
     (translate s dx dy).currentMatrix.m11 = s.currentMatrix.m11 ∧
     (translate s dx dy).currentMatrix.m20 = s.currentMatrix.m20 ∧
     (translate s dx dy).currentMatrix.m21 = s.currentMatrix.m21 ∧
     (translate s dx dy).currentMatrix.m22 = s.currentMatrix.m22) ∧
    ((translate s dx dy).matrixStack = s.matrixStack ∧
     (translate s dx dy).matrixStackSize = s.matrixStackSize ∧
     (translate s dx dy).framebuffer = s.framebuffer ∧
     (translate s dx dy).width = s.width ∧ (translate s dx dy).height = s.height ∧
     (translate s dx dy).fillColor = s.fillColor ∧
     (translate s dx dy).strokeColor = s.strokeColor ∧
     (translate s dx dy).useFill = s.useFill ∧ (translate s dx dy).useStroke = s.useStroke ∧
     (translate s dx dy).strokeWeightValue = s.strokeWeightValue ∧
     (translate s dx dy).currentAngleMode = s.currentAngleMode) ∧
    ∀ px py : ℚ,
      _transform_point (translate s dx dy) px py = _transform_point s (px + dx) (py + dy) := by
  refine ⟨?_, ?_, ⟨rfl, rfl, rfl, rfl, rfl, rfl, rfl⟩,
    ⟨rfl, rfl, rfl, rfl, rfl, rfl, rfl, rfl, rfl, rfl, rfl⟩, ?_⟩
  · show s.currentMatrix.m02 + (dx * s.currentMatrix.m00 + dy * s.currentMatrix.m01) = _
    ring
  · show s.currentMatrix.m12 + (dx * s.currentMatrix.m10 + dy * s.currentMatrix.m11) = _
    ring
  · intro px py
    unfold _transform_point translate
    simp only [Prod.mk.injEq]
    constructor <;> ring

theorem foldl_set_range_eq_replicate (v : Nat) (fb : List Nat) :
    (List.range fb.length).foldl (fun fb i => fb.set i v) fb = List.replicate fb.length v := by
  apply List.ext_getElem?
  intro k
  by_cases hk : k < fb.length
  · rw [getElem?_foldl_set_range v fb.length fb (le_refl _) k hk]
    simp [hk]
  · have h1 : ((List.range fb.length).foldl (fun fb i => fb.set i v) fb).length ≤ k := by
      rw [length_foldl_set]; omega
    rw [List.getElem?_eq_none h1, List.getElem?_eq_none (by simp; omega)]

/-- C14: on an allocated buffer of `width * height` cells, `background(r, g, b)` turns the
buffer into `width * height` copies of `0xFF000000 + 65536 r + 256 g + b`, whatever it held
before, and changes nothing else (draw state, transform, stack, size). -/
theorem background_fills_buffer (s : State) (fb : List Nat) (hfb : s.framebuffer = some fb)
    (hlen : fb.length = (s.width * s.height).toNat)
    (r g b : Nat) (hr : r < 256) (hg : g < 256) (hb : b < 256) :
    background s r g b =
      withBuffer s (List.replicate (s.width * s.height).toNat
        (0xFF000000 + 65536 * r + 256 * g + b)) ∧
    env (background s r g b) = env s ∧
    ∀ i j, InCanvas s i j →
      pixelAt (background s r g b) i j = some (0xFF000000 + 65536 * r + 256 * g + b) := by
  have hbg : background s r g b =
      withBuffer s (List.replicate (s.width * s.height).toNat
        (0xFF000000 + 65536 * r + 256 * g + b)) := by
    unfold background _clear_framebuffer
    rw [hfb]
    simp only []
    rw [← hlen, foldl_set_range_eq_replicate, packColor_eq r g b hr hg hb]
    rfl
  refine ⟨hbg, ?_, ?_⟩
  · rw [hbg]; rfl
  · intro i j hij
    obtain ⟨hi, hiw, hj, hjh⟩ := hij
    rw [hbg]
    show (List.replicate (s.width * s.height).toNat
      (0xFF000000 + 65536 * r + 256 * g + b))[(j * s.width + i).toNat]? = _
    have hidx : (j * s.width + i).toNat < (s.width * s.height).toNat := by
      have h1 : 0 ≤ j * s.width + i := by nlinarith
      have h2 : j * s.width + i < s.width * s.height := by nlinarith
      omega
    simp [hidx]

/-- Witness for C14: `background(1, 2, 3)` on a 2x2 canvas on which one pixel was drawn. -/
theorem background_fills_buffer_witness :
    env (background (_set_pixel (readyState 2 2) 1 1 9 9 9) 1 2 3)
      = env (_set_pixel (readyState 2 2) 1 1 9 9 9) ∧
    ∀ i j, InCanvas (_set_pixel (readyState 2 2) 1 1 9 9 9) i j →
      pixelAt (background (_set_pixel (readyState 2 2) 1 1 9 9 9) 1 2 3) i j
        = some (0xFF000000 + 65536 * 1 + 256 * 2 + 3) :=
  (background_fills_buffer (_set_pixel (readyState 2 2) 1 1 9 9 9)
    [packColor 0 0 0, packColor 0 0 0, packColor 0 0 0, packColor 9 9 9]
    (by decide!) (by decide!) 1 2 3 (by decide) (by decide) (by decide)).2

/-! ## Termination of the loop of `line` and the thickness band -/

/-- The loop of `line` reaches its `break` within `ra + rb + 1` iterations, where `ra` and
`rb` are the numbers of `x` and `y` steps still to be made. -/
theorem linePixels_terminates (x2 y2 dx dy sx sy halfWeight : Int)
    (hsx : sx = 1 ∨ sx = -1) (hsy : sy = 1 ∨ sy = -1) (n : Nat) :
    ∀ (fuel : Nat) (ra rb x1 y1 err : Int), 0 ≤ ra → ra ≤ dx → 0 ≤ rb → rb ≤ dy →
      x1 = x2 - sx * ra → y1 = y2 - sy * rb → err = dx - dy + ra * dy - rb * dx →
      ra + rb ≤ n → n < fuel →
      ∃ l, linePixels x2 y2 dx dy sx sy halfWeight fuel x1 y1 err = some l := by
  induction n with
  | zero =>
    intro fuel ra rb x1 y1 err hra0 _ hrb0 _ hx hy _ hn hf
    obtain ⟨f, rfl⟩ : ∃ f, fuel = f + 1 := ⟨fuel - 1, by omega⟩
    have hra : ra = 0 := by omega
    have hrb : rb = 0 := by omega
    subst hra hrb
    have hend : x1 = x2 ∧ y1 = y2 := by
      constructor
      · rw [hx]; ring
      · rw [hy]; ring
    unfold linePixels
    rw [if_pos hend]
    exact ⟨_, rfl⟩
  | succ n ih =>
    intro fuel ra rb x1 y1 err hra0 hra hrb0 hrb hx hy herr hn hf
    obtain ⟨f, rfl⟩ : ∃ f, fuel = f + 1 := ⟨fuel - 1, by omega⟩
    unfold linePixels
    by_cases hend : x1 = x2 ∧ y1 = y2
    · rw [if_pos hend]
      exact ⟨_, rfl⟩
    · rw [if_neg hend]
      have hnot0 : ¬ (ra = 0 ∧ rb = 0) := by
        rintro ⟨h1, h2⟩
        apply hend
        subst h1 h2
        constructor
        · rw [hx]; ring
        · rw [hy]; ring
      -- the recursive call is covered by the induction hypothesis
      suffices h : ∃ l, linePixels x2 y2 dx dy sx sy halfWeight f
          (if 2 * err > -dy then x1 + sx else x1) (if 2 * err < dx then y1 + sy else y1)
          (if 2 * err < dx then (if 2 * err > -dy then err - dy else err) + dx
            else (if 2 * err > -dy then err - dy else err)) = some l by
        obtain ⟨l, hl⟩ := h
        simp only [hl, Option.map_some']
        exact ⟨_, rfl⟩
      have hsx2 : sx * sx = 1 := by rcases hsx with rfl | rfl <;> rfl
      have hsy2 : sy * sy = 1 := by rcases hsy with rfl | rfl <;> rfl
      have hP : 0 ≤ ra * dy := Int.mul_nonneg hra0 (by omega)
      have hQ : 0 ≤ rb * dx := Int.mul_nonneg hrb0 (by omega)
      by_cases hc1 : 2 * err > -dy
      · by_cases hc2 : 2 * err < dx
        · -- both steps
          have hra1 : 1 ≤ ra := by
            by_contra hlt
            have h0 : ra = 0 := by omega
            subst h0
            have hrb1 : 1 ≤ rb := by omega
            have : dx ≤ rb * dx := by nlinarith
            omega
          have hrb1 : 1 ≤ rb := by
            by_contra hlt
            have h0 : rb = 0 := by omega
            subst h0
            have : dy ≤ ra * dy := by nlinarith
            omega
          simp only [if_pos hc1, if_pos hc2]
          exact ih f (ra - 1) (rb - 1) _ _ _ (by omega) (by omega) (by omega) (by omega)
            (by rw [hx]; ring) (by rw [hy]; ring) (by rw [herr]; ring) (by omega) (by omega)
        · -- x step only
          have hra1 : 1 ≤ ra := by
            by_contra hlt
            have h0 : ra = 0 := by omega
            subst h0
            have hrb1 : 1 ≤ rb := by omega
            have : dx ≤ rb * dx := by nlinarith
            omega
          simp only [if_pos hc1, if_neg hc2]
          exact ih f (ra - 1) rb _ _ _ (by omega) (by omega) hrb0 hrb
            (by rw [hx]; ring) hy (by rw [herr]; ring) (by omega) (by omega)
      · by_cases hc2 : 2 * err < dx
        · -- y step only
          have hrb1 : 1 ≤ rb := by
            by_contra hlt
            have h0 : rb = 0 := by omega
            subst h0
            have hra1 : 1 ≤ ra := by omega
            have : dy ≤ ra * dy := by nlinarith
            omega
          simp only [if_neg hc1, if_pos hc2]
          exact ih f ra (rb - 1) _ _ _ hra0 hra (by omega) (by omega)
            hx (by rw [hy]; ring) (by rw [herr]; ring) (by omega) (by omega)
        · -- no step is impossible
          exfalso
          have hdx : dx = 0 := by omega
          have hdy : dy = 0 := by omega
          apply hnot0
          omega

/-- For all endpoints and weights `line`'s pixel list is defined: the loop terminates. -/
theorem linePts_isSome (weight x1 y1 x2 y2 : Int) :
    ∃ l, linePts weight x1 y1 x2 y2 = some l := by
  unfold linePts
  have hsx : (if x1 < x2 then (1 : Int) else -1) = 1 ∨ (if x1 < x2 then (1 : Int) else -1) = -1 := by
    split <;> simp
  have hsy : (if y1 < y2 then (1 : Int) else -1) = 1 ∨ (if y1 < y2 then (1 : Int) else -1) = -1 := by
    split <;> simp
  have hdx : 0 ≤ |x2 - x1| := abs_nonneg _
  have hdy : 0 ≤ |y2 - y1| := abs_nonneg _
  apply linePixels_terminates x2 y2 |x2 - x1| |y2 - y1| _ _ _ hsx hsy
    (|x2 - x1| + |y2 - y1|).toNat (|x2 - x1| + |y2 - y1| + 1).toNat |x2 - x1| |y2 - y1|
    x1 y1 _ hdx (le_refl _) hdy (le_refl _)
  · by_cases h : x1 < x2
    · rw [if_pos h, abs_of_pos (by omega)]; ring
    · rw [if_neg h, abs_of_nonpos (by omega)]; ring
  · by_cases h : y1 < y2
    · rw [if_pos h, abs_of_pos (by omega)]; ring
    · rw [if_neg h, abs_of_nonpos (by omega)]; ring
  · ring
  · omega
  · omega

theorem lineBand_zero (dx dy : Int) (p : Int × Int) : lineBand 0 dx dy p = [p] := by
  unfold lineBand
  rw [intRange_neg_zero]
  by_cases h : dx > dy <;> simp [h]

/-- The pixels of a thick line are the bands around the pixels of the thin line. -/
theorem linePixels_band (x2 y2 dx dy sx sy halfWeight : Int) (fuel : Nat) (x1 y1 err : Int) :
    linePixels x2 y2 dx dy sx sy halfWeight fuel x1 y1 err =
      (linePixels x2 y2 dx dy sx sy 0 fuel x1 y1 err).map
        (fun l => l.flatMap (lineBand halfWeight dx dy)) := by
  induction fuel generalizing x1 y1 err with
  | zero => rfl
  | succ fuel ih =>
    have hb0 : (intRange (-0) 0).map (fun offset =>
        if dx > dy then (x1, y1 + offset) else (x1 + offset, y1)) = [(x1, y1)] := by
      have := lineBand_zero dx dy (x1, y1)
      unfold lineBand at this
      exact this
    have hbw : (intRange (-halfWeight) halfWeight).map (fun offset =>
        if dx > dy then (x1, y1 + offset) else (x1 + offset, y1))
        = lineBand halfWeight dx dy (x1, y1) := rfl
    unfold linePixels
    rw [hb0, hbw]
    by_cases hend : x1 = x2 ∧ y1 = y2
    · rw [if_pos hend, if_pos hend]
      simp
    · rw [if_neg hend, if_neg hend]
      simp only [ih, Option.map_map]
      congr 1

theorem length_intRangeLt (lo hi : Int) : (intRangeLt lo hi).length = (hi - lo).toNat := by
  unfold intRangeLt
  rw [List.length_map, List.length_range]

theorem length_arcSamples (m : Libm) (cx cy a b : Int) (startAngle angleStep : ℚ)
    (detail : Int) :
    (arcSamples m cx cy a b startAngle angleStep detail).length = (detail + 1).toNat := by
  unfold arcSamples intRange
  rw [List.length_map, length_intRangeLt]
  congr 1
  ring

theorem ptAt_arcSamples (m : Libm) (cx cy a b : Int) (startAngle angleStep : ℚ)
    (detail i : Int) (h0 : 0 ≤ i) (h1 : i ≤ detail) :
    ptAt (arcSamples m cx cy a b startAngle angleStep detail) i
      = some (arcSample m cx cy a b startAngle angleStep i) := by
  unfold ptAt arcSamples intRange intRangeLt
  rw [if_neg (by omega), List.getElem?_map, List.getElem?_map,
    List.getElem?_range (by omega)]
  simp only [Option.map_some']
  congr 2
  omega

theorem arcEffectiveDetail_eq (detail : Int) :
    arcEffectiveDetail detail =
      if detail ≤ 0 then 25 else if detail > 360 then 360 else detail := by
  unfold arcEffectiveDetail
  by_cases h : detail ≤ 0
  · simp only [if_pos h]
    rfl
  · simp only [if_neg h]

theorem arcEffectiveDetail_range (detail : Int) :
    1 ≤ arcEffectiveDetail detail ∧ arcEffectiveDetail detail ≤ 360 := by
  rw [arcEffectiveDetail_eq]
  split_ifs <;> omega

theorem drawSegments_append (l1 l2 : List ((Int × Int) × (Int × Int))) (s : State) :
    drawSegments (l1 ++ l2) s = (drawSegments l1 s).bind (drawSegments l2) := by
  induction l1 generalizing s with
  | nil => rfl
  | cons g l1 ih =>
    show (line s g.1.1 g.1.2 g.2.1 g.2.2).bind (fun s => drawSegments (l1 ++ l2) s) = _
    cases hl : line s g.1.1 g.1.2 g.2.1 g.2.2 with
    | none => simp [drawSegments, hl]
    | some s1 => simp [drawSegments, hl, ih]

theorem arcStrokeLoop_eq_drawSegments (pts : List (Int × Int)) (P : Int → Int × Int)
    (l : List Int) (hP : ∀ i ∈ l, ptAt pts i = some (P i) ∧ ptAt pts (i + 1) = some (P (i + 1)))
    (s : State) :
    arcStrokeLoop pts l s = drawSegments (l.map (fun i => (P i, P (i + 1)))) s := by
  induction l generalizing s with
  | nil => rfl
  | cons i l ih =>
    have hi := hP i (List.mem_cons_self _ _)
    unfold arcStrokeLoop
    rw [hi.1, hi.2]
    simp only [Option.some_bind, List.map_cons]
    unfold drawSegments
    congr 1
    funext s1
    exact ih (fun j hj => hP j (List.mem_cons_of_mem _ hj)) s1

/-- C16: in PIE mode with stroke enabled, fill disabled, `w, h > 0` and `1 ≤ d ≤ 360`,
`arcDetail` draws exactly the `d + 2` segments of `arcPieSegments`, in that order: the `d`
segments joining samples `i` and `i + 1`, then centre to first sample, then centre to last
sample. -/
theorem arc_pie_stroke_segments (m : Libm) (s : State) (hs : s.useStroke = true)
    (hf : s.useFill = false) (x y w h : Int) (hw : 0 < w) (hh : 0 < h) (start stop : ℚ)
    (d : Int) (hd1 : 1 ≤ d) (hd2 : d ≤ 360) :
    arcDetail m s x y w h start stop PIE d
      = drawSegments (arcPieSegments m s x y w h start stop d) s ∧
    ((arcPieSegments m s x y w h start stop d).length : Int) = d + 2 := by
  have hdet : arcEffectiveDetail d = d := by
    rw [arcEffectiveDetail_eq, if_neg (by omega), if_neg (by omega)]
  constructor
  · unfold arcDetail arcPieSegments
    rw [if_neg (by omega)]
    simp only [hf, hs, hdet, Bool.false_eq_true, if_false, if_true, Option.some_bind]
    unfold arcStroke
    have hcount : ((arcSamples m (x + Int.tdiv w 2) (y + Int.tdiv h 2) (Int.tdiv w 2)
        (Int.tdiv h 2) (_normalize_angle s start)
        ((arcStopAngle (_normalize_angle s start) (_normalize_angle s stop)
          - _normalize_angle s start) / (d : ℚ)) d).length : Int) - 1 = d := by
      rw [length_arcSamples]
      omega
    simp only [hcount]
    rw [arcStrokeLoop_eq_drawSegments _
      (arcSample m (x + Int.tdiv w 2) (y + Int.tdiv h 2) (Int.tdiv w 2) (Int.tdiv h 2)
        (_normalize_angle s start)
        ((arcStopAngle (_normalize_angle s start) (_normalize_angle s stop)
          - _normalize_angle s start) / (d : ℚ)))]
    · rw [drawSegments_append]
      congr 1
      funext s1
      rw [if_pos True.intro, ptAt_arcSamples _ _ _ _ _ _ _ d 0 (by omega) (by omega),
        ptAt_arcSamples _ _ _ _ _ _ _ d d (by omega) (by omega)]
      simp only [Option.some_bind]
      rw [if_neg (by decide)]
      unfold drawSegments drawSegments drawSegments
      congr 1
      funext s2
      cases line s2 (x + Int.tdiv w 2) (y + Int.tdiv h 2) _ _ <;> rfl
    · intro i hi
      rw [mem_intRangeLt] at hi
      exact ⟨ptAt_arcSamples _ _ _ _ _ _ _ d i (by omega) (by omega),
        ptAt_arcSamples _ _ _ _ _ _ _ d (i + 1) (by omega) (by omega)⟩
  · unfold arcPieSegments
    simp only [List.length_append, List.length_map, length_intRangeLt, List.length_cons,
      List.length_nil]
    push_cast
    omega

/-- Witness for C16: `arcDetail(0, 0, 100, 100, 0, 180, PIE, 4)` in DEGREES mode gives 4
connecting segments and 2 radii. -/
theorem arc_pie_stroke_segments_witness :
    arcDetail taylorLibm (noFill (stroke (angleMode (readyState 101 101) DEGREES) 255 0 0))
        0 0 100 100 0 180 PIE 4
      = drawSegments (arcPieSegments taylorLibm
          (noFill (stroke (angleMode (readyState 101 101) DEGREES) 255 0 0))
          0 0 100 100 0 180 4)
          (noFill (stroke (angleMode (readyState 101 101) DEGREES) 255 0 0)) ∧
    ((arcPieSegments taylorLibm
        (noFill (stroke (angleMode (readyState 101 101) DEGREES) 255 0 0))
        0 0 100 100 0 180 4).length : Int) = 4 + 2 :=
  arc_pie_stroke_segments taylorLibm
    (noFill (stroke (angleMode (readyState 101 101) DEGREES) 255 0 0)) rfl rfl
    0 0 100 100 (by decide) (by decide) 0 180 4 (by decide) (by decide)

theorem arcFillPie_eq_drawTriangles (cx cy : Int) (pts : List (Int × Int))
    (P : Int → Int × Int) (l : List Int)
    (hP : ∀ i ∈ l, ptAt pts i = some (P i) ∧ ptAt pts (i + 1) = some (P (i + 1)))
    (s : State) :
    arcFillPie cx cy pts l s
      = drawTriangles (l.map (fun i => ((cx, cy), P i, P (i + 1)))) s := by
  induction l generalizing s with
  | nil => rfl
  | cons i l ih =>
    have hi := hP i (List.mem_cons_self _ _)
    unfold arcFillPie
    rw [hi.1, hi.2]
    simp only [Option.some_bind, List.map_cons]
    unfold drawTriangles
    congr 1
    funext s1
    exact ih (fun j hj => hP j (List.mem_cons_of_mem _ hj)) s1

theorem arcFillChord_eq_drawTriangles (pts : List (Int × Int))
    (P : Int → Int × Int) (l : List Int)
    (hP : ∀ i ∈ l, ptAt pts i = some (P i) ∧ ptAt pts (i + 1) = some (P (i + 1)) ∧
      ptAt pts (i + 2) = some (P (i + 2)))
    (s : State) :
    arcFillChord pts l s
      = drawTriangles (l.map (fun i => (P i, P (i + 1), P (i + 2)))) s := by
  induction l generalizing s with
  | nil => rfl
  | cons i l ih =>
    have hi := hP i (List.mem_cons_self _ _)
    unfold arcFillChord
    rw [hi.1, hi.2.1, hi.2.2]
    simp only [Option.some_bind, List.map_cons]
    unfold drawTriangles
    congr 1
    funext s1
    exact ih (fun j hj => hP j (List.mem_cons_of_mem _ hj)) s1

theorem length_arcPoints (m : Libm) (s : State) (x y w h : Int) (start stop : ℚ)
    (detail : Int) :
    ((arcPoints m s x y w h start stop detail).length : Int)
      = arcEffectiveDetail detail + 1 := by
  have hr := arcEffectiveDetail_range detail
  unfold arcPoints
  simp only []
  rw [length_arcSamples]
  omega

theorem ptAt_arcPoints (m : Libm) (s : State) (x y w h : Int) (start stop : ℚ)
    (detail i : Int) (h0 : 0 ≤ i) (h1 : i ≤ arcEffectiveDetail detail) :
    ptAt (arcPoints m s x y w h start stop detail) i
      = some (arcPoint m s x y w h start stop detail i) := by
  unfold arcPoints arcPoint
  exact ptAt_arcSamples _ _ _ _ _ _ _ _ i h0 h1

/-- C17: for every call `arcDetail(x, y, w, h, start, stop, mode, detail)` the effective
sample count `d'` is 25 if `detail ≤ 0`, 360 if `detail > 360` and `detail` otherwise; the
sampling loop stores `count = d' + 1` points with `2 ≤ count ≤ 361 < 362`; the fill and
stroke loops of `arcDetail` run on these stored points over the index lists
`0 .. count - 2` (PIE fill, stroke) and `0 .. count - 3` (CHORD fill); for every index `i`
of these lists the reads at `i`, `i + 1` (and `i + 2` in the CHORD loop) are below 362 and
return the stored sample, as do the closing reads at `0` and `count - 1`; hence each loop
equals the same loop with the array reads replaced by the stored values. -/
theorem arc_sample_indices_in_bounds (m : Libm) (s : State) (x y w h : Int)
    (start stop : ℚ) (mode detail : Int) :
    arcEffectiveDetail detail
      = (if detail ≤ 0 then 25 else if detail > 360 then 360 else detail) ∧
    (((arcPoints m s x y w h start stop detail).length : Int)
        = arcEffectiveDetail detail + 1 ∧
      2 ≤ arcEffectiveDetail detail + 1 ∧ arcEffectiveDetail detail + 1 ≤ 361) ∧
    arcDetail m s x y w h start stop mode detail
      = (if w ≤ 0 ∨ h ≤ 0 then some s
         else
          (if s.useFill then
            if mode = PIE then
              arcFillPie (x + Int.tdiv w 2) (y + Int.tdiv h 2)
                (arcPoints m s x y w h start stop detail)
                (intRangeLt 0 (((arcPoints m s x y w h start stop detail).length : Int) - 1)) s
            else if mode = CHORD then
              arcFillChord (arcPoints m s x y w h start stop detail)
                (intRangeLt 0 (((arcPoints m s x y w h start stop detail).length : Int) - 2)) s
            else some (arcFillOpen m s (x + Int.tdiv w 2) (y + Int.tdiv h 2) (Int.tdiv w 2)
              (Int.tdiv h 2) (_normalize_angle s start)
              (arcStopAngle (_normalize_angle s start) (_normalize_angle s stop)))
           else some s).bind fun s1 =>
          if s1.useStroke then
            arcStroke s1 mode (x + Int.tdiv w 2) (y + Int.tdiv h 2)
              (arcPoints m s x y w h start stop detail)
          else some s1) ∧
    (∀ i ∈ intRangeLt 0 (((arcPoints m s x y w h start stop detail).length : Int) - 1),
      (0 ≤ i ∧ i + 1 < 362 ∧
        i + 1 < ((arcPoints m s x y w h start stop detail).length : Int)) ∧
      ptAt (arcPoints m s x y w h start stop detail) i
        = some (arcPoint m s x y w h start stop detail i) ∧
      ptAt (arcPoints m s x y w h start stop detail) (i + 1)
        = some (arcPoint m s x y w h start stop detail (i + 1))) ∧
    (∀ i ∈ intRangeLt 0 (((arcPoints m s x y w h start stop detail).length : Int) - 2),
      (0 ≤ i ∧ i + 2 < 362 ∧
        i + 2 < ((arcPoints m s x y w h start stop detail).length : Int)) ∧
      ptAt (arcPoints m s x y w h start stop detail) i
        = some (arcPoint m s x y w h start stop detail i) ∧
      ptAt (arcPoints m s x y w h start stop detail) (i + 1)
        = some (arcPoint m s x y w h start stop detail (i + 1)) ∧
      ptAt (arcPoints m s x y w h start stop detail) (i + 2)
        = some (arcPoint m s x y w h start stop detail (i + 2))) ∧
    (ptAt (arcPoints m s x y w h start stop detail) 0
        = some (arcPoint m s x y w h start stop detail 0) ∧
      ptAt (arcPoints m s x y w h start stop detail)
          (((arcPoints m s x y w h start stop detail).length : Int) - 1)
        = some (arcPoint m s x y w h start stop detail (arcEffectiveDetail detail))) ∧
    (∀ s1 : State,
      arcFillPie (x + Int.tdiv w 2) (y + Int.tdiv h 2)
          (arcPoints m s x y w h start stop detail)
          (intRangeLt 0 (((arcPoints m s x y w h start stop detail).length : Int) - 1)) s1
        = drawTriangles ((intRangeLt 0 (arcEffectiveDetail detail)).map (fun i =>
            ((x + Int.tdiv w 2, y + Int.tdiv h 2),
              arcPoint m s x y w h start stop detail i,
              arcPoint m s x y w h start stop detail (i + 1)))) s1 ∧
      arcFillChord (arcPoints m s x y w h start stop detail)
          (intRangeLt 0 (((arcPoints m s x y w h start stop detail).length : Int) - 2)) s1
        = drawTriangles ((intRangeLt 0 (arcEffectiveDetail detail - 1)).map (fun i =>
            (arcPoint m s x y w h start stop detail i,
              arcPoint m s x y w h start stop detail (i + 1),
              arcPoint m s x y w h start stop detail (i + 2)))) s1 ∧
      arcStrokeLoop (arcPoints m s x y w h start stop detail)
          (intRangeLt 0 (((arcPoints m s x y w h start stop detail).length : Int) - 1)) s1
        = drawSegments ((intRangeLt 0 (arcEffectiveDetail detail)).map (fun i =>
            (arcPoint m s x y w h start stop detail i,
              arcPoint m s x y w h start stop detail (i + 1)))) s1) := by
  have hr := arcEffectiveDetail_range detail
  have hlen := length_arcPoints m s x y w h start stop detail
  have h1 : ((arcPoints m s x y w h start stop detail).length : Int) - 1
      = arcEffectiveDetail detail := by omega
  have h2 : ((arcPoints m s x y w h start stop detail).length : Int) - 2
      = arcEffectiveDetail detail - 1 := by omega
  refine ⟨arcEffectiveDetail_eq detail, ⟨hlen, by omega, by omega⟩, rfl, ?_, ?_, ?_, ?_⟩
  · intro i hi
    rw [h1, mem_intRangeLt] at hi
    exact ⟨⟨hi.1, by omega, by omega⟩, ptAt_arcPoints _ _ _ _ _ _ _ _ _ i hi.1 (by omega),
      ptAt_arcPoints _ _ _ _ _ _ _ _ _ (i + 1) (by omega) (by omega)⟩
  · intro i hi
    rw [h2, mem_intRangeLt] at hi
    exact ⟨⟨hi.1, by omega, by omega⟩, ptAt_arcPoints _ _ _ _ _ _ _ _ _ i hi.1 (by omega),
      ptAt_arcPoints _ _ _ _ _ _ _ _ _ (i + 1) (by omega) (by omega),
      ptAt_arcPoints _ _ _ _ _ _ _ _ _ (i + 2) (by omega) (by omega)⟩
  · rw [h1]
    exact ⟨ptAt_arcPoints _ _ _ _ _ _ _ _ _ 0 (le_refl _) (by omega),
      ptAt_arcPoints _ _ _ _ _ _ _ _ _ _ (by omega) (le_refl _)⟩
  · intro s1
    rw [h1, h2]
    refine ⟨?_, ?_, ?_⟩
    · apply arcFillPie_eq_drawTriangles
      intro i hi
      rw [mem_intRangeLt] at hi
      exact ⟨ptAt_arcPoints _ _ _ _ _ _ _ _ _ i hi.1 (by omega),
        ptAt_arcPoints _ _ _ _ _ _ _ _ _ (i + 1) (by omega) (by omega)⟩
    · apply arcFillChord_eq_drawTriangles
      intro i hi
      rw [mem_intRangeLt] at hi
      exact ⟨ptAt_arcPoints _ _ _ _ _ _ _ _ _ i hi.1 (by omega),
        ptAt_arcPoints _ _ _ _ _ _ _ _ _ (i + 1) (by omega) (by omega),
        ptAt_arcPoints _ _ _ _ _ _ _ _ _ (i + 2) (by omega) (by omega)⟩
    · apply arcStrokeLoop_eq_drawSegments
      intro i hi
      rw [mem_intRangeLt] at hi
      exact ⟨ptAt_arcPoints _ _ _ _ _ _ _ _ _ i hi.1 (by omega),
        ptAt_arcPoints _ _ _ _ _ _ _ _ _ (i + 1) (by omega) (by omega)⟩

/-- Witness for C17: the call `arcDetail(0, 0, 20, 20, 0, 1, PIE, 500)` stores 361 points
and its last read is at index 360. -/
theorem arc_sample_indices_in_bounds_witness :
    ((arcPoints taylorLibm (readyState 8 8) 0 0 20 20 0 1 500).length : Int)
      = arcEffectiveDetail 500 + 1 ∧
    ptAt (arcPoints taylorLibm (readyState 8 8) 0 0 20 20 0 1 500)
        (((arcPoints taylorLibm (readyState 8 8) 0 0 20 20 0 1 500).length : Int) - 1)
      = some (arcPoint taylorLibm (readyState 8 8) 0 0 20 20 0 1 500 (arcEffectiveDetail 500)) :=
  ⟨(arc_sample_indices_in_bounds taylorLibm (readyState 8 8) 0 0 20 20 0 1 PIE 500).2.1.1,
   (arc_sample_indices_in_bounds taylorLibm (readyState 8 8) 0 0 20 20 0 1 PIE 500
      ).2.2.2.2.2.1.2⟩

/-- C18 (defect in the code): in RADIANS mode with `start = 10` and `stop = 0`, and in
DEGREES mode with `start = 720` and `stop = 0`, the single `stopAngle += 2 * M_PI` leaves
`stopAngle` below `startAngle`, so the angle step for 25 samples is negative. -/
theorem arc_sweep_can_go_backward :
    arcStopAngle (_normalize_angle (readyState 4 4) 10) (_normalize_angle (readyState 4 4) 0)
      < _normalize_angle (readyState 4 4) 10 ∧
    (arcStopAngle (_normalize_angle (readyState 4 4) 10)
        (_normalize_angle (readyState 4 4) 0) - _normalize_angle (readyState 4 4) 10)
      / ((arcEffectiveDetail 25 : Int) : ℚ) < 0 ∧
    arcStopAngle (_normalize_angle (angleMode (readyState 4 4) DEGREES) 720)
        (_normalize_angle (angleMode (readyState 4 4) DEGREES) 0)
      < _normalize_angle (angleMode (readyState 4 4) DEGREES) 720 ∧
    (arcStopAngle (_normalize_angle (angleMode (readyState 4 4) DEGREES) 720)
        (_normalize_angle (angleMode (readyState 4 4) DEGREES) 0)
      - _normalize_angle (angleMode (readyState 4 4) DEGREES) 720)
      / ((arcEffectiveDetail 25 : Int) : ℚ) < 0 := by
  decide!

/-- C19: when `w ≤ 0` or `h ≤ 0`, `ellipse` and `arcDetail` return the state unchanged,
whatever the draw state and the other arguments. -/
theorem degenerate_ellipse_and_arc_noop (m : Libm) (s : State) (x y w h : Int)
    (hdeg : w ≤ 0 ∨ h ≤ 0) (start stop : ℚ) (mode detail : Int) :
    ellipse s x y w h = some s ∧ arcDetail m s x y w h start stop mode detail = some s := by
  constructor
  · unfold ellipse
    simp only [if_pos hdeg]
  · unfold arcDetail
    rw [if_pos hdeg]

/-- Witness for C19: width 0 with fill and stroke enabled. -/
theorem degenerate_ellipse_and_arc_noop_witness :
    ellipse (stroke (readyState 8 8) 255 0 0) 2 2 0 5 = some (stroke (readyState 8 8) 255 0 0) ∧
    arcDetail taylorLibm (stroke (readyState 8 8) 255 0 0) 2 2 0 5 0 1 PIE 4
      = some (stroke (readyState 8 8) 255 0 0) :=
  degenerate_ellipse_and_arc_noop taylorLibm (stroke (readyState 8 8) 255 0 0) 2 2 0 5
    (Or.inl (by decide)) 0 1 PIE 4

/-- C20 (defect in the code): for `ellipse(2, 2, 3, 1)` with fill enabled, `b = h / 2 = 0`,
the small-circle branch is not taken, the fill loop runs for `sy = 0` and evaluates
`(float)(sy * sy) / (b * b)` with divisor zero; the resulting NaN is then cast to `int`,
so the call has no defined result. -/
theorem ellipse_thin_divides_by_zero :
    Int.tdiv 1 2 * Int.tdiv 1 2 = 0 ∧
    ¬ ((3 : Int) ≤ 0 ∨ (1 : Int) ≤ 0) ∧ ¬ ((3 : Int) = 1 ∧ (3 : Int) ≤ 2) ∧
    (readyState 8 8).useFill = true ∧
    intRange (-(Int.tdiv 1 2)) (Int.tdiv 1 2) = [0] ∧
    fdiv (((0 : Int) * 0 : Int) : ℚ) ((Int.tdiv 1 2 * Int.tdiv 1 2 : Int) : ℚ) = none ∧
    (ellipseFill (2 + Int.tdiv 3 2) (2 + Int.tdiv 1 2) (Int.tdiv 3 2) (Int.tdiv 1 2)
      (intRange (-(Int.tdiv 1 2)) (Int.tdiv 1 2)) (readyState 8 8)).isNone = true ∧
    (ellipse (readyState 8 8) 2 2 3 1).isNone = true := by
  decide!

/-! ## Claims about degenerate triangles, the draw state and the utilities -/

/-- C21 (defect in the code): for `triangle(0, 0, 5, 0, 3, 0)` (three vertices on one row)
the flat-bottom branch is taken (`y2 == y3`) and both slope divisions have the divisor
`y2 - y1 = 0` and `y3 - y1 = 0`; the fill then paints the single pixel `(0, 0)`. -/
theorem triangle_same_row_divides_by_zero :
    _sort_points_by_y (0, 0) (5, 0) (3, 0) = ((0, 0), (5, 0), (3, 0)) ∧
    (((0 : Int) - 0 : Int) : ℚ) = 0 ∧
    fdiv (((5 : Int) - 0 : Int) : ℚ) (((0 : Int) - 0 : Int) : ℚ) = none ∧
    fdiv (((3 : Int) - 0 : Int) : ℚ) (((0 : Int) - 0 : Int) : ℚ) = none ∧
    triangleFillPts 0 0 5 0 3 0 = some [(0, 0)] ∧
    (triangleFill (readyState 8 8) 0 0 5 0 3 0).isSome = true := by
  decide!

theorem applyDrawCall_inv (s : State) (c : DrawCall)
    (h : 1 ≤ s.strokeWeightValue ∧
      (s.currentAngleMode = RADIANS ∨ s.currentAngleMode = DEGREES)) :
    1 ≤ (applyDrawCall s c).strokeWeightValue ∧
      ((applyDrawCall s c).currentAngleMode = RADIANS ∨
        (applyDrawCall s c).currentAngleMode = DEGREES) := by
  cases c with
  | fill r g b => exact h
  | noFill => exact h
  | stroke r g b => exact h
  | noStroke => exact h
  | strokeWeight weight =>
    show 1 ≤ (strokeWeight s weight).strokeWeightValue ∧
      ((strokeWeight s weight).currentAngleMode = RADIANS ∨
        (strokeWeight s weight).currentAngleMode = DEGREES)
    unfold strokeWeight
    split
    · exact ⟨by dsimp only; omega, h.2⟩
    · exact h
  | angleMode mode =>
    show 1 ≤ (angleMode s mode).strokeWeightValue ∧
      ((angleMode s mode).currentAngleMode = RADIANS ∨
        (angleMode s mode).currentAngleMode = DEGREES)
    unfold angleMode
    split
    · rename_i hm
      exact ⟨h.1, hm⟩
    · exact h

theorem runDrawCalls_inv (calls : List DrawCall) (s : State)
    (h : 1 ≤ s.strokeWeightValue ∧
      (s.currentAngleMode = RADIANS ∨ s.currentAngleMode = DEGREES)) :
    1 ≤ (runDrawCalls s calls).strokeWeightValue ∧
      ((runDrawCalls s calls).currentAngleMode = RADIANS ∨
        (runDrawCalls s calls).currentAngleMode = DEGREES) := by
  induction calls generalizing s with
  | nil => exact h
  | cons c calls ih => exact ih (applyDrawCall s c) (applyDrawCall_inv s c h)

/-- C23: the initial draw state is white fill and black stroke, both enabled, weight 1,
RADIANS; after any sequence of `fill`, `noFill`, `stroke`, `noStroke`, `strokeWeight` and
`angleMode` calls with arbitrary arguments the stroke weight is at least 1 and the angle
mode is RADIANS or DEGREES; `strokeWeight(n)` with `n ≤ 0` and `angleMode(m)` with `m`
neither RADIANS nor DEGREES return the state unchanged. -/
theorem draw_state_invariant (calls : List DrawCall) :
    (initialState.fillColor = ⟨255, 255, 255⟩ ∧ initialState.useFill = true ∧
      initialState.strokeColor = ⟨0, 0, 0⟩ ∧ initialState.useStroke = true ∧
      initialState.strokeWeightValue = 1 ∧ initialState.currentAngleMode = RADIANS) ∧
    1 ≤ (runDrawCalls initialState calls).strokeWeightValue ∧
    ((runDrawCalls initialState calls).currentAngleMode = RADIANS ∨
      (runDrawCalls initialState calls).currentAngleMode = DEGREES) ∧
    (∀ (s : State) (n : Int), n ≤ 0 → strokeWeight s n = s) ∧
    (∀ (s : State) (m : Int), m ≠ RADIANS → m ≠ DEGREES → angleMode s m = s) := by
  refine ⟨⟨rfl, rfl, rfl, rfl, rfl, rfl⟩, ?_, ?_, ?_, ?_⟩
  · exact (runDrawCalls_inv calls initialState ⟨by decide, Or.inl rfl⟩).1
  · exact (runDrawCalls_inv calls initialState ⟨by decide, Or.inl rfl⟩).2
  · intro s n hn
    unfold strokeWeight
    rw [if_neg (by omega)]
  · intro s m h1 h2
    unfold angleMode
    rw [if_neg (by rintro (h | h) <;> contradiction)]

/-- Witness for C23: a rejected weight, a rejected angle mode and an accepted weight. -/
theorem draw_state_invariant_witness :
    1 ≤ (runDrawCalls initialState
      [DrawCall.strokeWeight 0, DrawCall.angleMode 7, DrawCall.strokeWeight 3]).strokeWeightValue ∧
    strokeWeight initialState 0 = initialState ∧ angleMode initialState 7 = initialState :=
  ⟨(draw_state_invariant
      [DrawCall.strokeWeight 0, DrawCall.angleMode 7, DrawCall.strokeWeight 3]).2.1,
   (draw_state_invariant []).2.2.2.1 initialState 0 (by decide),
   (draw_state_invariant []).2.2.2.2 initialState 7 (by decide) (by decide)⟩

/-- C24 (defect in the code): when `rand()` returns `RAND_MAX` (here for the values 32767
and 2147483647 of that constant) `randomf(min, max)` is `max` itself, so it is not strictly
below `max`; with `randomf(0, 4)` the caller's `(int)` cast yields 4. -/
theorem randomf_reaches_max :
    (∀ min max : ℚ, randomf 32767 32767 min max = max ∧
      randomf 2147483647 2147483647 min max = max ∧
      ¬ randomf 32767 32767 min max < max) ∧
    castInt (randomf 32767 32767 0 4) = 4 := by
  constructor
  · intro min max
    have h1 : randomf 32767 32767 min max = max := by
      unfold randomf
      norm_num
    have h2 : randomf 2147483647 2147483647 min max = max := by
      unfold randomf
      norm_num
    exact ⟨h1, h2, by rw [h1]; exact lt_irrefl _⟩
  · decide!

/-- C25: for `min ≤ max`, `constrain(value, min, max)` is `max(min, min(value, max))`; it
lies in `[min, max]`, equals `value` when `min ≤ value ≤ max`, and applying `constrain`
twice gives the same result as applying it once. -/
theorem constrain_is_clamp (value min max : ℚ) (h : min ≤ max) :
    constrain value min max = Max.max min (Min.min value max) ∧
    (min ≤ constrain value min max ∧ constrain value min max ≤ max) ∧
    (min ≤ value → value ≤ max → constrain value min max = value) ∧
    constrain (constrain value min max) min max = constrain value min max := by
  have hc : constrain value min max = Max.max min (Min.min value max) := by
    unfold constrain
    by_cases h1 : value < min
    · rw [if_pos h1, min_eq_left (by linarith), max_eq_left (by linarith)]
    · rw [if_neg h1]
      by_cases h2 : value > max
      · rw [if_pos h2, min_eq_right (by linarith), max_eq_right h]
      · rw [if_neg h2, min_eq_left (by linarith), max_eq_right (by linarith)]
  have hr : min ≤ constrain value min max ∧ constrain value min max ≤ max := by
    rw [hc]
    exact ⟨le_max_left _ _, max_le h (min_le_right _ _)⟩
  refine ⟨hc, hr, ?_, ?_⟩
  · intro h1 h2
    unfold constrain
    rw [if_neg (by linarith), if_neg (by linarith)]
  · have h1 := hr.1
    have h2 := hr.2
    generalize constrain value min max = c at h1 h2
    unfold constrain
    rw [if_neg (by linarith), if_neg (by linarith)]

/-- Witness for C25: clamping 7, -3 and 2 to `[0, 5]`. -/
theorem constrain_is_clamp_witness :
    constrain 7 0 5 = Max.max 0 (Min.min 7 5) ∧ constrain 7 0 5 = 5 ∧
    constrain (-3) 0 5 = 0 ∧ constrain 2 0 5 = 2 :=
  ⟨(constrain_is_clamp 7 0 5 (by norm_num)).1, by decide!, by decide!, by decide!⟩

/-! ## Shapes drawn with fill disabled -/

theorem strokes_some : Strokes some :=
  fun _ => ⟨[], rfl⟩

theorem strokes_bind (f g : State → Option State) (hf : Strokes f) (hg : Strokes g) :
    Strokes (fun s => (f s).bind g) := by
  intro s
  obtain ⟨p1, h1⟩ := hf s
  obtain ⟨p2, h2⟩ := hg (paint s.strokeColor p1 s)
  refine ⟨p1 ++ p2, ?_⟩
  show (f s).bind g = _
  rw [h1, Option.some_bind, h2, paint_strokeColor, paint_append]

theorem strokes_line (x1 y1 x2 y2 : Int) : Strokes (fun s => line s x1 y1 x2 y2) := by
  intro s
  by_cases hs : s.useStroke = true
  · obtain ⟨l, hl⟩ := linePts_isSome s.strokeWeightValue x1 y1 x2 y2
    refine ⟨l, ?_⟩
    show line s x1 y1 x2 y2 = _
    rw [line_eq_paint s hs, hl]
    rfl
  · refine ⟨[], ?_⟩
    unfold line
    simp only [hs, Bool.not_false, if_true]
    rfl

theorem strokes_if_useStroke (f : State → Option State) (hf : Strokes f) :
    Strokes (fun s => if s.useStroke then f s else some s) := by
  intro s
  by_cases hs : s.useStroke = true
  · simp only [hs, if_true]
    exact hf s
  · simp only [hs, if_false]
    exact ⟨[], rfl⟩

theorem strokes_drawSegments (segs : List ((Int × Int) × (Int × Int))) :
    Strokes (drawSegments segs) := by
  induction segs with
  | nil => exact strokes_some
  | cons g rest ih =>
    exact strokes_bind (fun s => line s g.1.1 g.1.2 g.2.1 g.2.2) (drawSegments rest)
      (strokes_line _ _ _ _) ih

theorem ellipseRegion1Pts_isSome (cx cy a_sqr b_sqr : Int) (ha : 0 ≤ a_sqr)
    (hb : 1 ≤ b_sqr) (fuel : Nat) :
    ∀ (x1 y1 dx dy d1 : Int), (dy - dx).toNat < fuel →
      ∃ l, ellipseRegion1Pts cx cy a_sqr b_sqr fuel x1 y1 dx dy d1 = some l := by
  induction fuel with
  | zero => intro x1 y1 dx dy d1 h; omega
  | succ fuel ih =>
    intro x1 y1 dx dy d1 h
    unfold ellipseRegion1Pts
    by_cases hloop : dx < dy
    · simp only [if_pos hloop]
      split_ifs
      · obtain ⟨l, hl⟩ := ih (x1 + 1) y1 (dx + 2 * b_sqr) dy
          (d1 + (dx + 2 * b_sqr + b_sqr)) (by omega)
        exact ⟨_, by rw [hl]; rfl⟩
      · obtain ⟨l, hl⟩ := ih (x1 + 1) (y1 - 1) (dx + 2 * b_sqr) (dy - 2 * a_sqr)
          (d1 + (dx + 2 * b_sqr - (dy - 2 * a_sqr) + b_sqr)) (by omega)
        exact ⟨_, by rw [hl]; rfl⟩
    · simp only [if_neg hloop]
      exact ⟨_, rfl⟩

theorem ellipseRegion2Pts_isSome (cx cy a_sqr b_sqr : Int) (ha : 1 ≤ a_sqr)
    (hb : 0 ≤ b_sqr) (fuel : Nat) :
    ∀ (x2 y2 dx dy d2 : Int), (dx - dy).toNat < fuel →
      ∃ l, ellipseRegion2Pts cx cy a_sqr b_sqr fuel x2 y2 dx dy d2 = some l := by
  induction fuel with
  | zero => intro x2 y2 dx dy d2 h; omega
  | succ fuel ih =>
    intro x2 y2 dx dy d2 h
    unfold ellipseRegion2Pts
    by_cases hloop : dx > dy
    · simp only [if_pos hloop]
      split_ifs
      · obtain ⟨l, hl⟩ := ih x2 (y2 + 1) dx (dy + 2 * a_sqr)
          (d2 + (dy + 2 * a_sqr + a_sqr)) (by omega)
        exact ⟨_, by rw [hl]; rfl⟩
      · obtain ⟨l, hl⟩ := ih (x2 - 1) (y2 + 1) (dx - 2 * b_sqr) (dy + 2 * a_sqr)
          (d2 + (dy + 2 * a_sqr - (dx - 2 * b_sqr) + a_sqr)) (by omega)
        exact ⟨_, by rw [hl]; rfl⟩
    · simp only [if_neg hloop]
      exact ⟨_, rfl⟩

theorem ellipseRegion1Pts_skip (cx cy a_sqr b_sqr : Int) (fuel : Nat)
    (x1 y1 dx dy d1 : Int) (h : ¬ dx < dy) :
    ellipseRegion1Pts cx cy a_sqr b_sqr fuel x1 y1 dx dy d1 = some [] := by
  unfold ellipseRegion1Pts
  rw [if_neg h]

theorem ellipseRegion2Pts_skip (cx cy a_sqr b_sqr : Int) (fuel : Nat)
    (x2 y2 dx dy d2 : Int) (h : ¬ dx > dy) :
    ellipseRegion2Pts cx cy a_sqr b_sqr fuel x2 y2 dx dy d2 = some [] := by
  unfold ellipseRegion2Pts
  rw [if_neg h]

/-- Both midpoint loops of `ellipse` terminate within their fuel for all `w, h > 0`. -/
theorem ellipseStrokePts_isSome (x y w h : Int) (hw : 0 < w) (hh : 0 < h) :
    ∃ l, ellipseStrokePts x y w h = some l := by
  unfold ellipseStrokePts
  simp only []
  have ha0 : 0 ≤ Int.tdiv w 2 := by
    rw [Int.tdiv_eq_ediv] <;> omega
  have hb0 : 0 ≤ Int.tdiv h 2 := by
    rw [Int.tdiv_eq_ediv] <;> omega
  generalize Int.tdiv w 2 = a at ha0
  generalize Int.tdiv h 2 = b at hb0
  have haa : 0 ≤ a * a := mul_self_nonneg a
  have hbb : 0 ≤ b * b := mul_self_nonneg b
  have h1 : ∃ l1, ellipseRegion1Pts (x + a) (y + b) (a * a) (b * b)
      (2 * (a * a) * b + 1).toNat 0 b 0 (2 * (a * a) * b)
      (b * b - a * a * b + Int.tdiv (a * a) 4) = some l1 := by
    by_cases hb : b = 0
    · subst hb
      exact ⟨_, ellipseRegion1Pts_skip _ _ _ _ _ _ _ _ _ _ (by simp)⟩
    · have hb1 : 1 ≤ b := by omega
      have hbb1 : 1 ≤ b * b := by nlinarith
      have hdy : 0 ≤ 2 * (a * a) * b := by positivity
      exact ellipseRegion1Pts_isSome _ _ _ _ haa hbb1 _ _ _ _ _ _ (by omega)
  have h2 : ∃ l2, ellipseRegion2Pts (x + a) (y + b) (a * a) (b * b)
      (2 * (b * b) * a + 1).toNat a 0 (2 * (b * b) * a) 0
      (a * a - b * b * a + Int.tdiv (b * b) 4) = some l2 := by
    by_cases ha : a = 0
    · subst ha
      exact ⟨_, ellipseRegion2Pts_skip _ _ _ _ _ _ _ _ _ _ (by simp)⟩
    · have ha1 : 1 ≤ a := by omega
      have haa1 : 1 ≤ a * a := by nlinarith
      have hdx : 0 ≤ 2 * (b * b) * a := by positivity
      exact ellipseRegion2Pts_isSome _ _ _ _ haa1 hbb _ _ _ _ _ _ (by omega)
  obtain ⟨l1, hl1⟩ := h1
  obtain ⟨l2, hl2⟩ := h2
  refine ⟨l1 ++ l2, ?_⟩
  simp only [hl1, hl2, Option.some_bind, Option.map_some']

theorem strokes_arcStroke (m : Libm) (mode cx cy cx0 cy0 a b : Int) (sa step : ℚ) (d : Int)
    (hd : 1 ≤ d) :
    Strokes (fun s => arcStroke s mode cx cy (arcSamples m cx0 cy0 a b sa step d)) := by
  have hcount : ((arcSamples m cx0 cy0 a b sa step d).length : Int) - 1 = d := by
    rw [length_arcSamples]
    omega
  have hloop : ∀ s, arcStrokeLoop (arcSamples m cx0 cy0 a b sa step d) (intRangeLt 0 d) s
      = drawSegments ((intRangeLt 0 d).map
          (fun i => (arcSample m cx0 cy0 a b sa step i, arcSample m cx0 cy0 a b sa step (i + 1)))) s := by
    intro s
    apply arcStrokeLoop_eq_drawSegments
    intro i hi
    rw [mem_intRangeLt] at hi
    exact ⟨ptAt_arcSamples _ _ _ _ _ _ _ d i (by omega) (by omega),
      ptAt_arcSamples _ _ _ _ _ _ _ d (i + 1) (by omega) (by omega)⟩
  have h0 := ptAt_arcSamples m cx0 cy0 a b sa step d 0 (by omega) (by omega)
  have hlast := ptAt_arcSamples m cx0 cy0 a b sa step d d (by omega) (by omega)
  have htail : Strokes (fun s =>
      if mode = CHORD then
        (ptAt (arcSamples m cx0 cy0 a b sa step d) 0).bind fun p =>
        (ptAt (arcSamples m cx0 cy0 a b sa step d) d).bind fun q =>
        line s p.1 p.2 q.1 q.2
      else if mode = PIE then
        (ptAt (arcSamples m cx0 cy0 a b sa step d) 0).bind fun p =>
        (line s cx cy p.1 p.2).bind fun s =>
        (ptAt (arcSamples m cx0 cy0 a b sa step d) d).bind fun q =>
        line s cx cy q.1 q.2
      else some s) := by
    simp only [h0, hlast, Option.some_bind]
    by_cases hc : mode = CHORD
    · simp only [if_pos hc]
      exact strokes_line _ _ _ _
    · simp only [if_neg hc]
      by_cases hp : mode = PIE
      · simp only [if_pos hp]
        exact strokes_bind _ _ (strokes_line _ _ _ _) (strokes_line _ _ _ _)
      · simp only [if_neg hp]
        exact strokes_some
  intro s
  have hb := strokes_bind _ _ (strokes_drawSegments ((intRangeLt 0 d).map
    (fun i => (arcSample m cx0 cy0 a b sa step i, arcSample m cx0 cy0 a b sa step (i + 1)))))
    htail s
  obtain ⟨pts, hpts⟩ := hb
  refine ⟨pts, ?_⟩
  rw [← hpts]
  show arcStroke s mode cx cy (arcSamples m cx0 cy0 a b sa step d) = _
  unfold arcStroke
  simp only [hcount, hloop]

/-- C22: with fill disabled, `rect`, `ellipse`, `triangle` and `arcDetail` return and the
state they return is the input state after sending some list of pixels to the sink, every
one of them in the stroke colour (no interior pass runs); with stroke disabled as well,
`point`, `line`, `rect`, `ellipse`, `triangle` and `arcDetail` return the state unchanged. -/
theorem no_fill_strokes_only (m : Libm) (s : State) (hf : s.useFill = false) :
    (∀ x y w h, ∃ pts, rect s x y w h = some (paint s.strokeColor pts s)) ∧
    (∀ x y w h, ∃ pts, ellipse s x y w h = some (paint s.strokeColor pts s)) ∧
    (∀ x1 y1 x2 y2 x3 y3, ∃ pts,
      triangle s x1 y1 x2 y2 x3 y3 = some (paint s.strokeColor pts s)) ∧
    (∀ x y w h start stop mode detail, ∃ pts,
      arcDetail m s x y w h start stop mode detail = some (paint s.strokeColor pts s)) ∧
    (s.useStroke = false →
      (∀ x y, point s x y = s) ∧
      (∀ x1 y1 x2 y2, line s x1 y1 x2 y2 = some s) ∧
      (∀ x y w h, rect s x y w h = some s) ∧
      (∀ x y w h, ellipse s x y w h = some s) ∧
      (∀ x1 y1 x2 y2 x3 y3, triangle s x1 y1 x2 y2 x3 y3 = some s) ∧
      (∀ x y w h start stop mode detail,
        arcDetail m s x y w h start stop mode detail = some s)) := by
  refine ⟨?_, ?_, ?_, ?_, ?_⟩
  · intro x y w h
    unfold rect
    simp only [hf, Bool.false_eq_true, if_false]
    exact strokes_if_useStroke _
      (strokes_bind _ _ (strokes_line x y (x + w - 1) y)
        (strokes_bind _ _ (strokes_line (x + w - 1) y (x + w - 1) (y + h - 1))
          (strokes_bind _ _ (strokes_line (x + w - 1) (y + h - 1) x (y + h - 1))
            (strokes_line x (y + h - 1) x y)))) s
  · intro x y w h
    by_cases hdeg : w ≤ 0 ∨ h ≤ 0
    · refine ⟨[], ?_⟩
      unfold ellipse
      simp only [if_pos hdeg]
      rfl
    · by_cases hs : s.useStroke = true
      · by_cases hsmall : w = h ∧ w ≤ 2
        · refine ⟨[(x + Int.tdiv w 2, y + Int.tdiv h 2)], ?_⟩
          unfold ellipse
          simp only [if_neg hdeg, if_pos hsmall, hf, hs, Bool.false_eq_true, if_false, if_true]
          rfl
        · obtain ⟨l, hl⟩ := ellipseStrokePts_isSome x y w h (by omega) (by omega)
          refine ⟨l, ?_⟩
          rw [ellipse_stroke_only s hf hs x y w h (by omega) (by omega) hsmall, hl]
          rfl
      · refine ⟨[], ?_⟩
        unfold ellipse
        simp only [if_neg hdeg, hf, hs, Bool.false_eq_true, if_false, Option.some_bind]
        split_ifs <;> rfl
  · intro x1 y1 x2 y2 x3 y3
    obtain ⟨pts, hpts⟩ := strokes_if_useStroke _
      (strokes_bind _ _ (strokes_line x1 y1 x2 y2)
        (strokes_bind _ _ (strokes_line x2 y2 x3 y3) (strokes_line x3 y3 x1 y1))) s
    refine ⟨pts, ?_⟩
    unfold triangle
    simp only [] at hpts
    rw [hpts, Option.some_bind, paint_useFill, hf]
    rfl
  · intro x y w h start stop mode detail
    unfold arcDetail
    by_cases hdeg : w ≤ 0 ∨ h ≤ 0
    · rw [if_pos hdeg]
      exact ⟨[], rfl⟩
    · rw [if_neg hdeg]
      simp only [hf, Bool.false_eq_true, if_false, Option.some_bind]
      exact strokes_if_useStroke _
        (strokes_arcStroke m mode _ _ _ _ _ _ _ _ _ (arcEffectiveDetail_range detail).1) s
  · intro hs
    refine ⟨?_, ?_, ?_, ?_, ?_, ?_⟩
    · intro x y
      unfold point
      simp only [hs, Bool.false_eq_true, if_false]
    · intro x1 y1 x2 y2
      unfold line
      simp only [hs, Bool.not_false, if_true]
    · intro x y w h
      unfold rect
      simp only [hf, hs, Bool.false_eq_true, if_false]
    · intro x y w h
      unfold ellipse
      simp only [hf, hs, Bool.false_eq_true, if_false, Option.some_bind]
      split_ifs <;> rfl
    · intro x1 y1 x2 y2 x3 y3
      unfold triangle
      simp only [hf, hs, Bool.false_eq_true, if_false, Option.some_bind]
    · intro x y w h start stop mode detail
      unfold arcDetail
      simp only [hf, hs, Bool.false_eq_true, if_false, Option.some_bind]
      split_ifs <;> rfl

/-- Witness for C22: on an 8 by 8 canvas with fill disabled and a red stroke, and on the
same canvas with stroke disabled as well. -/
theorem no_fill_strokes_only_witness :
    (∃ pts, rect (noFill (stroke (readyState 8 8) 255 0 0)) 1 1 4 3
      = some (paint ⟨255, 0, 0⟩ pts (noFill (stroke (readyState 8 8) 255 0 0)))) ∧
    ellipse (noStroke (noFill (readyState 8 8))) 1 1 5 4
      = some (noStroke (noFill (readyState 8 8))) :=
  ⟨(no_fill_strokes_only taylorLibm (noFill (stroke (readyState 8 8) 255 0 0)) rfl).1 1 1 4 3,
   ((no_fill_strokes_only taylorLibm (noStroke (noFill (readyState 8 8))) rfl).2.2.2.2
      rfl).2.2.2.1 1 1 5 4⟩

/-! ## The exact shape of the Bresenham path -/

theorem linePixels_thin_zero (x2 y2 dx dy sx sy : Int) (x y err : Int) :
    linePixels x2 y2 dx dy sx sy 0 0 x y err = none := by
  rw [linePixels]

theorem linePixels_thin_succ (x2 y2 dx dy sx sy : Int) (f : Nat) (x y err : Int) :
    linePixels x2 y2 dx dy sx sy 0 (f + 1) x y err =
      if x = x2 ∧ y = y2 then some [(x, y)]
      else (linePixels x2 y2 dx dy sx sy 0 f
        (if 2 * err > -dy then x + sx else x) (if 2 * err < dx then y + sy else y)
        (if 2 * err < dx then (if 2 * err > -dy then err - dy else err) + dx
          else (if 2 * err > -dy then err - dy else err))).map (fun l => (x, y) :: l) := by
  have hb0 : (intRange (-0) 0).map (fun offset =>
      if dx > dy then (x, y + offset) else (x + offset, y)) = [(x, y)] := by
    have := lineBand_zero dx dy (x, y)
    unfold lineBand at this
    exact this
  rw [linePixels, hb0]
  rfl

/-- Exchanging the roles of the two axes (and negating the error term) mirrors the path. -/
theorem linePixels_swap (x2 y2 dx dy sx sy : Int) (fuel : Nat) :
    ∀ (x y err : Int), linePixels x2 y2 dx dy sx sy 0 fuel x y err =
      (linePixels y2 x2 dy dx sy sx 0 fuel y x (-err)).map (List.map Prod.swap) := by
  induction fuel with
  | zero =>
    intro x y err
    rw [linePixels_thin_zero, linePixels_thin_zero]
    rfl
  | succ f ih =>
    intro x y err
    rw [linePixels_thin_succ, linePixels_thin_succ]
    by_cases hend : x = x2 ∧ y = y2
    · rw [if_pos hend, if_pos ⟨hend.2, hend.1⟩]
      rfl
    · have hend2 : ¬ (y = y2 ∧ x = x2) := fun h => hend ⟨h.2, h.1⟩
      rw [if_neg hend, if_neg hend2, ih, Option.map_map, Option.map_map]
      have hc1 : (2 * -err < dy) ↔ (2 * err > -dy) := by omega
      have hc2 : (2 * -err > -dx) ↔ (2 * err < dx) := by omega
      simp only [hc1, hc2]
      have harg : -(if 2 * err < dx then (if 2 * err > -dy then err - dy else err) + dx
            else (if 2 * err > -dy then err - dy else err))
          = (if 2 * err > -dy then (if 2 * err < dx then -err - dx else -err) + dy
            else (if 2 * err < dx then -err - dx else -err)) := by
        split_ifs <;> ring
      rw [harg]
      rfl

/-- The path of the loop when `x` is the major axis (`dy ≤ dx`, `0 < dx`), started `n`
`x`-steps and `rb` `y`-steps before the target with the error term in its invariant range:
the loop breaks in iteration `n + 1`, and the pixels it emits advance by one in `x` each. -/
theorem linePixels_xmajor (x2 y2 dx dy sx sy : Int) (hsx : sx = 1 ∨ sx = -1)
    (hdx : 0 < dx) (hdy0 : 0 ≤ dy) (hdy : dy ≤ dx) (n : Nat) :
    ∀ (rb x y D err : Int), (n : Int) ≤ dx → 0 ≤ rb → rb ≤ dy →
      D = rb * dx - (n : Int) * dy → -dx < 2 * D → 2 * D ≤ dx → 2 * D < 2 * dx - dy →
      x = x2 - sx * (n : Int) → y = y2 - sy * rb → err = dx - dy - D →
      ∃ l, (∀ fuel, n < fuel → linePixels x2 y2 dx dy sx sy 0 fuel x y err = some l) ∧
        (∀ fuel, fuel ≤ n → linePixels x2 y2 dx dy sx sy 0 fuel x y err = none) ∧
        l.length = n + 1 ∧ l.head? = some (x, y) ∧ l.getLast? = some (x2, y2) ∧
        l.map Prod.fst = (List.range (n + 1)).map (fun (i : Nat) => x + sx * (i : Int)) ∧
        List.Chain' (fun p q => q.1 = p.1 + sx ∧ (q.2 = p.2 ∨ q.2 = p.2 + sy)) l ∧
        ∀ p ∈ l, nearSegment x2 y2 dx dy sx sy p := by
  induction n with
  | zero =>
    intro rb x y D err _ hrb0 hrb hD h1 h2 _ hx hy _
    have hrb : rb = 0 := by
      by_contra hne
      have hrb1 : 1 ≤ rb := by omega
      have : dx ≤ rb * dx := by nlinarith
      simp only [Nat.cast_zero, zero_mul, sub_zero] at hD
      omega
    subst hrb
    have hxe : x = x2 := by rw [hx]; simp
    have hye : y = y2 := by rw [hy]; simp
    subst hxe hye
    refine ⟨[(x, y)], ?_, ?_, rfl, rfl, rfl, ?_, ?_, ?_⟩
    · intro fuel hf
      obtain ⟨f, rfl⟩ : ∃ f, fuel = f + 1 := ⟨fuel - 1, by omega⟩
      rw [linePixels_thin_succ, if_pos ⟨rfl, rfl⟩]
    · intro fuel hf
      have h0 : fuel = 0 := by omega
      subst h0
      exact linePixels_thin_zero _ _ _ _ _ _ _ _ _
    · simp [List.range_succ]
    · exact List.chain'_singleton _
    · intro p hp
      rw [List.mem_singleton] at hp
      subst hp
      refine ⟨0, 0, le_refl _, by omega, le_refl _, hdy0, by simp, by simp, ?_⟩
      simp only [zero_mul, sub_self, abs_zero, mul_zero]
      exact le_trans hdy0 (le_max_right _ _)
  | succ n ih =>
    intro rb x y D err hn hrb0 hrb hD h1 h2 h3 hx hy herr
    push_cast at hn hD hx
    have hnd : 0 ≤ (n : Int) * dy := Int.mul_nonneg (by omega) hdy0
    have hend : ¬ (x = x2 ∧ y = y2) := by
      rintro ⟨hxe, _⟩
      rcases hsx with rfl | rfl <;> omega
    have hc1 : 2 * err > -dy := by omega
    -- the state after one iteration and the path from there
    have key : ∃ rb1 y1 D1, (y1 = y ∨ y1 = y + sy) ∧
        (if 2 * err < dx then y + sy else y) = y1 ∧
        (if 2 * err < dx then err - dy + dx else err - dy) = dx - dy - D1 ∧
        0 ≤ rb1 ∧ rb1 ≤ dy ∧ D1 = rb1 * dx - (n : Int) * dy ∧ -dx < 2 * D1 ∧ 2 * D1 ≤ dx ∧
        2 * D1 < 2 * dx - dy ∧ y1 = y2 - sy * rb1 := by
      by_cases hc2 : 2 * err < dx
      · have hrb1 : 1 ≤ rb := by
          by_contra hlt
          have h0 : rb = 0 := by omega
          subst h0
          have hD0 : D = -((n : Int) * dy) - dy := by rw [hD]; ring
          omega
        refine ⟨rb - 1, y + sy, D + dy - dx, Or.inr rfl, by rw [if_pos hc2],
          by rw [if_pos hc2, herr]; ring, by omega, by omega, by rw [hD]; ring,
          by omega, by omega, by omega, by rw [hy]; ring⟩
      · refine ⟨rb, y, D + dy, Or.inl rfl, by rw [if_neg hc2],
          by rw [if_neg hc2, herr]; ring, hrb0, hrb, by rw [hD]; ring,
          by omega, by omega, by omega, hy⟩
    obtain ⟨rb1, y1, D1, hstep, hy1, herr1, hrb10, hrb1, hD1, i1, i2, i3, hy1e⟩ := key
    obtain ⟨l, hsome, hnone, hlen, hhead, hlast, hfst, hchain, hnear⟩ :=
      ih rb1 (x + sx) y1 D1 (dx - dy - D1) (by omega) hrb10 hrb1 hD1 i1 i2 i3
        (by rw [hx]; ring) hy1e rfl
    have hrec : ∀ f, linePixels x2 y2 dx dy sx sy 0 (f + 1) x y err =
        (linePixels x2 y2 dx dy sx sy 0 f (x + sx) y1 (dx - dy - D1)).map
          (fun l => (x, y) :: l) := by
      intro f
      rw [linePixels_thin_succ, if_neg hend]
      simp only [if_pos hc1, hy1, herr1]
    refine ⟨(x, y) :: l, ?_, ?_, by simp [hlen], rfl, ?_, ?_, ?_, ?_⟩
    · intro fuel hf
      obtain ⟨f, rfl⟩ : ∃ f, fuel = f + 1 := ⟨fuel - 1, by omega⟩
      rw [hrec, hsome f (by omega)]
      rfl
    · intro fuel hf
      rcases Nat.eq_zero_or_pos fuel with h0 | hpos
      · subst h0
        exact linePixels_thin_zero _ _ _ _ _ _ _ _ _
      · obtain ⟨f, rfl⟩ : ∃ f, fuel = f + 1 := ⟨fuel - 1, by omega⟩
        rw [hrec, hnone f (by omega)]
        rfl
    · cases l with
      | nil => simp at hlen
      | cons q t =>
        rw [List.getLast?_cons_cons]
        exact hlast
    · rw [List.map_cons, hfst, List.range_succ_eq_map (n + 1), List.map_cons, List.map_map]
      congr 1
      · simp
      · apply List.map_congr_left
        intro i _
        simp only [Function.comp, Nat.succ_eq_add_one, Nat.cast_add, Nat.cast_one]
        ring
    · rw [List.chain'_cons']
      refine ⟨?_, hchain⟩
      intro q hq
      rw [hhead] at hq
      have hq2 : q = (x + sx, y1) := (Option.some.inj hq).symm
      subst hq2
      exact ⟨rfl, hstep⟩
    · intro p hp
      rcases List.mem_cons.mp hp with rfl | hp
      · refine ⟨(n : Int) + 1, rb, by omega, hn, hrb0, hrb, hx, hy, ?_⟩
        rw [← hD]
        have hmax : dx ≤ max dx dy := le_max_left _ _
        rcases abs_cases D with ⟨ha, _⟩ | ⟨ha, _⟩ <;> rw [ha] <;> omega
      · exact hnear p hp

theorem nearSegment_swap (x2 y2 dx dy sx sy : Int) (p : Int × Int)
    (h : nearSegment y2 x2 dy dx sy sx p) : nearSegment x2 y2 dx dy sx sy p.swap := by
  obtain ⟨ra, rb, h1, h2, h3, h4, h5, h6, h7⟩ := h
  refine ⟨rb, ra, h3, h4, h1, h2, h6, h5, ?_⟩
  rw [abs_sub_comm, max_comm]
  exact h7

/-- The pixels emitted by the loop of `line` at weight 1 from `(x1, y1)` to `(x2, y2)`:
the loop breaks in iteration `max dx dy + 1`, the path has one pixel per major-axis position
and every pixel is within half a pixel of the ideal segment. -/
theorem linePixels_path (x1 y1 x2 y2 dx dy sx sy : Int) (hsx : sx = 1 ∨ sx = -1)
    (hsy : sy = 1 ∨ sy = -1) (hdx : 0 ≤ dx) (hdy : 0 ≤ dy) (hx : x1 = x2 - sx * dx)
    (hy : y1 = y2 - sy * dy) :
    ∃ l, (∀ fuel, (max dx dy).toNat < fuel →
          linePixels x2 y2 dx dy sx sy 0 fuel x1 y1 (dx - dy) = some l) ∧
      (∀ fuel, fuel ≤ (max dx dy).toNat →
          linePixels x2 y2 dx dy sx sy 0 fuel x1 y1 (dx - dy) = none) ∧
      l.length = (max dx dy).toNat + 1 ∧ l.head? = some (x1, y1) ∧
      l.getLast? = some (x2, y2) ∧
      (if dy ≤ dx then
        l.map Prod.fst
          = (List.range ((max dx dy).toNat + 1)).map (fun (i : Nat) => x1 + sx * (i : Int))
       else
        l.map Prod.snd
          = (List.range ((max dx dy).toNat + 1)).map (fun (i : Nat) => y1 + sy * (i : Int))) ∧
      List.Chain' (majorStep dx dy sx sy) l ∧
      ∀ p ∈ l, nearSegment x2 y2 dx dy sx sy p := by
  by_cases hxy : dy ≤ dx
  · rw [max_eq_left hxy]
    by_cases h0 : dx = 0
    · have hdy0 : dy = 0 := by omega
      subst h0 hdy0
      have hxe : x1 = x2 := by rw [hx]; simp
      have hye : y1 = y2 := by rw [hy]; simp
      subst hxe hye
      refine ⟨[(x1, y1)], ?_, ?_, rfl, rfl, rfl, ?_, List.chain'_singleton _, ?_⟩
      · intro fuel hf
        obtain ⟨f, rfl⟩ : ∃ f, fuel = f + 1 := ⟨fuel - 1, by omega⟩
        rw [linePixels_thin_succ, if_pos ⟨rfl, rfl⟩]
      · intro fuel hf
        have hz : fuel = 0 := by simpa using hf
        subst hz
        exact linePixels_thin_zero _ _ _ _ _ _ _ _ _
      · simp [List.range_succ]
      · intro p hp
        rw [List.mem_singleton] at hp
        subst hp
        exact ⟨0, 0, le_refl _, le_refl _, le_refl _, le_refl _, by simp, by simp, by simp⟩
    · have hcast : ((dx.toNat : Nat) : Int) = dx := Int.toNat_of_nonneg hdx
      obtain ⟨l, hsome, hnone, hlen, hhead, hlast, hfst, hchain, hnear⟩ :=
        linePixels_xmajor x2 y2 dx dy sx sy hsx (by omega) hdy hxy dx.toNat dy x1 y1 0
          (dx - dy) (by omega) hdy (le_refl _) (by rw [hcast]; ring) (by omega) (by omega)
          (by omega) (by rw [hcast]; exact hx) hy (by ring)
      refine ⟨l, hsome, hnone, hlen, hhead, hlast, ?_, ?_, hnear⟩
      · rw [if_pos hxy]
        exact hfst
      · unfold majorStep
        simp only [if_pos hxy]
        exact hchain
  · have hyx : dx ≤ dy := by omega
    rw [max_eq_right hyx]
    have hcast : ((dy.toNat : Nat) : Int) = dy := Int.toNat_of_nonneg hdy
    obtain ⟨l, hsome, hnone, hlen, hhead, hlast, hfst, hchain, hnear⟩ :=
      linePixels_xmajor y2 x2 dy dx sy sx hsy (by omega) hdx hyx dy.toNat dx y1 x1 0
        (-(dx - dy)) (by omega) hdx (le_refl _) (by rw [hcast]; ring) (by omega) (by omega)
        (by omega) (by rw [hcast]; exact hy) hx (by ring)
    refine ⟨l.map Prod.swap, ?_, ?_, by rw [List.length_map, hlen], ?_, ?_, ?_, ?_, ?_⟩
    · intro fuel hf
      rw [linePixels_swap, hsome fuel hf]
      rfl
    · intro fuel hf
      rw [linePixels_swap, hnone fuel hf]
      rfl
    · rw [List.head?_map, hhead]
      rfl
    · rw [List.getLast?_map, hlast]
      rfl
    · rw [if_neg hxy, List.map_map, ← hfst]
      rfl
    · rw [List.chain'_map]
      unfold majorStep
      simp only [if_neg hxy]
      exact hchain
    · intro p hp
      obtain ⟨q, hq, rfl⟩ := List.mem_map.mp hp
      exact nearSegment_swap _ _ _ _ _ _ q (hnear q hq)

theorem line_signs (a b : Int) :
    ((if a < b then (1 : Int) else -1) = 1 ∨ (if a < b then (1 : Int) else -1) = -1) ∧
    0 ≤ |b - a| ∧ a = b - (if a < b then (1 : Int) else -1) * |b - a| := by
  refine ⟨?_, abs_nonneg _, ?_⟩
  · split <;> simp
  · by_cases h : a < b
    · rw [if_pos h, abs_of_pos (by omega)]; ring
    · rw [if_neg h, abs_of_nonpos (by omega)]; ring

/-- C26: for all endpoints (and every stroke weight) the loop of `line`, run with an
allowance of `fuel` loop-body executions, reaches its `break` exactly when
`max(|x2-x1|, |y2-y1|) < fuel`: the loop body runs `max(|x2-x1|, |y2-y1|) + 1` times, the
last of which breaks before stepping, so there are exactly `max(|x2-x1|, |y2-y1|)` stepping
iterations; and `line` itself returns. -/
theorem line_loop_iteration_count (s : State) (x1 y1 x2 y2 : Int) (fuel : Nat) :
    (lineLoop x2 y2 |x2 - x1| |y2 - y1| (if x1 < x2 then 1 else -1)
        (if y1 < y2 then 1 else -1) (Int.tdiv s.strokeWeightValue 2) fuel s x1 y1
        (|x2 - x1| - |y2 - y1|)).isSome
      = decide ((max |x2 - x1| |y2 - y1|).toNat < fuel) ∧
    (line s x1 y1 x2 y2).isSome = true := by
  obtain ⟨hsx, hdx, hx⟩ := line_signs x1 x2
  obtain ⟨hsy, hdy, hy⟩ := line_signs y1 y2
  obtain ⟨l, hsome, hnone, _⟩ := linePixels_path x1 y1 x2 y2 _ _ _ _ hsx hsy hdx hdy hx hy
  constructor
  · rw [lineLoop_eq_paint, linePixels_band]
    by_cases hf : (max |x2 - x1| |y2 - y1|).toNat < fuel
    · rw [hsome fuel hf]
      simp [hf]
    · rw [hnone fuel (by omega)]
      simp [hf]
  · obtain ⟨pts, hpts⟩ := strokes_line x1 y1 x2 y2 s
    simp only [] at hpts
    rw [hpts]
    rfl

theorem sort_points_cases (p1 p2 p3 : Int × Int) :
    (p1.2 ≤ p2.2 ∧ p2.2 ≤ p3.2 ∧ _sort_points_by_y p1 p2 p3 = (p1, p2, p3)) ∨
    (p1.2 ≤ p3.2 ∧ p3.2 < p2.2 ∧ _sort_points_by_y p1 p2 p3 = (p1, p3, p2)) ∨
    (p3.2 < p1.2 ∧ p1.2 ≤ p2.2 ∧ _sort_points_by_y p1 p2 p3 = (p3, p1, p2)) ∨
    (p2.2 < p1.2 ∧ p1.2 ≤ p3.2 ∧ _sort_points_by_y p1 p2 p3 = (p2, p1, p3)) ∨
    (p2.2 ≤ p3.2 ∧ p3.2 < p1.2 ∧ _sort_points_by_y p1 p2 p3 = (p2, p3, p1)) ∨
    (p3.2 < p2.2 ∧ p2.2 < p1.2 ∧ _sort_points_by_y p1 p2 p3 = (p3, p2, p1)) := by
  by_cases h1 : p1.2 > p2.2
  · by_cases h2 : p1.2 > p3.2
    · by_cases h3 : p2.2 > p3.2
      · have hs : _sort_points_by_y p1 p2 p3 = (p3, p2, p1) := by
          unfold _sort_points_by_y
          simp only [h1, h2, h3, if_true]
        exact Or.inr (Or.inr (Or.inr (Or.inr (Or.inr ⟨by omega, by omega, hs⟩))))
      · have hs : _sort_points_by_y p1 p2 p3 = (p2, p3, p1) := by
          unfold _sort_points_by_y
          simp only [h1, h2, h3, if_true, if_false]
        exact Or.inr (Or.inr (Or.inr (Or.inr (Or.inl ⟨by omega, by omega, hs⟩))))
    · have h3 : ¬ p2.2 > p1.2 := by omega
      have hs : _sort_points_by_y p1 p2 p3 = (p2, p1, p3) := by
        unfold _sort_points_by_y
        simp only [h1, h2, h3, if_true, if_false]
      exact Or.inr (Or.inr (Or.inr (Or.inl ⟨by omega, by omega, hs⟩)))
  · by_cases h2 : p2.2 > p3.2
    · by_cases h3 : p1.2 > p3.2
      · have hs : _sort_points_by_y p1 p2 p3 = (p3, p1, p2) := by
          unfold _sort_points_by_y
          simp only [h1, h2, h3, if_true, if_false]
        exact Or.inr (Or.inr (Or.inl ⟨by omega, by omega, hs⟩))
      · have hs : _sort_points_by_y p1 p2 p3 = (p1, p3, p2) := by
          unfold _sort_points_by_y
          simp only [h1, h2, h3, if_true, if_false]
        exact Or.inr (Or.inl ⟨by omega, by omega, hs⟩)
    · have hs : _sort_points_by_y p1 p2 p3 = (p1, p2, p3) := by
        unfold _sort_points_by_y
        simp only [h1, h2, if_false]
      exact Or.inl ⟨by omega, by omega, hs⟩

/-- C29: `_sort_points_by_y` returns a permutation of its three `(x, y)` pairs, in
non-decreasing order of `y`, and keeps the input order of pairs with equal `y` (it agrees
with the stable insertion sort on `y`). -/
theorem sort_points_by_y_stable (p1 p2 p3 : Int × Int) :
    List.Perm [(_sort_points_by_y p1 p2 p3).1, (_sort_points_by_y p1 p2 p3).2.1,
      (_sort_points_by_y p1 p2 p3).2.2] [p1, p2, p3] ∧
    ((_sort_points_by_y p1 p2 p3).1.2 ≤ (_sort_points_by_y p1 p2 p3).2.1.2 ∧
      (_sort_points_by_y p1 p2 p3).2.1.2 ≤ (_sort_points_by_y p1 p2 p3).2.2.2) ∧
    (p1.2 = p2.2 → ordered3 p1 p2 (_sort_points_by_y p1 p2 p3)) ∧
    (p2.2 = p3.2 → ordered3 p2 p3 (_sort_points_by_y p1 p2 p3)) ∧
    (p1.2 = p3.2 → ordered3 p1 p3 (_sort_points_by_y p1 p2 p3)) ∧
    [(_sort_points_by_y p1 p2 p3).1, (_sort_points_by_y p1 p2 p3).2.1,
      (_sort_points_by_y p1 p2 p3).2.2]
      = List.insertionSort (fun p q : Int × Int => p.2 ≤ q.2) [p1, p2, p3] := by
  have hins : [(_sort_points_by_y p1 p2 p3).1, (_sort_points_by_y p1 p2 p3).2.1,
      (_sort_points_by_y p1 p2 p3).2.2]
      = List.insertionSort (fun p q : Int × Int => p.2 ≤ q.2) [p1, p2, p3] := by
    rcases sort_points_cases p1 p2 p3 with ⟨h1, h2, h⟩ | ⟨h1, h2, h⟩ | ⟨h1, h2, h⟩ |
      ⟨h1, h2, h⟩ | ⟨h1, h2, h⟩ | ⟨h1, h2, h⟩
    all_goals
      rw [h]
      simp only [List.insertionSort, List.orderedInsert]
      try split_ifs
      all_goals try simp only [List.orderedInsert]
      all_goals try split_ifs
      all_goals try simp only [List.orderedInsert]
      all_goals first | rfl | (exfalso; omega)
  refine ⟨?_, ?_, ?_, ?_, ?_, hins⟩
  · rw [hins]
    exact List.perm_insertionSort _ _
  · rcases sort_points_cases p1 p2 p3 with ⟨h1, h2, h⟩ | ⟨h1, h2, h⟩ | ⟨h1, h2, h⟩ |
      ⟨h1, h2, h⟩ | ⟨h1, h2, h⟩ | ⟨h1, h2, h⟩
    all_goals
      rw [h]
      exact ⟨by dsimp only; omega, by dsimp only; omega⟩
  · intro heq
    rcases sort_points_cases p1 p2 p3 with ⟨h1, h2, h⟩ | ⟨h1, h2, h⟩ | ⟨h1, h2, h⟩ |
      ⟨h1, h2, h⟩ | ⟨h1, h2, h⟩ | ⟨h1, h2, h⟩
    all_goals
      rw [h]
      first | (exfalso; omega) | simp [ordered3]
  · intro heq
    rcases sort_points_cases p1 p2 p3 with ⟨h1, h2, h⟩ | ⟨h1, h2, h⟩ | ⟨h1, h2, h⟩ |
      ⟨h1, h2, h⟩ | ⟨h1, h2, h⟩ | ⟨h1, h2, h⟩
    all_goals
      rw [h]
      first | (exfalso; omega) | simp [ordered3]
  · intro heq
    rcases sort_points_cases p1 p2 p3 with ⟨h1, h2, h⟩ | ⟨h1, h2, h⟩ | ⟨h1, h2, h⟩ |
      ⟨h1, h2, h⟩ | ⟨h1, h2, h⟩ | ⟨h1, h2, h⟩
    all_goals
      rw [h]
      first | (exfalso; omega) | simp [ordered3]

/-- Witness for C29: `(0, 1)`, `(5, 0)`, `(3, 1)` are returned as `(5, 0)`, `(0, 1)`,
`(3, 1)`; the two vertices with `y = 1` keep their order. -/
theorem sort_points_by_y_stable_witness :
    _sort_points_by_y (0, 1) (5, 0) (3, 1) = ((5, 0), (0, 1), (3, 1)) ∧
    ordered3 (0, 1) (3, 1) (_sort_points_by_y (0, 1) (5, 0) (3, 1)) :=
  ⟨by decide, (sort_points_by_y_stable (0, 1) (5, 0) (3, 1)).2.2.2.2.1 rfl⟩

/-- C30 (defect in the code): for the ASCII code `0x26` (`'&'`, which is also the value of
`ARROW_UP`) `keyIsDown` returns the special-key state 0 although the regular key is
recorded as down in the regular per-key array. -/
theorem keyIsDown_ascii_collision :
    keyIsDown ⟨fun k => if k = 0x26 then 1 else 0, fun _ => 0⟩ 0x26 = 0 ∧
    (InputState.mk (fun k => if k = 0x26 then 1 else 0) (fun _ => 0)).keyStates 0x26 = 1 := by
  decide

/-- The extent of the collision in `keyIsDown`: for every code `k` in `0..255` other than
the four `ARROW_*` codes `0x25..0x28` the result is the entry `k` of the regular key array,
whatever the special-key array holds; for the four `ARROW_*` codes it is the entry `k` of
the special-key array, whatever the regular array holds. -/
theorem keyIsDown_regular_and_arrow (inp : InputState) (k : Int) (h0 : 0 ≤ k) (h1 : k < 256) :
    ((k < 0x25 ∨ 0x28 < k) →
      keyIsDown inp k = inp.keyStates k.toNat ∧
      ∀ sp : Nat → Int, keyIsDown ⟨inp.keyStates, sp⟩ k = keyIsDown inp k) ∧
    ((0x25 ≤ k ∧ k ≤ 0x28) →
      keyIsDown inp k = inp.specialKeyStates k.toNat ∧
      ∀ ks : Nat → Int, keyIsDown ⟨ks, inp.specialKeyStates⟩ k = keyIsDown inp k) := by
  have hmod : k % 256 = k := Int.emod_eq_of_lt h0 h1
  constructor
  · intro hk
    have hne : ¬ (k = ARROW_UP ∨ k = ARROW_DOWN ∨ k = ARROW_LEFT ∨ k = ARROW_RIGHT) := by
      unfold ARROW_UP ARROW_DOWN ARROW_LEFT ARROW_RIGHT
      omega
    unfold keyIsDown
    rw [if_neg hne, hmod]
    refine ⟨rfl, fun sp => ?_⟩
    rw [if_neg hne]
  · intro hk
    have harrow : k = ARROW_UP ∨ k = ARROW_DOWN ∨ k = ARROW_LEFT ∨ k = ARROW_RIGHT := by
      unfold ARROW_UP ARROW_DOWN ARROW_LEFT ARROW_RIGHT
      omega
    unfold keyIsDown
    rw [if_pos harrow, hmod]
    refine ⟨rfl, fun ks => ?_⟩
    rw [if_pos harrow]

/-! ## Claims about the order of fill and outline, vertex order and the ellipse outline -/

/-- C31 (defect in the code): with fill enabled and stroke disabled on the 640x480 canvas,
`triangle(400,300,450,400,350,400)` leaves the interior pixel `(400, 350)` black, while the
same triangle with its last two vertices exchanged, `triangle(400,300,350,400,450,400)`,
paints it in the fill colour: the painted set depends on the vertex order. -/
theorem triangle_fill_depends_on_vertex_order :
    ∃ s1 s2,
      triangle (noStroke (fill (readyState 640 480) 255 0 255)) 400 300 450 400 350 400
        = some s1 ∧
      triangle (noStroke (fill (readyState 640 480) 255 0 255)) 400 300 350 400 450 400
        = some s2 ∧
      pixelAt s1 400 350 = some (packColor 0 0 0) ∧
      pixelAt s2 400 350 = some (packColor 255 0 255) ∧
      packColor 0 0 0 ≠ packColor 255 0 255 := by
  have key : ∃ f1 ∈ triangleFillPts 400 300 450 400 350 400,
      ∃ f2 ∈ triangleFillPts 400 300 350 400 450 400,
        (400, 350) ∉ f1.map (fun p => (castHalf p.1, castHalf p.2)) ∧
        (400, 350) ∈ f2.map (fun p => (castHalf p.1, castHalf p.2)) := by
    decide!
  obtain ⟨f1, h1, f2, h2, hout, hin⟩ := key
  have hr : Ready (noStroke (fill (readyState 640 480) 255 0 255)) :=
    ready_noStroke _ (ready_fill _ _ _ _ (ready_readyState 640 480))
  have hc : InCanvas (noStroke (fill (readyState 640 480) 255 0 255)) 400 350 :=
    ⟨by decide, by decide, by decide, by decide⟩
  rw [triangle_fill_only _ rfl rfl, triangle_fill_only _ rfl rfl, Option.mem_def.mp h1,
    Option.mem_def.mp h2]
  refine ⟨_, _, rfl, rfl, ?_, ?_, by decide⟩
  · rw [pixelAt_paint _ _ _ hr.1 hr.2 _ _ hc, if_neg hout]
    exact pixelAt_readyState 640 480 400 350 (by decide) (by decide) (by decide) (by decide)
  · rw [pixelAt_paint _ _ _ hr.1 hr.2 _ _ hc, if_pos hin]
    rfl

/-- C33 (defect in the code): for `ellipse(50, 50, 20, 20)` (`circle(50,50,20)`, centre
`(60, 60)`, `a = b = 10`, `a_sqr = b_sqr = 100`, initial `dy = 2000`, `d1 = d2 = -875`)
the first midpoint loop ends with the four points of `(6, 8)` and
the second with the four points of `(8, 6)`; the diagonal pixel `(67, 67)` is never
plotted, and every stroke pixel of the quadrant `x ≥ 60, y ≥ 60` has `x ≤ 66, y ≥ 68` or
`x ≥ 68, y ≤ 66`, so the quadrant arc from `(60, 70)` to `(70, 60)` falls into two parts
that are not 8-adjacent.  After the call on a black 100x100 canvas with red stroke and no
fill, the cells `(66, 68)` and `(68, 66)` are red and `(67, 67)` is black. -/
theorem circle_outline_has_gap :
    ∃ l1 ∈ ellipseRegion1Pts 60 60 100 100 2001 0 10 0 2000 (-875),
    ∃ l2 ∈ ellipseRegion2Pts 60 60 100 100 2001 10 0 2000 0 (-875),
      (ellipseStrokePts 50 50 20 20 = some (l1 ++ l2) ∧
        fourPoints 60 60 6 8 <:+ l1 ∧ fourPoints 60 60 8 6 <:+ l2 ∧
        (60, 70) ∈ l1 ++ l2 ∧ (70, 60) ∈ l1 ++ l2 ∧ (67, 67) ∉ l1 ++ l2 ∧
        ∀ p ∈ l1 ++ l2, 60 ≤ p.1 → 60 ≤ p.2 →
          (p.1 ≤ 66 ∧ 68 ≤ p.2) ∨ (68 ≤ p.1 ∧ p.2 ≤ 66)) ∧
      ∃ s', ellipse (noFill (stroke (readyState 100 100) 255 0 0)) 50 50 20 20 = some s' ∧
        pixelAt s' 66 68 = some (packColor 255 0 0) ∧
        pixelAt s' 68 66 = some (packColor 255 0 0) ∧
        pixelAt s' 67 67 = some (packColor 0 0 0) ∧
        packColor 0 0 0 ≠ packColor 255 0 0 := by
  have keyA : ∃ l1 ∈ ellipseRegion1Pts 60 60 100 100 2001 0 10 0 2000 (-875),
      ∃ l2 ∈ ellipseRegion2Pts 60 60 100 100 2001 10 0 2000 0 (-875),
        ellipseStrokePts 50 50 20 20 = some (l1 ++ l2) ∧
        fourPoints 60 60 6 8 <:+ l1 ∧ fourPoints 60 60 8 6 <:+ l2 ∧
        (60, 70) ∈ l1 ++ l2 ∧ (70, 60) ∈ l1 ++ l2 ∧ (67, 67) ∉ l1 ++ l2 := by
    decide!
  have keyB : ∃ l ∈ ellipseStrokePts 50 50 20 20,
      (∀ p ∈ l, 60 ≤ p.1 → 60 ≤ p.2 → (p.1 ≤ 66 ∧ 68 ≤ p.2) ∨ (68 ≤ p.1 ∧ p.2 ≤ 66)) ∧
      (66, 68) ∈ l ∧ (68, 66) ∈ l ∧ ∀ p ∈ l, 0 ≤ p.1 ∧ 0 ≤ p.2 := by
    decide!
  obtain ⟨l1, h1, l2, h2, hs, hsuf1, hsuf2, hm1, hm2, hgap⟩ := keyA
  obtain ⟨l, hl, hquad, hin1, hin2, hnn⟩ := keyB
  have hll : l = l1 ++ l2 := Option.some.inj ((Option.mem_def.mp hl).symm.trans hs)
  subst hll
  have hA : ellipseStrokePts 50 50 20 20 = some (l1 ++ l2) ∧
      fourPoints 60 60 6 8 <:+ l1 ∧ fourPoints 60 60 8 6 <:+ l2 ∧
      (60, 70) ∈ l1 ++ l2 ∧ (70, 60) ∈ l1 ++ l2 ∧ (67, 67) ∉ l1 ++ l2 ∧
      ∀ p ∈ l1 ++ l2, 60 ≤ p.1 → 60 ≤ p.2 →
        (p.1 ≤ 66 ∧ 68 ≤ p.2) ∨ (68 ≤ p.1 ∧ p.2 ≤ 66) :=
    ⟨hs, hsuf1, hsuf2, hm1, hm2, hgap, hquad⟩
  refine ⟨l1, h1, l2, h2, hA, ?_⟩
  have hr : Ready (noFill (stroke (readyState 100 100) 255 0 0)) :=
    ready_noFill _ (ready_stroke _ _ _ _ (ready_readyState 100 100))
  have hc : ∀ i j : Int, 0 ≤ i → i < 100 → 0 ≤ j → j < 100 →
      InCanvas (noFill (stroke (readyState 100 100) 255 0 0)) i j := by
    intro i j hi hi2 hj hj2
    exact ⟨hi, hi2, hj, hj2⟩
  rw [ellipse_stroke_only _ rfl rfl 50 50 20 20 (by decide) (by decide) (by decide), hA.1]
  refine ⟨_, rfl, ?_, ?_, ?_, by decide⟩
  · rw [pixelAt_paint_nonneg _ _ _ hr hnn _ _
      (hc 66 68 (by decide) (by decide) (by decide) (by decide)), if_pos hin1]
    rfl
  · rw [pixelAt_paint_nonneg _ _ _ hr hnn _ _
      (hc 68 66 (by decide) (by decide) (by decide) (by decide)), if_pos hin2]
    rfl
  · rw [pixelAt_paint_nonneg _ _ _ hr hnn _ _
      (hc 67 67 (by decide) (by decide) (by decide) (by decide)), if_neg hA.2.2.2.2.2.1]
    exact pixelAt_readyState 100 100 67 67 (by decide) (by decide) (by decide) (by decide)

theorem applyCall_pure (s : State) (c : StackCall)
    (h : 0 ≤ s.matrixStackSize ∧ PureTranslation s.currentMatrix ∧
      ∀ i : Nat, (i : Int) < s.matrixStackSize → PureTranslation (s.matrixStack i)) :
    0 ≤ (applyCall s c).matrixStackSize ∧ PureTranslation (applyCall s c).currentMatrix ∧
      ∀ i : Nat, (i : Int) < (applyCall s c).matrixStackSize →
        PureTranslation ((applyCall s c).matrixStack i) := by
  obtain ⟨h0, hc, hst⟩ := h
  cases c with
  | push =>
    show 0 ≤ (push s).matrixStackSize ∧ PureTranslation (push s).currentMatrix ∧
      ∀ i : Nat, (i : Int) < (push s).matrixStackSize → PureTranslation ((push s).matrixStack i)
    unfold push
    split
    · exact ⟨h0, hc, hst⟩
    · refine ⟨by dsimp only; omega, hc, ?_⟩
      intro i hi
      dsimp only at hi ⊢
      by_cases hidx : i = s.matrixStackSize.toNat
      · rw [hidx, Function.update_same]
        exact hc
      · rw [Function.update_noteq hidx]
        exact hst i (by omega)
  | pop =>
    show 0 ≤ (pop s).matrixStackSize ∧ PureTranslation (pop s).currentMatrix ∧
      ∀ i : Nat, (i : Int) < (pop s).matrixStackSize → PureTranslation ((pop s).matrixStack i)
    unfold pop
    split
    · exact ⟨h0, hc, hst⟩
    · refine ⟨by dsimp only; omega, hst _ (by omega), ?_⟩
      intro i hi
      dsimp only at hi ⊢
      exact hst i (by omega)
  | translate x y =>
    obtain ⟨c00, c01, c10, c11, c20, c21, c22⟩ := hc
    exact ⟨h0, ⟨c00, c01, c10, c11, c20, c21, c22⟩, hst⟩
  | resetMatrix =>
    exact ⟨h0, ⟨rfl, rfl, rfl, rfl, rfl, rfl, rfl⟩, hst⟩

theorem runCalls_pure (calls : List StackCall) (s : State)
    (h : 0 ≤ s.matrixStackSize ∧ PureTranslation s.currentMatrix ∧
      ∀ i : Nat, (i : Int) < s.matrixStackSize → PureTranslation (s.matrixStack i)) :
    PureTranslation (runCalls s calls).currentMatrix := by
  unfold runCalls
  induction calls generalizing s with
  | nil => exact h.2.1
  | cons c calls ih => exact ih (applyCall s c) (applyCall_pure s c h)

theorem translate_add_of_pure (t : State) (hp : PureTranslation t.currentMatrix)
    (a b c d : ℚ) :
    translate (translate t a b) c d = translate t (a + c) (b + d) := by
  obtain ⟨c00, c01, c10, c11, _, _, _⟩ := hp
  unfold translate
  simp only [c00, c01, c10, c11, mul_one, mul_zero, add_zero, zero_add]
  congr 2 <;> ring

/-- C35: from `resetMatrix()` with an empty stack, after any sequence of `push`, `pop`,
`translate` and `resetMatrix` calls the current matrix has identity linear part and last
row `(0, 0, 1)`; in such a state `translate(a, b)` adds `(a, b)` to the image of every
point, `translate(a, b); translate(c, d)` gives the same state (hence the same device pixel
for every drawn point) as `translate(a + c, b + d)`, and two `translate` calls commute. -/
theorem transform_is_pure_translation (s : State) (h0 : s.matrixStackSize = 0)
    (calls : List StackCall) :
    PureTranslation (runCalls (resetMatrix s) calls).currentMatrix ∧
    (∀ a b x y : ℚ,
      _transform_point (translate (runCalls (resetMatrix s) calls) a b) x y
        = ((_transform_point (runCalls (resetMatrix s) calls) x y).1 + a,
           (_transform_point (runCalls (resetMatrix s) calls) x y).2 + b)) ∧
    (∀ a b c d : ℚ,
      translate (translate (runCalls (resetMatrix s) calls) a b) c d
        = translate (runCalls (resetMatrix s) calls) (a + c) (b + d) ∧
      ∀ x y : Int,
        devicePixel (translate (translate (runCalls (resetMatrix s) calls) a b) c d) x y
          = devicePixel (translate (runCalls (resetMatrix s) calls) (a + c) (b + d)) x y) ∧
    (∀ a b c d : ℚ,
      translate (translate (runCalls (resetMatrix s) calls) a b) c d
        = translate (translate (runCalls (resetMatrix s) calls) c d) a b) := by
  have hp : PureTranslation (runCalls (resetMatrix s) calls).currentMatrix := by
    apply runCalls_pure
    refine ⟨?_, ⟨rfl, rfl, rfl, rfl, rfl, rfl, rfl⟩, ?_⟩
    · show 0 ≤ s.matrixStackSize
      omega
    · intro i hi
      have hi2 : (i : Int) < s.matrixStackSize := hi
      omega
  refine ⟨hp, ?_, ?_, ?_⟩
  · intro a b x y
    obtain ⟨c00, c01, c10, c11, _, _, _⟩ := hp
    unfold _transform_point translate
    simp only [c00, c01, c10, c11, mul_one, mul_zero, add_zero, zero_add, Prod.mk.injEq]
    constructor <;> ring
  · intro a b c d
    have he := translate_add_of_pure _ hp a b c d
    exact ⟨he, fun x y => by rw [he]⟩
  · intro a b c d
    rw [translate_add_of_pure _ hp a b c d, translate_add_of_pure _ hp c d a b,
      add_comm a c, add_comm b d]

/-- Witness for C35: after `push; translate(3, 4); push; translate(1, 1); pop` from the
fresh state, `translate(1, 2); translate(3, 5)` sends `(0, 0)` to the same device pixel as
`translate(4, 7)`. -/
theorem transform_is_pure_translation_witness :
    PureTranslation (runCalls (resetMatrix (readyState 8 8))
      [StackCall.push, StackCall.translate 3 4, StackCall.push, StackCall.translate 1 1,
        StackCall.pop]).currentMatrix ∧
    devicePixel (translate (translate (runCalls (resetMatrix (readyState 8 8))
      [StackCall.push, StackCall.translate 3 4, StackCall.push, StackCall.translate 1 1,
        StackCall.pop]) 1 2) 3 5) 0 0
      = devicePixel (translate (runCalls (resetMatrix (readyState 8 8))
      [StackCall.push, StackCall.translate 3 4, StackCall.push, StackCall.translate 1 1,
        StackCall.pop]) (1 + 3) (2 + 5)) 0 0 :=
  ⟨(transform_is_pure_translation (readyState 8 8) rfl _).1,
   ((transform_is_pure_translation (readyState 8 8) rfl _).2.2.1 1 2 3 5).2 0 0⟩

/-- The PIE fill loop of `arcDetail` over three samples, for a state with fill and stroke
enabled and weight 1: each fan triangle paints its three edges in the stroke colour and
then its fill pixels. -/
theorem arcFillPie_two (s : State) (hs : s.useStroke = true) (hf : s.useFill = true)
    (hw : s.strokeWeightValue = 1) (cx cy : Int) (p0 p1 p2 : Int × Int)
    (e0 f0 e1 f1 : List (Int × Int))
    (he0 : triangleStrokePts 1 cx cy p0.1 p0.2 p1.1 p1.2 = some e0)
    (hf0 : triangleFillPts cx cy p0.1 p0.2 p1.1 p1.2 = some f0)
    (he1 : triangleStrokePts 1 cx cy p1.1 p1.2 p2.1 p2.2 = some e1)
    (hf1 : triangleFillPts cx cy p1.1 p1.2 p2.1 p2.2 = some f1) :
    arcFillPie cx cy [p0, p1, p2] (intRangeLt 0 2) s
      = some (paint s.fillColor f1 (paint s.strokeColor e1
          (paint s.fillColor f0 (paint s.strokeColor e0 s)))) := by
  have hr : intRangeLt 0 2 = [0, 1] := by decide
  have hp0 : ptAt [p0, p1, p2] 0 = some p0 := rfl
  have hp1 : ptAt [p0, p1, p2] (0 + 1) = some p1 := rfl
  have hp2 : ptAt [p0, p1, p2] 1 = some p1 := rfl
  have hp3 : ptAt [p0, p1, p2] (1 + 1) = some p2 := rfl
  rw [hr]
  simp only [arcFillPie, hp0, hp1, hp2, hp3, Option.some_bind]
  rw [triangle_stroke_fill s hs hf, hw, he0, hf0]
  simp only [Option.some_bind, Option.map_some']
  rw [triangle_stroke_fill _ (by rw [paint_useStroke, paint_useStroke]; exact hs)
    (by rw [paint_useFill, paint_useFill]; exact hf)]
  simp only [paint_strokeWeightValue, paint_fillColor, paint_strokeColor, hw, he1, hf1,
    Option.some_bind, Option.map_some']

/-- C36 (defect in the code): the PIE fill of `arcDetail` calls `triangle`, which draws its
outline when stroke is enabled.  On the 24x24 canvas with red fill and blue stroke,
`arcDetail(0, 0, 20, 20, 0, 1, PIE, 2)` (RADIANS) samples `(20,10)`, `(18,14)`, `(15,18)`
around the centre `(10, 10)`; the fill pass alone leaves the pixel `(14, 12)` of the interior
fan edge from `(10, 10)` to `(18, 14)` in the stroke colour, the pixel still holds the
stroke colour after the whole call, and it is on none of the two connecting segments and
two radii of the outline. -/
theorem arc_fill_strokes_fan_edges :
    arcSamples taylorLibm 10 10 10 10 0 ((1 - 0) / 2) 2 = [(20, 10), (18, 14), (15, 18)] ∧
    (∃ s1 ∈ arcFillPie 10 10 [(20, 10), (18, 14), (15, 18)] (intRangeLt 0 2)
        (stroke (fill (readyState 24 24) 255 0 0) 0 0 255),
      pixelAt s1 14 12 = some (packColor 0 0 255)) ∧
    (∃ s' ∈ arcDetail taylorLibm (stroke (fill (readyState 24 24) 255 0 0) 0 0 255)
        0 0 20 20 0 1 PIE 2,
      pixelAt s' 14 12 = some (packColor 0 0 255)) ∧
    (∀ g ∈ arcPieSegments taylorLibm (stroke (fill (readyState 24 24) 255 0 0) 0 0 255)
        0 0 20 20 0 1 2,
      ∃ l ∈ linePts 1 g.1.1 g.1.2 g.2.1 g.2.2, (14, 12) ∉ l) ∧
    (∃ l ∈ linePts 1 10 10 18 14, (14, 12) ∈ l) ∧
    pixelAt (stroke (fill (readyState 24 24) 255 0 0) 0 0 255) 14 12
      = some (packColor 0 0 0) ∧
    packColor 0 0 255 ≠ packColor 255 0 0 := by
  have hsamp : arcSamples taylorLibm 10 10 10 10 0 ((1 - 0) / 2) 2
      = [(20, 10), (18, 14), (15, 18)] := by decide!
  have key : ∃ e0 ∈ triangleStrokePts 1 10 10 20 10 18 14,
      ∃ f0 ∈ triangleFillPts 10 10 20 10 18 14,
      ∃ e1 ∈ triangleStrokePts 1 10 10 18 14 15 18,
      ∃ f1 ∈ triangleFillPts 10 10 18 14 15 18,
        (∀ p ∈ e0 ++ f0 ++ (e1 ++ f1), 0 ≤ p.1 ∧ 0 ≤ p.2) ∧ (14, 12) ∈ e1 ∧ (14, 12) ∉ f1 := by
    decide!
  have hseg : ∀ g ∈ arcPieSegments taylorLibm (stroke (fill (readyState 24 24) 255 0 0) 0 0 255)
        0 0 20 20 0 1 2,
      ∃ l ∈ linePts 1 g.1.1 g.1.2 g.2.1 g.2.2, (14, 12) ∉ l := by
    decide!
  have hedge : ∃ l ∈ linePts 1 10 10 18 14, (14, 12) ∈ l := by decide!
  obtain ⟨e0, he0, f0, hf0, e1, he1, f1, hf1, hnn, hin, hout⟩ := key
  have hr : Ready (stroke (fill (readyState 24 24) 255 0 0) 0 0 255) :=
    ready_stroke _ _ _ _ (ready_fill _ _ _ _ (ready_readyState 24 24))
  have hc : InCanvas (stroke (fill (readyState 24 24) 255 0 0) 0 0 255) 14 12 :=
    ⟨by decide, by decide, by decide, by decide⟩
  have hfill := arcFillPie_two (stroke (fill (readyState 24 24) 255 0 0) 0 0 255) rfl rfl rfl
    10 10 (20, 10) (18, 14) (15, 18) e0 f0 e1 f1 (Option.mem_def.mp he0)
    (Option.mem_def.mp hf0) (Option.mem_def.mp he1) (Option.mem_def.mp hf1)
  have hfill2 : arcFillPie 10 10 [(20, 10), (18, 14), (15, 18)] (intRangeLt 0 2)
      (stroke (fill (readyState 24 24) 255 0 0) 0 0 255)
      = some (paint ⟨255, 0, 0⟩ f1 (paint ⟨0, 0, 255⟩ e1
          (paint ⟨255, 0, 0⟩ f0 (paint ⟨0, 0, 255⟩ e0
            (stroke (fill (readyState 24 24) 255 0 0) 0 0 255))))) := hfill
  -- the cell of (14, 12) after the fill pass
  have hrB : Ready (paint ⟨255, 0, 0⟩ f0 (paint ⟨0, 0, 255⟩ e0
      (stroke (fill (readyState 24 24) 255 0 0) 0 0 255))) :=
    ready_paint _ _ _ (ready_paint _ _ _ hr)
  have hcB : InCanvas (paint ⟨255, 0, 0⟩ f0 (paint ⟨0, 0, 255⟩ e0
      (stroke (fill (readyState 24 24) 255 0 0) 0 0 255))) 14 12 :=
    (inCanvas_paint _ _ _ _ _).mpr ((inCanvas_paint _ _ _ _ _).mpr hc)
  have hblue : pixelAt (paint ⟨255, 0, 0⟩ f1 (paint ⟨0, 0, 255⟩ e1
      (paint ⟨255, 0, 0⟩ f0 (paint ⟨0, 0, 255⟩ e0
        (stroke (fill (readyState 24 24) 255 0 0) 0 0 255))))) 14 12
      = some (packColor 0 0 255) := by
    rw [pixelAt_paint_nonneg _ _ _ (ready_paint _ _ _ hrB)
        (fun p hp => hnn p (List.mem_append_right _ (List.mem_append_right _ hp))) _ _
        ((inCanvas_paint _ _ _ _ _).mpr hcB), if_neg hout,
      pixelAt_paint_nonneg _ _ _ hrB
        (fun p hp => hnn p (List.mem_append_right _ (List.mem_append_left _ hp))) _ _ hcB,
      if_pos hin]
  -- the stroke pass only paints in the stroke colour
  obtain ⟨ptsS, hstroke⟩ := strokes_arcStroke taylorLibm PIE 10 10 10 10 10 10 0 ((1 - 0) / 2) 2
    (by decide) (paint ⟨255, 0, 0⟩ f1 (paint ⟨0, 0, 255⟩ e1
      (paint ⟨255, 0, 0⟩ f0 (paint ⟨0, 0, 255⟩ e0
        (stroke (fill (readyState 24 24) 255 0 0) 0 0 255)))))
  simp only [hsamp, paint_strokeColor] at hstroke
  have hD : arcDetail taylorLibm (stroke (fill (readyState 24 24) 255 0 0) 0 0 255)
      0 0 20 20 0 1 PIE 2 = some (paint ⟨0, 0, 255⟩ ptsS
        (paint ⟨255, 0, 0⟩ f1 (paint ⟨0, 0, 255⟩ e1
          (paint ⟨255, 0, 0⟩ f0 (paint ⟨0, 0, 255⟩ e0
            (stroke (fill (readyState 24 24) 255 0 0) 0 0 255)))))) := by
    have hdet : arcEffectiveDetail 2 = 2 := by decide
    have htd : Int.tdiv 20 2 = 10 := by decide
    have hn0 : _normalize_angle (stroke (fill (readyState 24 24) 255 0 0) 0 0 255) 0 = 0 := by
      decide!
    have hn1 : _normalize_angle (stroke (fill (readyState 24 24) 255 0 0) 0 0 255) 1 = 1 := by
      decide!
    have hstop : arcStopAngle 0 1 = 1 := by decide!
    have hlen : ((([(20, 10), (18, 14), (15, 18)] : List (Int × Int)).length : Int) - 1) = 2 := by
      decide
    unfold arcDetail
    rw [if_neg (by decide)]
    simp only [show (stroke (fill (readyState 24 24) 255 0 0) 0 0 255).useFill = true from rfl,
      if_true, hdet, htd, hn0, hn1, hstop, zero_add, Int.cast_ofNat, hsamp, hlen, hfill2,
      Option.some_bind, paint_useStroke,
      show (stroke (fill (readyState 24 24) 255 0 0) 0 0 255).useStroke = true from rfl]
    exact hstroke
  refine ⟨hsamp, ⟨_, Option.mem_def.mpr hfill2, hblue⟩, ⟨_, Option.mem_def.mpr hD, ?_⟩, hseg,
    hedge, ?_, by decide⟩
  · rw [pixelAt_paint _ _ _ (ready_paint _ _ _ (ready_paint _ _ _ hrB)).1
      (ready_paint _ _ _ (ready_paint _ _ _ hrB)).2 _ _
      ((inCanvas_paint _ _ _ _ _).mpr ((inCanvas_paint _ _ _ _ _).mpr hcB)), hblue]
    split <;> rfl
  · exact pixelAt_readyState 24 24 14 12 (by decide) (by decide) (by decide) (by decide)

/-- Under the identity transform, on a canvas of at most `2^23` columns and rows, the two
variants of `_set_pixel` agree at every pixel with `x ≠ -1` and `y ≠ -1`. -/
theorem set_pixel_variants_agree (s : State) (hm : s.currentMatrix = _init_matrix)
    (hwd : s.width ≤ 2 ^ 23) (hht : s.height ≤ 2 ^ 23)
    (x y : Int) (hx : x ≠ -1) (hy : y ≠ -1) (r g b : Nat) :
    _set_pixel s x y r g b = Single._set_pixel s x y r g b := by
  unfold _set_pixel Single._set_pixel
  cases hfb : s.framebuffer with
  | none => rfl
  | some fb =>
    simp only [devicePixel_identity s hm x y]
    by_cases hin : 0 ≤ x ∧ 0 ≤ y
    · rw [castHalf_of_nonneg x hin.1, castHalf_of_nonneg y hin.2]
    · have hout : x < 0 ∨ x ≥ s.width ∨ y < 0 ∨ y ≥ s.height := by omega
      have hout2 : castHalf x < 0 ∨ castHalf x ≥ s.width ∨ castHalf y < 0 ∨
          castHalf y ≥ s.height := by
        unfold castHalf
        split_ifs <;> omega
      rw [if_pos hout, if_pos hout2]

/-- C37 (defect in the code): under the identity transform on a black 3x3 canvas, the
library `_set_pixel(-1, 1, 255, 0, 0)` writes red into the cell of `(0, 1)`, while the
single-header `_set_pixel` leaves the buffer unchanged; the same happens for `(1, -1)` and
the cell of `(1, 0)`, and for the library `point(-1, 1)` with a red stroke. -/
theorem set_pixel_variants_differ :
    (readyState 3 3).currentMatrix = _init_matrix ∧
    pixelAt (_set_pixel (readyState 3 3) (-1) 1 255 0 0) 0 1 = some (packColor 255 0 0) ∧
    (Single._set_pixel (readyState 3 3) (-1) 1 255 0 0).framebuffer
      = (readyState 3 3).framebuffer ∧
    pixelAt (Single._set_pixel (readyState 3 3) (-1) 1 255 0 0) 0 1
      = some (packColor 0 0 0) ∧
    pixelAt (_set_pixel (readyState 3 3) 1 (-1) 255 0 0) 1 0 = some (packColor 255 0 0) ∧
    (Single._set_pixel (readyState 3 3) 1 (-1) 255 0 0).framebuffer
      = (readyState 3 3).framebuffer ∧
    pixelAt (point (stroke (readyState 3 3) 255 0 0) (-1) 1) 0 1
      = some (packColor 255 0 0) ∧
    packColor 255 0 0 ≠ packColor 0 0 0 := by
  decide!

end P5c
